import Mathlib

/-!
# Verification of the hienoi particle-simulation core

Shallow embedding of the hienoi repository's core modules
(`hienoi/_dynamicarray.py`, `hienoi/_orderedbuffer.py`, `hienoi/_kdtree.py`,
`hienoi/dynamics.py`, `hienoi/application.py`) together with proofs about the
embedded operations.

Modelling conventions, applied throughout:

* Python/NumPy floating-point scalars are modelled by exact rationals `ℚ`;
  Python integers by `ℤ` or `ℕ`.  Machine-width effects (the `int32` particle
  id field wrapping after 2^31 allocations, `float64` rounding) are not
  modelled; all claims under study are about algorithmic behaviour, not about
  word-size overflow or rounding.
* NumPy arrays are modelled by Lean lists holding the written cells.  An
  in-place slice assignment `a[i:j] = xs` is modelled by rebuilding the list
  with `take`/`drop`.
* A Python function that can raise is modelled with `Except`; a function whose
  body contains no `raise` is modelled as a total function.
* The iterative stack-driven loops of `_kdtree.py` (which use a
  `collections.deque` as a stack via `popleft`/`appendleft`) are modelled by
  structurally identical recursions over an explicit stack represented as a
  Lean list with its head as the top.
-/

namespace Hienoi

/-- Write `data` into list `l` starting at position `j`
(the model of the NumPy slice assignment `l[j:j+len(data)] = data`).
Cells of `l` beyond the written range are preserved; if `l` is shorter than
`j + data.length` the result has length `max l.length (j + data.length)`
with the written cells appended (the cells of a NumPy array are always
allocated up front, so in reachable states the write is always in range). -/
def writeSlice (l : List α) (j : ℕ) (data : List α) : List α :=
  l.take j ++ data ++ l.drop (j + data.length)

/-! ## `hienoi/_dynamicarray.py` — `DynamicArray`

The NumPy storage `_array` is represented by its cell count `capacity`
together with the list `data` of logical elements (the `data` property view
`self._array[:self._size]`); `size` mirrors `_size` and is an integer, like
in Python, so that the behaviour on negative requested sizes is captured.
`_GROW_FACTOR = 1.5`; `math.ceil(1.0 / (_GROW_FACTOR - 1.0)) * 2 = 4`. -/

structure DynamicArray (α : Type) where
  capacity : ℕ
  size : ℤ
  data : List α
deriving DecidableEq, Repr

namespace DynamicArray

/-- `DynamicArray.__init__(capacity, dtype)`: `numpy.empty(capacity)` and
`_size = 0`.  No value of `capacity : ℕ` raises. -/
def init (α : Type) (capacity : ℕ) : DynamicArray α :=
  { capacity := capacity, size := 0, data := [] }

/-- `len(self._array) * _GROW_FACTOR` truncated to an integer, computed
exactly: `int(c * 1.5) = ⌊3c/2⌋` for a nonnegative capacity `c`. -/
def growTarget (capacity : ℕ) (requested : ℤ) : ℤ :=
  max requested (max ((3 * (capacity : ℤ)) / 2) 4)

/-- `DynamicArray.grow(requested, copy=True)`.  The body contains no `raise`:
a requested size not above the capacity (negative sizes included) returns at
once, leaving the array untouched. -/
def grow (a : DynamicArray α) (requested : ℤ) (copy : Bool) : DynamicArray α :=
  if requested ≤ (a.capacity : ℤ) then a
  else
    { capacity := (growTarget a.capacity requested).toNat,
      size := if copy then a.size else 0,
      data := if copy then a.data else [] }

/-- `DynamicArray.resize(requested, copy=True)`: grow, then set
`_size = requested` unconditionally. -/
def resize (a : DynamicArray α) (requested : ℤ) (copy : Bool) : DynamicArray α :=
  { a.grow requested copy with size := requested }

end DynamicArray

/-! ## `hienoi/_orderedbuffer.py` — `OrderedBuffer`

Buckets are `numpy.empty(bucket_capacity)` arrays whose cells are written
left-to-right; each bucket is modelled by the list of its cells written so
far (at most `bucket_capacity` of them — reads of never-written cells do not
occur in any reachable state, see the shape invariant below).  `_pos` is the
`[bucket index, offset]` write cursor, `_bunchs` the out-of-line segments
with the cursor position at which each was recorded. -/

structure OrderedBuffer (α : Type) where
  bucket_capacity : ℕ
  buckets : List (List α)
  pos : ℕ × ℕ
  bunchs : List ((ℕ × ℕ) × List α)
deriving DecidableEq, Repr

namespace OrderedBuffer

/-- `OrderedBuffer.__init__(bucket_capacity, dtype)` past its validation
(`bucket_capacity < 1` raises, see `OrderedBuffer.initChecked`). -/
def init (α : Type) (bucket_capacity : ℕ) : OrderedBuffer α :=
  { bucket_capacity := bucket_capacity, buckets := [], pos := (0, 0), bunchs := [] }

/-- `OrderedBuffer.__len__`. -/
def length (b : OrderedBuffer α) : ℕ :=
  b.bucket_capacity * b.pos.1 + b.pos.2 + (b.bunchs.map (fun x => x.2.length)).sum

/-- The `while i < m` part of the `chunks` property: emit the tail
`self._buckets[i][j:]` of every bucket before bucket `m`, then the partial
slice `self._buckets[i][j:n]` if `j < n`. -/
def emitRange (bks : List (List α)) (i j m n : ℕ) : List (List α) :=
  if i < m then (bks.getD i []).drop j :: emitRange bks (i + 1) 0 m n
  else if j < n then [((bks.getD i []).drop j).take (n - j)] else []
termination_by m - i

/-- The `for bunch in bunchs` loop of the `chunks` property, over the stored
bunches followed by the sentinel `_Bunch(position=self._pos, data=[])`. -/
def chunksLoop (bks : List (List α)) :
    List ((ℕ × ℕ) × List α) → ℕ → ℕ → List (List α)
  | [], _, _ => []
  | ((m, n), data) :: rest, i, j =>
    emitRange bks i j m n
      ++ (if data.length = 0 then [] else [data])
      ++ chunksLoop bks rest m n

/-- `OrderedBuffer.chunks`: the address-stable slices spanning all elements
added since the last `clear`, in insertion order. -/
def chunks (b : OrderedBuffer α) : List (List α) :=
  chunksLoop b.buckets (b.bunchs ++ [(b.pos, [])]) 0 0

/-- All buffered elements in insertion order (the concatenation of the
chunks). -/
def joinChunks (b : OrderedBuffer α) : List α :=
  b.chunks.flatten

/-- `OrderedBuffer._push(data, size)` (the state part; the returned view `out`
holds exactly the values of `data`).  Python's `self._bucket_capacity - j >=
size` test is on unbounded integers; since the cursor offset `j` never
exceeds the capacity it matches the truncated-subtraction form used here. -/
def push (b : OrderedBuffer α) (data : List α) : OrderedBuffer α :=
  let i := b.pos.1
  let j := b.pos.2
  if data.length ≤ b.bucket_capacity - j then
    let bks := if i = b.buckets.length then b.buckets ++ [[]] else b.buckets
    let bks := bks.set i (writeSlice (bks.getD i []) j data)
    let j' := (j + data.length) % b.bucket_capacity
    { b with buckets := bks, pos := if j' = 0 then (i + 1, 0) else (i, j') }
  else
    { b with bunchs := b.bunchs ++ [(b.pos, data)] }

/-- `OrderedBuffer.append(data)`. -/
def append (b : OrderedBuffer α) (x : α) : OrderedBuffer α :=
  b.push [x]

/-- `OrderedBuffer.extend(data)`. -/
def extend (b : OrderedBuffer α) (data : List α) : OrderedBuffer α :=
  if data.length < 1 then b else b.push data

/-- `OrderedBuffer.clear()`: reset the cursor and drop the bunches; the
bucket storage itself is kept (and overwritten by later pushes). -/
def clear (b : OrderedBuffer α) : OrderedBuffer α :=
  { b with pos := (0, 0), bunchs := [] }

end OrderedBuffer

/-! ## `hienoi/_kdtree.py` — `KDTree`

2-d points with exact rational coordinates.  The flat pre-order node array
(where the right child's offset is `left_child_offset + left_subtree_size`)
is modelled by the equivalent binary tree: the stack-driven loops below visit
it in exactly the order of the Python `deque`-as-stack loops. -/

abbrev Pt := ℚ × ℚ

def ptZero : Pt := (0, 0)

/-- Squared euclidean distance, `numpy.sum((point - points) ** 2, axis=-1)`. -/
def sqDist (a b : Pt) : ℚ :=
  (a.1 - b.1) ^ 2 + (a.2 - b.2) ^ 2

/-- Per-node bounding box (`lower_bounds`, `upper_bounds`). -/
structure Box where
  lower : Pt
  upper : Pt
deriving DecidableEq, Repr

/-- `numpy.amin(points, axis=0)` / `numpy.amax(points, axis=0)`; a zero-size
reduction raises `ValueError`, hence the `Option`. -/
def boundsOf : List Pt → Option Box
  | [] => none
  | p :: ps =>
    some { lower := ps.foldl (fun q r => (min q.1 r.1, min q.2 r.2)) p,
           upper := ps.foldl (fun q r => (max q.1 r.1, max q.2 r.2)) p }

/-- Coordinate along a split axis (`false` = axis 0, `true` = axis 1). -/
def coordAx (ax : Bool) (p : Pt) : ℚ :=
  if ax then p.2 else p.1

/-- `_pt_to_node_near_dist`: least possible squared distance from `q` to a
point of the box. -/
def nearDist (q : Pt) (bx : Box) : ℚ :=
  max 0 (max (q.1 - bx.upper.1) (bx.lower.1 - q.1)) ^ 2
    + max 0 (max (q.2 - bx.upper.2) (bx.lower.2 - q.2)) ^ 2

/-- `_pt_to_node_far_dist`: greatest possible squared distance from `q` to a
point of the box. -/
def farDist (q : Pt) (bx : Box) : ℚ :=
  max 0 (max (bx.upper.1 - q.1) (q.1 - bx.lower.1)) ^ 2
    + max 0 (max (bx.upper.2 - q.2) (q.2 - bx.lower.2)) ^ 2

/-- The tree of `_build`: a leaf holds a bucket (the point indices of one
`self._buckets` entry); every node carries its subtree's bounding box. -/
inductive KDT where
  | leaf (box : Box) (indices : List ℕ)
  | node (box : Box) (left right : KDT)
deriving DecidableEq, Repr

namespace KDT

def box : KDT → Box
  | .leaf bx _ => bx
  | .node bx _ _ => bx

/-- All bucket indices below a node, in depth-first order (the leaves of
`nodes[i : i + node_sizes[i]]` in `_search_all_within_radius`). -/
def collectIndices : KDT → List ℕ
  | .leaf _ idxs => idxs
  | .node _ l r => l.collectIndices ++ r.collectIndices

/-- Node count of the subtree (the `size` attribute). -/
def weight : KDT → ℕ
  | .leaf _ _ => 1
  | .node _ l r => 1 + l.weight + r.weight

end KDT

inductive KDError where
  | badBucketSize
  | emptyReduction
  | fuelExhausted
deriving DecidableEq, Repr

/-- `KDTree._build` on one working index set.  `fuel` bounds the recursion
depth: the Python loop does not terminate when a set of more than
`bucket_size` coincident points is split (both the working set and the split
location repeat forever), which surfaces as `.error .fuelExhausted`; an empty
working set raises `ValueError` inside `numpy.amin` (`.error
.emptyReduction`).  The split axis is `numpy.argmax` of the side lengths
(axis 0 on ties), the split location the midpoint of that side; points with
coordinate `<= split` go left, the rest right, and the left subtree is built
first. -/
def buildAux (data : List Pt) (bsize : ℕ) : ℕ → List ℕ → Except KDError KDT
  | 0, _ => .error .fuelExhausted
  | fuel + 1, idxs => do
    let pts := idxs.map (fun k => data.getD k ptZero)
    match boundsOf pts with
    | none => .error .emptyReduction
    | some bx =>
      if idxs.length ≤ bsize then
        .ok (.leaf bx idxs)
      else
        let ax := decide (bx.upper.1 - bx.lower.1 < bx.upper.2 - bx.lower.2)
        let split := (coordAx ax bx.lower + coordAx ax bx.upper) / 2
        let l ← buildAux data bsize fuel
          (idxs.filter (fun k => coordAx ax (data.getD k ptZero) ≤ split))
        let r ← buildAux data bsize fuel
          (idxs.filter (fun k => ¬coordAx ax (data.getD k ptZero) ≤ split))
        .ok (.node bx l r)

/-- The built index: the data points plus the tree over all their indices
(`numpy.arange(self._n)`).  A recursion-depth budget of `n + 1` is enough
for every input on which the Python loop terminates, because every split of
a non-coincident working set is strictly decreasing. -/
def buildKD (data : List Pt) (bsize : ℕ) : Except KDError KDT :=
  buildAux data bsize (data.length + 1) (List.range data.length)

structure KDTree where
  data : List Pt
  bucket_size : ℕ
  tree : KDT
deriving DecidableEq, Repr

/-- `KDTree.__init__(data, bucket_size)`: `bucket_size < 1` raises
`ValueError` before anything else; then `_build` runs. -/
def KDTree.init (data : List Pt) (bucket_size : ℤ) : Except KDError KDTree :=
  if bucket_size < 1 then .error .badBucketSize
  else do
    let t ← buildKD data bucket_size.toNat
    .ok { data := data, bucket_size := bucket_size.toNat, tree := t }

/-- The element `heapq.heappushpop(nearests, (-dist, j))` pops from the
negated min-heap, and the heap contents afterwards: the pair with the
greatest squared distance (smallest index on ties) among the heap plus the
new element is removed.  Only the multiset of heap entries is
observable in the results under study (`sort=True` re-sorts), so the heap is
modelled by the list of its entries. -/
def pushpop (h : List (ℚ × ℕ)) (x : ℚ × ℕ) : (ℚ × ℕ) × List (ℚ × ℕ) :=
  let m := h.foldl
    (fun a b => if a.1 < b.1 ∨ (a.1 = b.1 ∧ b.2 < a.2) then b else a) x
  (m, (x :: h).erase m)

/-- The bucket scan of `_search_k_nearests` (`for j, dist in zip(...)`):
keep a point when its squared distance is strictly below the current limit,
pushing while fewer than `count` are held and replacing the worst (updating
the limit to the evicted distance) afterwards. -/
def scanBucket (data : List Pt) (q : Pt) (count : ℕ) :
    List ℕ → List (ℚ × ℕ) → WithTop ℚ → List (ℚ × ℕ) × WithTop ℚ
  | [], h, limit => (h, limit)
  | j :: rest, h, limit =>
    let d := sqDist q (data.getD j ptZero)
    if (d : WithTop ℚ) < limit then
      if count ≤ h.length then
        let p := pushpop h (d, j)
        scanBucket data q count rest p.2 (p.1.1 : WithTop ℚ)
      else
        scanBucket data q count rest ((d, j) :: h) limit
    else
      scanBucket data q count rest h limit

/-- The stack loop of `_search_k_nearests`.  A subtree is skipped when the
least possible squared distance to its box exceeds the limit; at a branch
the child whose box is nearer is stacked on top (visited first).  `fuel`
bounds the iteration count: every iteration strictly decreases the summed
node counts of the stacked subtrees, so any fuel at least that sum (the
callers pass the whole tree's node count) is never exhausted. -/
def searchKLoop (data : List Pt) (q : Pt) (count : ℕ) :
    ℕ → List (KDT × ℚ) → List (ℚ × ℕ) → WithTop ℚ → List (ℚ × ℕ)
  | _, [], h, _ => h
  | 0, _ :: _, h, _ => h
  | fuel + 1, (t, nd) :: rest, h, limit =>
    if limit < (nd : WithTop ℚ) then
      searchKLoop data q count fuel rest h limit
    else
      match t with
      | .leaf _ idxs =>
        let p := scanBucket data q count idxs h limit
        searchKLoop data q count fuel rest p.1 p.2
      | .node _ l r =>
        let dl := nearDist q l.box
        let dr := nearDist q r.box
        if dl ≤ dr then
          searchKLoop data q count fuel ((l, dl) :: (r, dr) :: rest) h limit
        else
          searchKLoop data q count fuel ((r, dr) :: (l, dl) :: rest) h limit

/-- The stack loop of `_search_all_within_radius`.  A subtree entirely
within the radius contributes every bucket index below it (their distances
are filled in lazily in Python, computed directly here); a leaf otherwise is
filtered point by point with a non-strict comparison.  `fuel` bounds the
iteration count exactly as in `searchKLoop`. -/
def searchAllLoop (data : List Pt) (q : Pt) (rsq : WithTop ℚ) :
    ℕ → List (KDT × ℚ) → List (ℚ × ℕ) → List (ℚ × ℕ)
  | _, [], acc => acc
  | 0, _ :: _, acc => acc
  | fuel + 1, (t, nd) :: rest, acc =>
    if rsq < (nd : WithTop ℚ) then
      searchAllLoop data q rsq fuel rest acc
    else if (farDist q t.box : WithTop ℚ) ≤ rsq then
      searchAllLoop data q rsq fuel rest
        (acc ++ t.collectIndices.map (fun j => (sqDist q (data.getD j ptZero), j)))
    else
      match t with
      | .leaf _ idxs =>
        searchAllLoop data q rsq fuel rest
          (acc ++ idxs.filterMap (fun j =>
            let d := sqDist q (data.getD j ptZero)
            if (d : WithTop ℚ) ≤ rsq then some (d, j) else none))
      | .node _ l r =>
        let dl := nearDist q l.box
        let dr := nearDist q r.box
        if dl ≤ dr then
          searchAllLoop data q rsq fuel ((l, dl) :: (r, dr) :: rest) acc
        else
          searchAllLoop data q rsq fuel ((r, dr) :: (l, dl) :: rest) acc

/-- Ascending comparison used to model `out.sort(order='squared_distance')`
on the `(squared_distance, index)` record dtype: NumPy compares the named
field first and the remaining fields (here the index) as tie-breakers. -/
def neighbourLE (a b : ℚ × ℕ) : Prop :=
  a.1 < b.1 ∨ (a.1 = b.1 ∧ a.2 ≤ b.2)

instance : DecidableRel neighbourLE := fun a b => by
  unfold neighbourLE; infer_instance

def sortNeighbours (l : List (ℚ × ℕ)) : List (ℚ × ℕ) :=
  l.insertionSort neighbourLE

/-- `KDTree._search_k_nearests(point, count, radius, sort)` with the squared
limit already extended to `⊤` for an unbounded radius. -/
def searchKNearests (t : KDTree) (q : Pt) (count : ℕ) (limit : WithTop ℚ)
    (sort : Bool) : List (ℚ × ℕ) :=
  let out := searchKLoop t.data q count t.tree.weight
    [(t.tree, nearDist q t.tree.box)] [] limit
  if sort then sortNeighbours out else out

/-- `KDTree._search_all_within_radius(point, radius, sort)`. -/
def searchAllWithinRadius (t : KDTree) (q : Pt) (rsq : WithTop ℚ)
    (sort : Bool) : List (ℚ × ℕ) :=
  let out := searchAllLoop t.data q rsq t.tree.weight
    [(t.tree, nearDist q t.tree.box)] []
  if sort then sortNeighbours out else out

/-- The common tail of `KDTree.search` once `count` has been defaulted to
`self._n`: a negative radius yields an empty result, `count >= self._n`
dispatches to the all-within-radius path, anything else to the k-nearest
path; `radius = None` stands for an unbounded (infinite) radius. -/
def searchDispatch (t : KDTree) (q : Pt) (c : ℤ) (radius : Option ℚ)
    (sort : Bool) : List (ℚ × ℕ) :=
  match radius with
  | some r =>
    if r < 0 then []
    else if (t.data.length : ℤ) ≤ c then searchAllWithinRadius t q ((r ^ 2 : ℚ) : WithTop ℚ) sort
    else searchKNearests t q c.toNat ((r ^ 2 : ℚ) : WithTop ℚ) sort
  | none =>
    if (t.data.length : ℤ) ≤ c then searchAllWithinRadius t q ⊤ sort
    else searchKNearests t q c.toNat ⊤ sort

/-- `KDTree.search(point, count, radius, sort)`: `count = None` means all
points, `count < 1` an empty result. -/
def KDTree.search (t : KDTree) (q : Pt) (count : Option ℤ) (radius : Option ℚ)
    (sort : Bool) : List (ℚ × ℕ) :=
  match count with
  | none => searchDispatch t q (t.data.length : ℤ) radius sort
  | some c => if c < 1 then [] else searchDispatch t q c radius sort

/-! ## `hienoi/dynamics.py` — `ParticleSimulation`

A particle record (`_ATTRS`): id, alive flag, position, velocity, force and
mass; the rendering-only `size` and `color` attributes and the caller-defined
extension attributes are omitted — they are copied wholesale alongside the
modelled fields and none of the behaviour under study reads them. -/

structure Particle where
  id : ℤ
  alive : Bool
  position : Pt
  velocity : Pt
  force : Pt
  mass : ℚ
deriving DecidableEq, Repr

/-- The schema defaults (`id=-1`, `alive=True`, `mass=1.0`, vectors zero). -/
def Particle.default : Particle :=
  { id := -1, alive := true, position := ptZero, velocity := ptZero,
    force := ptZero, mass := 1 }

def Particle.setAlive (v : Bool) (p : Particle) : Particle :=
  { p with alive := v }

/-- Replace the element at index `n` (like an in-place NumPy record
mutation; out-of-range indices change nothing). -/
def modifyAt (l : List α) (n : ℕ) (f : α → α) : List α :=
  match l, n with
  | [], _ => []
  | x :: xs, 0 => f x :: xs
  | x :: xs, k + 1 => x :: modifyAt xs k f

/-- The engine state: `_time_step`, `_time`, `_last_id`, the consolidated
store `_array`, the pending buffer `_buffer` and the cached `_kd_tree`.  The
lifecycle callbacks (`presolve_callback`, `postsolve_callback`), stored on
the instance at construction in Python, are passed as parameters to `step`
instead so that states stay comparable values. -/
structure ParticleSimulation where
  time_step : ℚ
  time : ℚ
  last_id : ℤ
  array : DynamicArray Particle
  buffer : OrderedBuffer Particle
  kd_tree : Option KDTree
deriving DecidableEq, Repr

/-- A lifecycle or inter-process callback: arbitrary user code handed the
simulation instance. -/
abbrev Callback := ParticleSimulation → ParticleSimulation

namespace ParticleSimulation

/-- `ParticleSimulation.add_particle(**kwargs)`: any caller-supplied id is
discarded (`kwargs['id'] = self._last_id + 1`), the record goes to the
pending buffer and `_last_id` becomes the id just written. -/
def add_particle (s : ParticleSimulation) (overrides : Particle) :
    ParticleSimulation :=
  let p := { overrides with id := s.last_id + 1 }
  { s with buffer := s.buffer.append p, last_id := p.id }

/-- `ParticleSimulation.add_particles(count)`: `count` default records with
ids `arange(last_id + 1, last_id + 1 + count)`, handed to `extend` as one
bunch; `_last_id` becomes the last id of the batch.  (For `count = 0` the
Python method raises `IndexError` on `particles['id'][-1]` after the no-op
`extend`, leaving the state unchanged — which coincides with this model.) -/
def add_particles (s : ParticleSimulation) (count : ℕ) : ParticleSimulation :=
  let ps := (List.range count).map
    (fun k => { Particle.default with id := s.last_id + 1 + (k : ℤ) })
  { s with buffer := s.buffer.extend ps, last_id := s.last_id + (count : ℤ) }

/-- `numpy.searchsorted(a, v)` (side='left'): binary search for the leftmost
insertion point. -/
def searchsorted (a : List ℤ) (v : ℤ) (lo hi : ℕ) : ℕ :=
  if lo < hi then
    let mid := (lo + hi) / 2
    if a.getD mid 0 < v then searchsorted a v (mid + 1) hi
    else searchsorted a v lo mid
  else lo
termination_by hi - lo

/-- `ParticleSimulation.get_particle(id)`: binary search over the store's id
column only; raises `ValueError` (`NotFound`) if the row found does not
match. -/
def get_particle (s : ParticleSimulation) (id : ℤ) : Except String Particle :=
  let ids := s.array.data.map Particle.id
  let idx := searchsorted ids id 0 ids.length
  if (idx : ℤ) < s.array.size
      ∧ (s.array.data.getD idx Particle.default).id = id then
    .ok (s.array.data.getD idx Particle.default)
  else
    .error "NotFound"

/-- `ParticleSimulation.consolidate()`: gather the store and the buffer
chunks, count the alive records of each, return untouched when the buffer is
empty and nothing changed size; otherwise resize the store without
preserving it, refill it chunk by chunk in order (a chunk with no dead
records is copied wholesale, otherwise `numpy.compress` filters it), clear
the buffer and drop the cached k-d tree.  The per-chunk slice assignments
cover `[0, new_size)` exactly, so the refilled store data is their
concatenation. -/
def consolidate (s : ParticleSimulation) : ParticleSimulation :=
  let chunks := s.array.data :: s.buffer.chunks
  let new_size : ℕ := (chunks.map (fun c => c.countP (·.alive))).sum
  if s.buffer.length = 0 ∧ (new_size : ℤ) = s.array.size then s
  else
    let newData := (chunks.map (fun c =>
      if c.countP (·.alive) = c.length then c else c.filter (·.alive))).flatten
    { s with
      array := { s.array.resize (new_size : ℤ) false with data := newData },
      buffer := s.buffer.clear,
      kd_tree := none }

/-- `_solve(particles, time_step)` on one record: semi-implicit Euler — the
velocity absorbs `force * time_step / mass` and the position then advances
by the *new* velocity times the time step. -/
def solveParticle (dt : ℚ) (p : Particle) : Particle :=
  let v : Pt := (p.velocity.1 + p.force.1 * dt / p.mass,
                 p.velocity.2 + p.force.2 * dt / p.mass)
  { p with velocity := v,
           position := (p.position.1 + v.1 * dt, p.position.2 + v.2 * dt) }

/-- `particles['force'] = 0`. -/
def zeroForce (p : Particle) : Particle :=
  { p with force := ptZero }

/-- `ParticleSimulation.step()`: advance the clock by the time step; if a
presolve callback is configured run it and consolidate; integrate the whole
store with `_solve` and zero every force accumulator; if a postsolve
callback is configured run it and consolidate. -/
def step (presolve postsolve : Option Callback) (s : ParticleSimulation) :
    ParticleSimulation :=
  let s1 := { s with time := s.time + s.time_step }
  let s2 := match presolve with
    | none => s1
    | some f => consolidate (f s1)
  let s3 := { s2 with
    array.data := (s2.array.data.map (solveParticle s2.time_step)).map zeroForce }
  match postsolve with
  | none => s3
  | some f => consolidate (f s3)

/-- `ParticleSimulation.get_neighbour_particles(point, count, radius, sort)`:
build (and cache) the k-d tree over the store's positions when none is held
for the current generation, then search it.  Returns the updated simulation
together with the neighbour records. -/
def get_neighbour_particles (s : ParticleSimulation) (point : Pt)
    (count : Option ℤ) (radius : Option ℚ) (sort : Bool) :
    Except KDError (ParticleSimulation × List (ℚ × ℕ)) :=
  match s.kd_tree with
  | some t => .ok (s, t.search point count radius sort)
  | none =>
    match KDTree.init (s.array.data.map (·.position)) 128 with
    | .error e => .error e
    | .ok t => .ok ({ s with kd_tree := some t }, t.search point count radius sort)

/-- `ParticleSimulation.__init__`: the only validation is the
`OrderedBuffer` bucket-capacity check; in particular no constraint at all is
placed on `time_step`.  (The optional `initialize_callback`, run once and
followed by a consolidation, is applied by the caller and does not affect
the validation behaviour.) -/
def init (time_step : ℚ) (initial_particle_capacity : ℕ)
    (particle_bucket_buffer_capacity : ℤ) :
    Except String ParticleSimulation :=
  if particle_bucket_buffer_capacity < 1 then
    .error "A minimum bucket capacity of 1 is expected."
  else
    .ok { time_step := time_step, time := 0, last_id := -1,
          array := DynamicArray.init Particle initial_particle_capacity,
          buffer := OrderedBuffer.init Particle particle_bucket_buffer_capacity.toNat,
          kd_tree := none }

end ParticleSimulation

/-- `OrderedBuffer.__init__` including its validation. -/
def OrderedBuffer.initChecked (α : Type) (bucket_capacity : ℤ) :
    Except String (OrderedBuffer α) :=
  if bucket_capacity < 1 then
    .error "A minimum bucket capacity of 1 is expected."
  else
    .ok (OrderedBuffer.init α bucket_capacity.toNat)

/-- The mutations of claim C2's operation language: additions, in-place
alive-flag mutations through a handle (a store slot or a buffer cell), and
consolidations. -/
inductive SimOp where
  | addParticle (overrides : Particle)
  | addParticles (count : ℕ)
  | setAliveStore (idx : ℕ) (v : Bool)
  | setAliveBucket (b i : ℕ) (v : Bool)
  | setAliveBunch (b i : ℕ) (v : Bool)
  | query (point : Pt) (count : Option ℤ) (radius : Option ℚ) (sort : Bool)
  | consolidate
deriving DecidableEq, Repr

def SimOp.apply (s : ParticleSimulation) : SimOp → ParticleSimulation
  | .addParticle p => s.add_particle p
  | .addParticles n => s.add_particles n
  | .setAliveStore idx v =>
    { s with array.data := modifyAt s.array.data idx (Particle.setAlive v) }
  | .setAliveBucket b i v =>
    { s with buffer.buckets :=
        modifyAt s.buffer.buckets b (fun bk => modifyAt bk i (Particle.setAlive v)) }
  | .setAliveBunch b i v =>
    { s with buffer.bunchs :=
        modifyAt s.buffer.bunchs b (fun x => (x.1, modifyAt x.2 i (Particle.setAlive v))) }
  | .query point count radius sort =>
    match s.get_neighbour_particles point count radius sort with
    | .ok r => r.1
    | .error _ => s
  | .consolidate => s.consolidate

def runOps (s : ParticleSimulation) (ops : List SimOp) : ParticleSimulation :=
  ops.foldl SimOp.apply s

/-- The engine produced by `ParticleSimulation(time_step=1,
initial_particle_capacity=4, particle_bucket_buffer_capacity=2)`. -/
def initialSim : ParticleSimulation :=
  { time_step := 1, time := 0, last_id := -1,
    array := DynamicArray.init Particle 4,
    buffer := OrderedBuffer.init Particle 2,
    kd_tree := none }

/-- The first particle added to a fresh engine (default record, id `0`). -/
def c2p : Particle := { Particle.default with id := 0 }

/-- `initialSim` after `add_particle()`: the record sits in the first bucket
cell, the cursor is at offset 1. -/
def c2sA : ParticleSimulation :=
  { time_step := 1, time := 0, last_id := 0,
    array := { capacity := 4, size := 0, data := [] },
    buffer := { bucket_capacity := 2, buckets := [[c2p]], pos := (0, 1),
                bunchs := [] },
    kd_tree := none }

/-- `c2sA` after `consolidate()`: the record moved into the store, the
buffer cursor reset. -/
def c2sB : ParticleSimulation :=
  { time_step := 1, time := 0, last_id := 0,
    array := { capacity := 4, size := 1, data := [c2p] },
    buffer := { bucket_capacity := 2, buckets := [[c2p]], pos := (0, 0),
                bunchs := [] },
    kd_tree := none }

/-- A short trace exercising additions, consolidation and a kill. -/
def c2run : ParticleSimulation :=
  runOps initialSim [SimOp.addParticle Particle.default, SimOp.consolidate,
    SimOp.setAliveStore 0 false]

/-- The engine produced by `ParticleSimulation(time_step=-1,
initial_particle_capacity=4, particle_bucket_buffer_capacity=2)`: the
negative time step is stored as-is. -/
def c8sim : ParticleSimulation :=
  { time_step := -1, time := 0, last_id := -1,
    array := DynamicArray.init Particle 4,
    buffer := OrderedBuffer.init Particle 2, kd_tree := none }

/-! ## `hienoi/application.py` — `_particle_simulation_process`

The simulation worker's loop, one iteration per element of a trace.  Each
iteration drains the inbound data channel (collapsing any number of
`RequestUpdate` messages into the single `send` flag and keeping only the
latest `RunCallbacks` payload), then possibly steps, then possibly emits one
`Update` carrying `sim.time`.  The control channel (`Stop`) only decides how
many iterations run, which the length of the trace already encodes. -/

inductive GuiMsg where
  | requestUpdate
  | runCallbacks (callbacks : List Callback)

def GuiMsg.isRequest : GuiMsg → Bool
  | .requestUpdate => true
  | .runCallbacks _ => false

/-- Local state of `_particle_simulation_process`: the engine plus the
`step`/`send` flags and the pending callbacks payload.  Initially `step =
True`, `send = False`, `callbacks = None`. -/
structure WorkerState where
  sim : ParticleSimulation
  stepFlag : Bool
  sendFlag : Bool
  callbacks : Option (List Callback)

/-- One message of the inner `while True` drain loop. -/
def drainMsg (w : WorkerState) (m : GuiMsg) : WorkerState :=
  match m with
  | .requestUpdate => { w with sendFlag := true }
  | .runCallbacks cbs => { w with callbacks := some cbs }

/-- `_run_callbacks(sim, callbacks)`. -/
def runCallbacksSeq (cbs : List Callback) (s : ParticleSimulation) :
    ParticleSimulation :=
  cbs.foldl (fun s f => f s) s

/-- The inner drain loop (`while True: message = _receive_message(from_gui)`):
every pending message is folded into the flags/payload. -/
def drainPhase (w : WorkerState) (msgs : List GuiMsg) : WorkerState :=
  msgs.foldl drainMsg w

/-- The `if step:` section — apply the pending callbacks (if any) and
consolidate, then step the engine. -/
def stepPhase (presolve postsolve : Option Callback) (w : WorkerState) :
    WorkerState :=
  if w.stepFlag then
    let s := match w.callbacks with
      | some cbs => (runCallbacksSeq cbs w.sim).consolidate
      | none => w.sim
    { w with sim := s.step presolve postsolve,
             callbacks := none, stepFlag := false }
  else w

/-- The `if send:` section — emit one `Update` carrying `sim.time`. -/
def sendPhase (w : WorkerState) : WorkerState × List ℚ :=
  if w.sendFlag then
    ({ w with stepFlag := true, sendFlag := false }, [w.sim.time])
  else
    (w, [])

/-- One iteration of the worker loop; returns the updated state and the
times of the `Update` messages sent (zero or one). -/
def workerIteration (presolve postsolve : Option Callback) (w : WorkerState)
    (msgs : List GuiMsg) : WorkerState × List ℚ :=
  sendPhase (stepPhase presolve postsolve (drainPhase w msgs))

def runWorker (presolve postsolve : Option Callback) (w : WorkerState) :
    List (List GuiMsg) → WorkerState × List ℚ
  | [] => (w, [])
  | msgs :: rest =>
    let p := workerIteration presolve postsolve w msgs
    let q := runWorker presolve postsolve p.1 rest
    (q.1, p.2 ++ q.2)

/-- Number of `RequestUpdate` messages in a trace. -/
def requestCount (trace : List (List GuiMsg)) : ℕ :=
  (trace.flatten.filter GuiMsg.isRequest).length

/-- A callback that leaves the clock and the time step alone (it is handed
the engine to mutate particles, not the scheduler state). -/
def TimePreserving (f : Callback) : Prop :=
  ∀ s, (f s).time = s.time ∧ (f s).time_step = s.time_step

/-- All callbacks carried by a message are time-preserving. -/
def MsgOK : GuiMsg → Prop
  | .requestUpdate => True
  | .runCallbacks cbs => ∀ f ∈ cbs, TimePreserving f

/-- A hypothesis every reachable state satisfies: when the buffer reports
length zero it really holds no chunks, and the store's recorded size matches
its data. -/
def NoopSafe (s : ParticleSimulation) : Prop :=
  s.buffer.length = 0 →
    s.array.size = (s.array.data.length : ℤ) ∧ s.buffer.chunks = []

/-! ### `step` (claim C3) -/

/-- The claim's first stage: time advances by exactly the time step. -/
def specIncTime (s : ParticleSimulation) : ParticleSimulation :=
  { s with time := s.time + s.time_step }

/-- The claim's callback stages: run the callback if one is configured, then
consolidate. -/
def specCallbackPhase (cb : Option Callback) (s : ParticleSimulation) :
    ParticleSimulation :=
  match cb with
  | none => s
  | some f => (f s).consolidate

/-- The claim's integration stage: semi-implicit Euler over the store. -/
def specIntegrate (s : ParticleSimulation) : ParticleSimulation :=
  { s with array.data := s.array.data.map (ParticleSimulation.solveParticle s.time_step) }

/-- The claim's force-reset stage. -/
def specZeroForces (s : ParticleSimulation) : ParticleSimulation :=
  { s with array.data := s.array.data.map ParticleSimulation.zeroForce }

/-! ### Worker loop (claim C9) -/

/-- Any callbacks payload held in the worker state is time-preserving. -/
def CbOK : Option (List Callback) → Prop
  | none => True
  | some cbs => ∀ f ∈ cbs, TimePreserving f

def flagN (b : Bool) : ℕ :=
  if b then 1 else 0

/-! ### `OrderedBuffer` shape invariant and content lemmas (claim C2) -/

/-- Order on write-cursor positions `(bucket, offset)`. -/
def posLE (a b : ℕ × ℕ) : Prop :=
  a.1 < b.1 ∨ (a.1 = b.1 ∧ a.2 ≤ b.2)

instance : DecidableRel posLE := fun a b => by
  unfold posLE
  infer_instance

/-- Shape invariant of every reachable `OrderedBuffer`: positive bucket
capacity, cursor offset below capacity, cursor bucket allocated or
one-past-the-end, bucket fill within capacity, cursor offset within the
current bucket's written prefix, bunch positions recorded in non-decreasing
cursor order never past the cursor, and bunch payloads non-empty. -/
structure BufWf (b : OrderedBuffer α) : Prop where
  cap_pos : 1 ≤ b.bucket_capacity
  j_lt : b.pos.2 < b.bucket_capacity
  i_le : b.pos.1 ≤ b.buckets.length
  len_le : ∀ bk ∈ b.buckets, bk.length ≤ b.bucket_capacity
  cur_len : b.pos.2 ≤ (b.buckets.getD b.pos.1 []).length
  bunch_chain : List.Chain posLE (0, 0) (b.bunchs.map Prod.fst)
  bunch_le : ∀ p ∈ b.bunchs.map Prod.fst, posLE p b.pos
  bunch_ne : ∀ x ∈ b.bunchs, x.2 ≠ []

/-- The reachable-state invariant of the engine: well-formed buffer, logical
size matching the store, ids strictly increasing across the store followed
by the pending records in insertion order, and every id at most
`_last_id`. -/
structure SimWf (s : ParticleSimulation) : Prop where
  buf : BufWf s.buffer
  coh : s.array.size = (s.array.data.length : ℤ)
  ids : ((s.array.data ++ s.buffer.joinChunks).map Particle.id).Pairwise
    (· < ·)
  last : ∀ p ∈ s.array.data ++ s.buffer.joinChunks, p.id ≤ s.last_id

def inBox (p : Pt) (bx : Box) : Prop :=
  bx.lower.1 ≤ p.1 ∧ p.1 ≤ bx.upper.1 ∧ bx.lower.2 ≤ p.2 ∧ p.2 ≤ bx.upper.2

/-- Soundness of the per-node bounding boxes: every point referenced below a
node lies inside its box (and recursively below). -/
def WfT (data : List Pt) : KDT → Prop
  | .leaf bx idxs => ∀ j ∈ idxs, inBox (data.getD j ptZero) bx
  | .node bx l r => WfT data l ∧ WfT data r
      ∧ (∀ j ∈ l.collectIndices ++ r.collectIndices,
          inBox (data.getD j ptZero) bx)

instance : IsTrans (ℚ × ℕ) neighbourLE := by
  constructor
  intro a b c hab hbc
  rcases hab with h | ⟨h1, h2⟩ <;> rcases hbc with g | ⟨g1, g2⟩ <;>
    simp only [neighbourLE] at *
  · exact Or.inl (lt_trans h g)
  · exact Or.inl (g1 ▸ h)
  · exact Or.inl (h1 ▸ g)
  · exact Or.inr ⟨h1.trans g1, h2.trans g2⟩

instance : IsTotal (ℚ × ℕ) neighbourLE := by
  constructor
  intro a b
  rcases lt_trichotomy a.1 b.1 with h | h | h
  · exact Or.inl (Or.inl h)
  · rcases le_total a.2 b.2 with g | g
    · exact Or.inl (Or.inr ⟨h, g⟩)
    · exact Or.inr (Or.inr ⟨h.symm, g⟩)
  · exact Or.inr (Or.inl h)

instance : IsAntisymm (ℚ × ℕ) neighbourLE := by
  constructor
  intro a b hab hba
  rcases hab with h | ⟨h1, h2⟩ <;> rcases hba with g | ⟨g1, g2⟩ <;>
    first
      | exact absurd h (by omega)
      | exact absurd (lt_trans h g) (lt_irrefl _)
      | exact absurd (h1 ▸ g) (lt_irrefl _)
      | exact absurd (g1 ▸ h) (lt_irrefl _)
      | exact Prod.ext h1 (le_antisymm h2 g2)

/-- The pairs a radius query keeps from a list of indices: each index whose
point lies within the squared radius, with its squared distance. -/
def withinPairs (data : List Pt) (q : Pt) (rsq : WithTop ℚ) (js : List ℕ) :
    List (ℚ × ℕ) :=
  js.filterMap (fun j =>
    let d := sqDist q (data.getD j ptZero)
    if (d : WithTop ℚ) ≤ rsq then some (d, j) else none)

/-- The strictly-within-limit pairs of a list of indices: the candidates the
k-nearest scan can ever hold (its gate is a strict comparison). -/
def kW (data : List Pt) (q : Pt) (L0 : WithTop ℚ) (js : List ℕ) :
    List (ℚ × ℕ) :=
  js.filterMap (fun j =>
    let d := sqDist q (data.getD j ptZero)
    if (d : WithTop ℚ) < L0 then some (d, j) else none)

/-- Pairwise-distinct squared distances. -/
def DD (v : List (ℚ × ℕ)) : Prop :=
  List.Pairwise (fun a b => a.1 ≠ b.1) v

/-- The current search limit after a set of strictly-within candidates has
been consumed: the `(count+1)`-th smallest squared distance once more than
`count` candidates exist, the initial squared radius before that. -/
def limitOf (c : ℕ) (L0 : WithTop ℚ) (W : List (ℚ × ℕ)) : WithTop ℚ :=
  match (sortNeighbours W)[c]? with
  | none => L0
  | some x => (x.1 : WithTop ℚ)

/-- The abstract state of the bounded max-heap scan: the heap holds the
`count` nearest strictly-within candidates consumed so far, and the limit is
determined by the candidate multiset. -/
def goodState (c : ℕ) (L0 : WithTop ℚ) (W : List (ℚ × ℕ))
    (h : List (ℚ × ℕ)) (L : WithTop ℚ) : Prop :=
  List.Perm h ((sortNeighbours W).take c) ∧ L = limitOf c L0 W

/-- The replaced-by-worse comparison of the negated min-heap: `b` is at
least as far (greatest squared distance, smallest index on ties wins the
pop). -/
def worseLE (a b : ℚ × ℕ) : Prop :=
  a.1 < b.1 ∨ (a.1 = b.1 ∧ b.2 ≤ a.2)

def worstOf (h : List (ℚ × ℕ)) (x : ℚ × ℕ) : ℚ × ℕ :=
  h.foldl (fun a b => if a.1 < b.1 ∨ (a.1 = b.1 ∧ b.2 < a.2) then b else a) x

/-- Everything recorded as strictly within the initial limit. -/
def WltL0 (L0 : WithTop ℚ) (W : List (ℚ × ℕ)) : Prop :=
  ∀ y ∈ W, (y.1 : WithTop ℚ) < L0

/-- The claim's brute-force reference, written from the claim's own words:
an empty result for a negative radius or a non-positive count; otherwise the
points within the (inclusive) radius as `(squared_distance, index)` pairs
sorted ascending, truncated to `count` when a count below the total is
given. -/
def searchReference (points : List Pt) (q : Pt) (count : Option ℤ)
    (radius : Option ℚ) : List (ℚ × ℕ) :=
  let rsq : WithTop ℚ := match radius with
    | some r => ((r ^ 2 : ℚ) : WithTop ℚ)
    | none => ⊤
  let bad : Bool := match radius with
    | some r => decide (r < 0)
    | none => false
  if bad then []
  else
    let within := sortNeighbours (withinPairs points q rsq
      (List.range points.length))
    match count with
    | none => within
    | some c =>
      if c < 1 then []
      else if (points.length : ℤ) ≤ c then within
      else within.take c.toNat

/-- The index built over the three collinear points `0, 3, 5` with
bucket size 3: a single leaf holding every point. -/
def c1tree : KDTree :=
  { data := [(0, 0), (3, 0), (5, 0)],
    bucket_size := 3,
    tree := KDT.leaf { lower := (0, 0), upper := (5, 0) } [0, 1, 2] }

theorem KDT.weight_pos (t : KDT) : 0 < t.weight := by
  cases t <;> simp [KDT.weight]

/-! ## Theorems: `DynamicArray` (claims C5 and C7) -/

/-- C5 — For every `DynamicArray` and every requested size greater than the
current capacity, `grow(requested)` sets the capacity to
`max(requested, max(⌊previous_capacity * 1.5⌋, minimum_step))` with
`minimum_step = ceil(1/(growth_factor-1)) * 2 = 4`, which is in particular
at least the requested size; the logical elements and size are preserved
bit-for-bit when `copy=True`, and the logical size becomes `0` when
`copy=False`. -/
theorem C5_growth_law {α : Type} (a : DynamicArray α) (requested : ℤ)
    (copy : Bool) (h : (a.capacity : ℤ) < requested) :
    ((a.grow requested copy).capacity : ℤ)
        = max requested (max ((3 * (a.capacity : ℤ)) / 2) 4)
      ∧ requested ≤ ((a.grow requested copy).capacity : ℤ)
      ∧ (copy = true →
          (a.grow requested copy).data = a.data
            ∧ (a.grow requested copy).size = a.size)
      ∧ (copy = false → (a.grow requested copy).size = 0) := by
  have hnot : ¬ requested ≤ (a.capacity : ℤ) := not_le.mpr h
  have hpos : 0 ≤ max requested (max ((3 * (a.capacity : ℤ)) / 2) 4) := by
    have : (0 : ℤ) ≤ 4 := by norm_num
    refine le_trans this ?_
    exact le_trans (le_max_right _ _) (le_max_right _ _)
  refine ⟨?_, ?_, ?_, ?_⟩
  · simp only [DynamicArray.grow, DynamicArray.growTarget, if_neg hnot]
    exact Int.toNat_of_nonneg hpos
  · simp only [DynamicArray.grow, DynamicArray.growTarget, if_neg hnot]
    rw [Int.toNat_of_nonneg hpos]
    exact le_max_left _ _
  · intro hc
    simp [DynamicArray.grow, if_neg hnot, hc]
  · intro hc
    simp [DynamicArray.grow, if_neg hnot, hc]

theorem C5_growth_law_witness :
    ((2 : ℤ) < 5)
      ∧ (((DynamicArray.mk 2 1 [(7 : ℤ)]).grow 5 true).capacity : ℤ)
          = max 5 (max ((3 * (2 : ℤ)) / 2) 4)
      ∧ ((DynamicArray.mk 2 1 [(7 : ℤ)]).grow 5 true).data = [(7 : ℤ)] := by
  have h : ((2 : ℕ) : ℤ) < 5 := by norm_num
  have := C5_growth_law (DynamicArray.mk 2 1 [(7 : ℤ)]) 5 true h
  exact ⟨by norm_num, this.1, (this.2.2.1 rfl).1⟩

/-- C7 counterexample — `resize(-1)` on a concrete array raises no error and
changes the state: the logical size becomes `-1` instead of the array being
left unchanged, refuting "grow/resize reject a negative requested size (fail
with an error and leave the array unchanged)". -/
theorem C7_counterexample :
    (DynamicArray.mk 4 2 [(5 : ℤ), 6]).resize (-1) true
        = DynamicArray.mk 4 (-1) [(5 : ℤ), 6]
      ∧ DynamicArray.mk 4 (-1) [(5 : ℤ), 6] ≠ DynamicArray.mk 4 2 [(5 : ℤ), 6] := by
  constructor
  · rfl
  · decide

/-- C7 amended — A negative requested size is not rejected: `grow` treats it
like any request within the current capacity and returns without error,
leaving the array unchanged; `resize` returns without error and sets the
logical size to the negative value, leaving capacity and contents untouched;
constructing a `DynamicArray` with zero capacity raises no error and yields
the empty array. -/
theorem C7_amended {α : Type} (a : DynamicArray α) (r : ℤ) (copy : Bool)
    (h : r < 0) :
    a.grow r copy = a
      ∧ a.resize r copy = { a with size := r }
      ∧ DynamicArray.init α 0 = { capacity := 0, size := 0, data := [] } := by
  have hle : r ≤ (a.capacity : ℤ) := le_trans (le_of_lt h) (Int.ofNat_nonneg _)
  have hg : a.grow r copy = a := by
    simp [DynamicArray.grow, if_pos hle]
  exact ⟨hg, by simp [DynamicArray.resize, hg], rfl⟩

/-- C10 — On a simulation whose consolidated store is empty and whose
spatial index is not yet cached (the first query of a generation),
`get_neighbour_particles` raises for every query: the k-d tree build
immediately evaluates `numpy.amin` over the empty position set, which is
undefined (`ValueError`), instead of returning an empty neighbour
sequence. -/
theorem C10_empty_store_query_raises (s : ParticleSimulation)
    (h1 : s.array.data = []) (h2 : s.kd_tree = none) (point : Pt)
    (count : Option ℤ) (radius : Option ℚ) (sort : Bool) :
    s.get_neighbour_particles point count radius sort
      = .error .emptyReduction := by
  simp only [ParticleSimulation.get_neighbour_particles, h1, h2, KDTree.init,
    buildKD, buildAux, boundsOf, List.map_nil, List.range_zero]
  rfl

theorem C10_empty_store_query_raises_witness :
    ∃ s : ParticleSimulation, ParticleSimulation.init 1 0 4 = .ok s
      ∧ s.array.data = [] ∧ s.kd_tree = none
      ∧ s.get_neighbour_particles ptZero (some 1) none false
          = .error .emptyReduction := by
  refine ⟨{ time_step := 1, time := 0, last_id := -1,
            array := DynamicArray.init Particle 0,
            buffer := OrderedBuffer.init Particle 4, kd_tree := none },
    rfl, rfl, rfl, ?_⟩
  exact C10_empty_store_query_raises _ rfl rfl ptZero (some 1) none false

/-! ### `numpy.searchsorted` (claim C4) -/

theorem searchsorted_spec (a : List ℤ) (v : ℤ)
    (hsorted : a.Pairwise (· ≤ ·)) :
    ∀ n lo hi, hi - lo ≤ n → hi ≤ a.length → lo ≤ hi →
    (∀ k, k < lo → a.getD k 0 < v) →
    (∀ k, hi ≤ k → k < a.length → ¬ a.getD k 0 < v) →
    lo ≤ ParticleSimulation.searchsorted a v lo hi
      ∧ ParticleSimulation.searchsorted a v lo hi ≤ hi
      ∧ (∀ k, k < ParticleSimulation.searchsorted a v lo hi → a.getD k 0 < v)
      ∧ (∀ k, ParticleSimulation.searchsorted a v lo hi ≤ k → k < a.length →
          ¬ a.getD k 0 < v) := by
  have hmono : ∀ i j, i ≤ j → j < a.length → a.getD i 0 ≤ a.getD j 0 := by
    intro i j hij hj
    rcases eq_or_lt_of_le hij with h | h
    · rw [h]
    · rw [List.getD_eq_getElem a 0 (lt_trans h hj), List.getD_eq_getElem a 0 hj]
      exact List.pairwise_iff_getElem.mp hsorted i j (lt_trans h hj) hj h
  intro n
  induction n with
  | zero =>
    intro lo hi hn hhi hlohi hlo hhi2
    have heq : lo = hi := le_antisymm hlohi (by omega)
    rw [ParticleSimulation.searchsorted]
    rw [if_neg (by omega)]
    exact ⟨le_refl _, le_of_eq heq, hlo, fun k hk hklen => hhi2 k (by omega) hklen⟩
  | succ n ih =>
    intro lo hi hn hhi hlohi hlo hhi2
    by_cases hlt : lo < hi
    · rw [ParticleSimulation.searchsorted, if_pos hlt]
      have hmid1 : lo ≤ (lo + hi) / 2 := by omega
      have hmid2 : (lo + hi) / 2 < hi := by omega
      by_cases hv : a.getD ((lo + hi) / 2) 0 < v
      · rw [if_pos hv]
        have hres := ih ((lo + hi) / 2 + 1) hi (by omega) hhi (by omega)
          (fun k hk => by
            rcases lt_or_ge k lo with h | h
            · exact hlo k h
            · exact lt_of_le_of_lt
                (hmono k ((lo + hi) / 2) (by omega) (by omega)) hv)
          hhi2
        exact ⟨le_trans (by omega) hres.1, hres.2⟩
      · rw [if_neg hv]
        have hres := ih lo ((lo + hi) / 2) (by omega) (by omega) (by omega) hlo
          (fun k hk hklen => by
            intro hcon
            exact hv (lt_of_le_of_lt (hmono ((lo + hi) / 2) k hk hklen) hcon))
        exact ⟨hres.1, le_trans hres.2.1 (le_of_lt hmid2), hres.2.2.1,
          hres.2.2.2⟩
    · rw [ParticleSimulation.searchsorted, if_neg hlt]
      have heq : lo = hi := le_antisymm hlohi (by omega)
      exact ⟨le_refl _, le_of_eq heq, hlo,
        fun k hk hklen => hhi2 k (by omega) hklen⟩

/-- C4 — `get_particle(id)` binary-searches the sorted consolidated store
only: it returns exactly the store particle whose id matches when one
exists, fails with `NotFound` if and only if no store particle carries the
id (in particular a particle pending in the buffer is invisible: the result
does not depend on the buffer or the cached index at all, and as a pure read
the simulation state is untouched). -/
theorem C4_get_particle (s : ParticleSimulation) (id : ℤ)
    (hsort : (s.array.data.map Particle.id).Pairwise (· < ·))
    (hcoh : s.array.size = (s.array.data.length : ℤ)) :
    (∀ p, s.get_particle id = .ok p ↔ (p ∈ s.array.data ∧ p.id = id))
      ∧ (s.get_particle id = .error "NotFound"
          ↔ ∀ p ∈ s.array.data, p.id ≠ id)
      ∧ (∀ buf kd,
          (ParticleSimulation.mk s.time_step s.time s.last_id s.array buf
            kd).get_particle id = s.get_particle id) := by
  set ids := s.array.data.map Particle.id with hids
  have hlen : ids.length = s.array.data.length := List.length_map _ _
  have hsle : ids.Pairwise (· ≤ ·) := hsort.imp le_of_lt
  have hspec := searchsorted_spec ids id hsle ids.length 0 ids.length
    (by omega) (le_refl _) (Nat.zero_le _) (by omega)
    (fun k hk hklen => by omega)
  set r := ParticleSimulation.searchsorted ids id 0 ids.length with hr
  have hgetid : ∀ k, k < s.array.data.length →
      ids.getD k 0 = (s.array.data.getD k Particle.default).id := by
    intro k hk
    rw [List.getD_eq_getElem ids 0 (by omega),
      List.getD_eq_getElem s.array.data Particle.default hk]
    simp [hids]
  -- the searchsorted index pins down the unique candidate position
  have hkey : ∀ p, p ∈ s.array.data → p.id = id →
      r < s.array.data.length
        ∧ (s.array.data.getD r Particle.default) = p := by
    intro p hp hpid
    obtain ⟨k, hk, hkp⟩ := List.mem_iff_getElem.mp hp
    have hidk : ids.getD k 0 = id := by
      rw [hgetid k hk, List.getD_eq_getElem s.array.data Particle.default hk,
        hkp, hpid]
    have hkr : r ≤ k := by
      by_contra hcon
      exact absurd hidk (ne_of_lt (hspec.2.2.1 k (by omega)))
    have hrk : r = k := by
      rcases eq_or_lt_of_le hkr with h | h
      · exact h
      · exfalso
        have h1 : ids.getD r 0 < ids.getD k 0 := by
          rw [List.getD_eq_getElem ids 0 (by omega),
            List.getD_eq_getElem ids 0 (by omega)]
          exact List.pairwise_iff_getElem.mp hsort r k (by omega) (by omega) h
        have h2 : ¬ ids.getD r 0 < id := hspec.2.2.2 r (le_refl _) (by omega)
        rw [hidk] at h1
        exact h2 h1
    subst hrk
    exact ⟨by omega, by
      rw [List.getD_eq_getElem s.array.data Particle.default hk, hkp]⟩
  have hmemD : ∀ hrlen : r < s.array.data.length,
      s.array.data.getD r Particle.default ∈ s.array.data := by
    intro hrlen
    rw [List.getD_eq_getElem s.array.data Particle.default hrlen]
    exact List.getElem_mem hrlen
  refine ⟨?_, ?_, ?_⟩
  · intro p
    constructor
    · intro hok
      by_cases hcond : (r : ℤ) < s.array.size
          ∧ (s.array.data.getD r Particle.default).id = id
      · have : s.get_particle id = .ok (s.array.data.getD r Particle.default) := by
          simp only [ParticleSimulation.get_particle, ← hids, ← hr]
          rw [if_pos hcond]
        rw [this] at hok
        have hp := Except.ok.inj hok
        have hrlen : r < s.array.data.length := by
          have := hcond.1
          omega
        exact ⟨hp ▸ hmemD hrlen, hp ▸ hcond.2⟩
      · have : s.get_particle id = .error "NotFound" := by
          simp only [ParticleSimulation.get_particle, ← hids, ← hr]
          rw [if_neg hcond]
        rw [this] at hok
        exact absurd hok (by simp)
    · rintro ⟨hp, hpid⟩
      obtain ⟨hrlen, hrp⟩ := hkey p hp hpid
      have hcond : (r : ℤ) < s.array.size
          ∧ (s.array.data.getD r Particle.default).id = id := by
        refine ⟨by omega, by rw [hrp, hpid]⟩
      simp only [ParticleSimulation.get_particle, ← hids, ← hr]
      rw [if_pos hcond, hrp]
  · constructor
    · intro herr p hp hpid
      obtain ⟨hrlen, hrp⟩ := hkey p hp hpid
      have hcond : (r : ℤ) < s.array.size
          ∧ (s.array.data.getD r Particle.default).id = id := by
        refine ⟨by omega, by rw [hrp, hpid]⟩
      have : s.get_particle id = .ok (s.array.data.getD r Particle.default) := by
        simp only [ParticleSimulation.get_particle, ← hids, ← hr]
        rw [if_pos hcond]
      rw [this] at herr
      exact absurd herr (by simp)
    · intro hnone
      by_cases hcond : (r : ℤ) < s.array.size
          ∧ (s.array.data.getD r Particle.default).id = id
      · exfalso
        have hrlen : r < s.array.data.length := by
          have := hcond.1
          omega
        exact hnone (s.array.data.getD r Particle.default)
          (hmemD hrlen) hcond.2
      · simp only [ParticleSimulation.get_particle, ← hids, ← hr]
        rw [if_neg hcond]
  · intro buf kd
    rfl

theorem C4_get_particle_witness :
    List.Pairwise (· < ·)
        ((ParticleSimulation.mk 1 0 2
            (DynamicArray.mk 2 2 [{ Particle.default with id := 0 },
              { Particle.default with id := 2 }])
            (OrderedBuffer.init Particle 4) none).array.data.map Particle.id)
      ∧ ((ParticleSimulation.mk 1 0 2
            (DynamicArray.mk 2 2 [{ Particle.default with id := 0 },
              { Particle.default with id := 2 }])
            (OrderedBuffer.init Particle 4) none).get_particle 1
          = .error "NotFound"
          ↔ ∀ p ∈ (ParticleSimulation.mk 1 0 2
              (DynamicArray.mk 2 2 [{ Particle.default with id := 0 },
                { Particle.default with id := 2 }])
              (OrderedBuffer.init Particle 4) none).array.data, p.id ≠ 1) := by
  refine ⟨by decide, ?_⟩
  exact (C4_get_particle (ParticleSimulation.mk 1 0 2
    (DynamicArray.mk 2 2 [{ Particle.default with id := 0 },
      { Particle.default with id := 2 }])
    (OrderedBuffer.init Particle 4) none) 1 (by decide) rfl).2.1

/-! ### `consolidate` (claims C6 and C2) -/

/-- A chunk with no dead record is copied wholesale; either way each chunk
contributes exactly its alive records. -/
theorem chunkKeep_eq_filter (c : List Particle) :
    (if c.countP (·.alive) = c.length then c else c.filter (·.alive))
      = c.filter (·.alive) := by
  by_cases h : c.countP (·.alive) = c.length
  · rw [if_pos h]
    exact ((List.filter_sublist c).eq_of_length
      (by rw [List.countP_eq_length_filter] at h; exact h)).symm
  · rw [if_neg h]

theorem chunks_eq_nil (b : OrderedBuffer α) (hpos : b.pos = (0, 0))
    (hbunch : b.bunchs = []) : b.chunks = [] := by
  simp [OrderedBuffer.chunks, hpos, hbunch, OrderedBuffer.chunksLoop,
    OrderedBuffer.emitRange]

theorem chunks_clear (b : OrderedBuffer α) : b.clear.chunks = [] :=
  chunks_eq_nil _ rfl rfl

theorem joinChunks_clear (b : OrderedBuffer α) : b.clear.joinChunks = [] := by
  simp [OrderedBuffer.joinChunks, chunks_clear]

theorem length_clear (b : OrderedBuffer α) : b.clear.length = 0 := by
  simp [OrderedBuffer.clear, OrderedBuffer.length]

theorem consolidate_eq_of_noop (s : ParticleSimulation)
    (h1 : s.buffer.length = 0)
    (h2 : ((((s.array.data :: s.buffer.chunks).map
        (fun c => c.countP (·.alive))).sum : ℕ) : ℤ) = s.array.size) :
    s.consolidate = s := by
  unfold ParticleSimulation.consolidate
  rw [if_pos ⟨h1, h2⟩]

theorem consolidate_eq_of_active (s : ParticleSimulation)
    (h : ¬(s.buffer.length = 0
        ∧ ((((s.array.data :: s.buffer.chunks).map
            (fun c => c.countP (·.alive))).sum : ℕ) : ℤ) = s.array.size)) :
    s.consolidate = { s with
      array := { s.array.resize
          ((((s.array.data :: s.buffer.chunks).map
            (fun c => c.countP (·.alive))).sum : ℕ) : ℤ) false with
        data := ((s.array.data :: s.buffer.chunks).map (fun c =>
          if c.countP (·.alive) = c.length then c
          else c.filter (·.alive))).flatten },
      buffer := s.buffer.clear,
      kd_tree := none } := by
  unfold ParticleSimulation.consolidate
  rw [if_neg h]

theorem consolidate_data_filter (s : ParticleSimulation) (hs : NoopSafe s) :
    s.consolidate.array.data
      = (s.array.data ++ s.buffer.joinChunks).filter (·.alive) := by
  by_cases hc : s.buffer.length = 0
      ∧ ((((s.array.data :: s.buffer.chunks).map
          (fun c => c.countP (·.alive))).sum : ℕ) : ℤ) = s.array.size
  · obtain ⟨hcoh, hchunks⟩ := hs hc.1
    rw [consolidate_eq_of_noop s hc.1 hc.2]
    have hcount : s.array.data.countP (·.alive) = s.array.data.length := by
      have := hc.2
      rw [hchunks] at this
      simp only [List.map_cons, List.map_nil, List.sum_cons, List.sum_nil,
        Nat.add_zero] at this
      omega
    have hfilter : s.array.data.filter (·.alive) = s.array.data :=
      (List.filter_sublist _).eq_of_length
        (by rw [List.countP_eq_length_filter] at hcount; exact hcount)
    simp [OrderedBuffer.joinChunks, hchunks, hfilter]
  · rw [consolidate_eq_of_active s hc]
    have : ((s.array.data :: s.buffer.chunks).map (fun c =>
        if c.countP (·.alive) = c.length then c
        else c.filter (·.alive)))
        = ((s.array.data :: s.buffer.chunks).map (List.filter (·.alive))) := by
      exact List.map_congr_left (fun c _ => chunkKeep_eq_filter c)
    simp only [this]
    rw [← List.filter_flatten]
    simp [OrderedBuffer.joinChunks]

theorem consolidate_allAlive (s : ParticleSimulation) (hs : NoopSafe s) :
    ∀ p ∈ s.consolidate.array.data, p.alive = true := by
  intro p hp
  rw [consolidate_data_filter s hs] at hp
  exact List.of_mem_filter hp

theorem countP_flatten_chunkKeep (cs : List (List Particle)) :
    (((cs.map (fun c =>
        if c.countP (·.alive) = c.length then c
        else c.filter (·.alive))).flatten).countP (·.alive))
      = (cs.map (fun c => c.countP (·.alive))).sum := by
  induction cs with
  | nil => simp
  | cons c cs ih =>
    simp only [List.map_cons, List.flatten_cons, List.countP_append,
      List.sum_cons, chunkKeep_eq_filter c]
    rw [ih]
    congr 1
    have h1 : (c.filter (·.alive)).countP (·.alive)
        = (c.filter (·.alive)).length :=
      List.countP_eq_length.mpr (fun p hp => List.of_mem_filter hp)
    rw [h1, ← List.countP_eq_length_filter]

theorem consolidate_idem (s : ParticleSimulation) :
    s.consolidate.consolidate = s.consolidate := by
  by_cases hc : s.buffer.length = 0
      ∧ ((((s.array.data :: s.buffer.chunks).map
          (fun c => c.countP (·.alive))).sum : ℕ) : ℤ) = s.array.size
  · rw [consolidate_eq_of_noop s hc.1 hc.2, consolidate_eq_of_noop s hc.1 hc.2]
  · have hbuf : s.consolidate.buffer = s.buffer.clear := by
      rw [consolidate_eq_of_active s hc]
    have hdata : s.consolidate.array.data
        = ((s.array.data :: s.buffer.chunks).map (fun c =>
            if c.countP (·.alive) = c.length then c
            else c.filter (·.alive))).flatten := by
      rw [consolidate_eq_of_active s hc]
    have hsize : s.consolidate.array.size
        = ((((s.array.data :: s.buffer.chunks).map
            (fun c => c.countP (·.alive))).sum : ℕ) : ℤ) := by
      rw [consolidate_eq_of_active s hc]
      simp [DynamicArray.resize]
    apply consolidate_eq_of_noop
    · rw [hbuf]
      exact length_clear _
    · rw [hbuf, chunks_clear, hdata, hsize]
      rw [show ∀ X : List Particle,
          (List.map (fun c => c.countP (·.alive)) [X]).sum
            = X.countP (·.alive) from fun X => by simp]
      rw [countP_flatten_chunkKeep]

theorem consolidate_time (s : ParticleSimulation) :
    s.consolidate.time = s.time ∧ s.consolidate.time_step = s.time_step := by
  by_cases hc : s.buffer.length = 0
      ∧ ((((s.array.data :: s.buffer.chunks).map
          (fun c => c.countP (·.alive))).sum : ℕ) : ℤ) = s.array.size
  · rw [consolidate_eq_of_noop s hc.1 hc.2]
    exact ⟨rfl, rfl⟩
  · rw [consolidate_eq_of_active s hc]
    exact ⟨rfl, rfl⟩

theorem specCallbackPhase_time (cb : Option Callback)
    (h : ∀ f, cb = some f → TimePreserving f) (u : ParticleSimulation) :
    (specCallbackPhase cb u).time = u.time
      ∧ (specCallbackPhase cb u).time_step = u.time_step := by
  cases cb with
  | none => exact ⟨rfl, rfl⟩
  | some f =>
    have hf := h f rfl
    simp only [specCallbackPhase]
    exact ⟨(consolidate_time _).1.trans (hf u).1,
      (consolidate_time _).2.trans (hf u).2⟩

/-- C3 — `step()` performs, in order: the exact time increment by
`time_step`; the presolve callback followed by a consolidation when a
presolve callback is configured; the semi-implicit Euler integration of the
store (`velocity += force/mass * time_step`, then `position += velocity *
time_step` with the updated velocity); the zeroing of every force
accumulator; and the postsolve callback followed by a consolidation when a
postsolve callback is configured.  When a presolve callback ran, the
integrated store holds only alive particles (the consolidation just removed
every dead one and flushed the pending buffer). -/
theorem C3_step_pipeline (presolve postsolve : Option Callback)
    (s : ParticleSimulation)
    (hpre : ∀ f, presolve = some f → TimePreserving f)
    (hpost : ∀ f, postsolve = some f → TimePreserving f) :
    s.step presolve postsolve
        = specCallbackPhase postsolve
            (specZeroForces (specIntegrate
              (specCallbackPhase presolve (specIncTime s))))
      ∧ (s.step presolve postsolve).time = s.time + s.time_step
      ∧ (s.step presolve postsolve).time_step = s.time_step
      ∧ (∀ dt p, (ParticleSimulation.solveParticle dt p).velocity
            = (p.velocity.1 + p.force.1 / p.mass * dt,
               p.velocity.2 + p.force.2 / p.mass * dt)
          ∧ (ParticleSimulation.solveParticle dt p).position
            = (p.position.1
                  + (ParticleSimulation.solveParticle dt p).velocity.1 * dt,
               p.position.2
                  + (ParticleSimulation.solveParticle dt p).velocity.2 * dt))
      ∧ (∀ p ∈ (specZeroForces (specIntegrate
            (specCallbackPhase presolve (specIncTime s)))).array.data,
          p.force = ptZero)
      ∧ (∀ f, presolve = some f → NoopSafe (f (specIncTime s)) →
          ∀ p ∈ (specCallbackPhase presolve (specIncTime s)).array.data,
            p.alive = true) := by
  have heq : s.step presolve postsolve
      = specCallbackPhase postsolve
          (specZeroForces (specIntegrate
            (specCallbackPhase presolve (specIncTime s)))) := by
    cases presolve <;> cases postsolve <;> rfl
  have hu := specCallbackPhase_time presolve hpre (specIncTime s)
  have hv := specCallbackPhase_time postsolve hpost
    (specZeroForces (specIntegrate (specCallbackPhase presolve (specIncTime s))))
  refine ⟨heq, ?_, ?_, ?_, ?_, ?_⟩
  · rw [heq]
    exact hv.1.trans hu.1
  · rw [heq]
    exact hv.2.trans hu.2
  · intro dt p
    refine ⟨?_, rfl⟩
    simp only [ParticleSimulation.solveParticle, Prod.mk.injEq]
    constructor <;> ring
  · intro p hp
    simp only [specZeroForces, List.mem_map] at hp
    obtain ⟨q, _, hq⟩ := hp
    rw [← hq]
    rfl
  · intro f hf hsafe p hp
    rw [hf] at hp
    simp only [specCallbackPhase] at hp
    exact consolidate_allAlive _ hsafe p hp

theorem C3_step_pipeline_witness :
    ((ParticleSimulation.mk (1/2) 0 0
        (DynamicArray.mk 4 1 [{ Particle.default with force := (1, 0) }])
        (OrderedBuffer.init Particle 4) none).step (some id) none).time
      = 0 + 1/2 := by
  have h := C3_step_pipeline (some id) none
    (ParticleSimulation.mk (1/2) 0 0
      (DynamicArray.mk 4 1 [{ Particle.default with force := (1, 0) }])
      (OrderedBuffer.init Particle 4) none)
    (fun f hf => by
      cases hf
      intro t
      exact ⟨rfl, rfl⟩)
    (fun f hf => by cases hf)
  exact h.2.1

theorem drain_pres (msgs : List GuiMsg) :
    ∀ w : WorkerState, (drainPhase w msgs).sim = w.sim
      ∧ (drainPhase w msgs).stepFlag = w.stepFlag := by
  induction msgs with
  | nil => exact fun w => ⟨rfl, rfl⟩
  | cons m rest ih =>
    intro w
    cases m with
    | requestUpdate => exact ih _
    | runCallbacks cbs => exact ih _

theorem drain_cbok (msgs : List GuiMsg) :
    ∀ w : WorkerState, (∀ m ∈ msgs, MsgOK m) → CbOK w.callbacks →
      CbOK ((drainPhase w msgs).callbacks) := by
  induction msgs with
  | nil => exact fun w _ hw => hw
  | cons m rest ih =>
    intro w hmsgs hw
    cases m with
    | requestUpdate =>
      exact ih _ (fun m hm => hmsgs m (List.mem_cons_of_mem _ hm)) hw
    | runCallbacks cbs =>
      exact ih _ (fun m hm => hmsgs m (List.mem_cons_of_mem _ hm))
        (hmsgs _ (List.mem_cons_self _ _))

theorem flagN_le_one (b : Bool) : flagN b ≤ 1 := by
  cases b <;> simp [flagN]

theorem drain_send (msgs : List GuiMsg) :
    ∀ w : WorkerState,
      flagN (drainPhase w msgs).sendFlag
        ≤ flagN w.sendFlag + (msgs.filter GuiMsg.isRequest).length := by
  induction msgs with
  | nil => exact fun w => le_add_right (le_refl _)
  | cons m rest ih =>
    intro w
    cases m with
    | requestUpdate =>
      have h := ih (drainMsg w GuiMsg.requestUpdate)
      have h2 : flagN (drainMsg w GuiMsg.requestUpdate).sendFlag = 1 := rfl
      rw [h2] at h
      have h3 : (List.filter GuiMsg.isRequest
            (GuiMsg.requestUpdate :: rest)).length
          = (List.filter GuiMsg.isRequest rest).length + 1 := by
        simp [GuiMsg.isRequest]
      have h4 : drainPhase w (GuiMsg.requestUpdate :: rest)
          = drainPhase (drainMsg w GuiMsg.requestUpdate) rest := rfl
      rw [h4, h3]
      omega
    | runCallbacks cbs =>
      have h := ih (drainMsg w (GuiMsg.runCallbacks cbs))
      have h2 : flagN (drainMsg w (GuiMsg.runCallbacks cbs)).sendFlag
          = flagN w.sendFlag := rfl
      rw [h2] at h
      have h3 : (List.filter GuiMsg.isRequest
            (GuiMsg.runCallbacks cbs :: rest)).length
          = (List.filter GuiMsg.isRequest rest).length := by
        simp [GuiMsg.isRequest]
      have h4 : drainPhase w (GuiMsg.runCallbacks cbs :: rest)
          = drainPhase (drainMsg w (GuiMsg.runCallbacks cbs)) rest := rfl
      rw [h4, h3]
      omega

theorem runCallbacksSeq_time (cbs : List Callback)
    (h : ∀ f ∈ cbs, TimePreserving f) :
    ∀ s, (runCallbacksSeq cbs s).time = s.time
      ∧ (runCallbacksSeq cbs s).time_step = s.time_step := by
  induction cbs with
  | nil => exact fun s => ⟨rfl, rfl⟩
  | cons f rest ih =>
    intro s
    have h1 := h f (List.mem_cons_self f rest) s
    have h2 := ih (fun g hg => h g (List.mem_cons_of_mem _ hg)) (f s)
    exact ⟨h2.1.trans h1.1, h2.2.trans h1.2⟩

theorem step_clock (presolve postsolve : Option Callback)
    (hpre : ∀ f, presolve = some f → TimePreserving f)
    (hpost : ∀ f, postsolve = some f → TimePreserving f)
    (s : ParticleSimulation) :
    (s.step presolve postsolve).time = s.time + s.time_step
      ∧ (s.step presolve postsolve).time_step = s.time_step := by
  have heq : s.step presolve postsolve
      = specCallbackPhase postsolve
          (specZeroForces (specIntegrate
            (specCallbackPhase presolve (specIncTime s)))) := by
    cases presolve <;> cases postsolve <;> rfl
  have hu := specCallbackPhase_time presolve hpre (specIncTime s)
  have hv := specCallbackPhase_time postsolve hpost
    (specZeroForces (specIntegrate (specCallbackPhase presolve (specIncTime s))))
  rw [heq]
  exact ⟨hv.1.trans hu.1, hv.2.trans hu.2⟩

theorem stepPhase_on (presolve postsolve : Option Callback)
    (hpre : ∀ f, presolve = some f → TimePreserving f)
    (hpost : ∀ f, postsolve = some f → TimePreserving f)
    (w : WorkerState) (hcbs : CbOK w.callbacks) (hstep : w.stepFlag = true) :
    (stepPhase presolve postsolve w).sim.time
        = w.sim.time + w.sim.time_step
      ∧ (stepPhase presolve postsolve w).sim.time_step = w.sim.time_step
      ∧ (stepPhase presolve postsolve w).stepFlag = false
      ∧ (stepPhase presolve postsolve w).sendFlag = w.sendFlag
      ∧ CbOK (stepPhase presolve postsolve w).callbacks := by
  unfold stepPhase
  rw [if_pos hstep]
  have hbasetime :
      (match w.callbacks with
        | some cbs => (runCallbacksSeq cbs w.sim).consolidate
        | none => w.sim).time = w.sim.time
      ∧ (match w.callbacks with
        | some cbs => (runCallbacksSeq cbs w.sim).consolidate
        | none => w.sim).time_step = w.sim.time_step := by
    cases hc : w.callbacks with
    | none => exact ⟨rfl, rfl⟩
    | some cbs =>
      have hck : ∀ f ∈ cbs, TimePreserving f := by
        have := hcbs
        rw [hc] at this
        exact this
      have h1 := runCallbacksSeq_time cbs hck w.sim
      have h2 := consolidate_time (runCallbacksSeq cbs w.sim)
      exact ⟨h2.1.trans h1.1, h2.2.trans h1.2⟩
  have hsc := step_clock presolve postsolve hpre hpost
    (match w.callbacks with
      | some cbs => (runCallbacksSeq cbs w.sim).consolidate
      | none => w.sim)
  refine ⟨?_, ?_, rfl, rfl, trivial⟩
  · rw [hsc.1, hbasetime.1, hbasetime.2]
  · rw [hsc.2, hbasetime.2]

theorem stepPhase_off (presolve postsolve : Option Callback)
    (w : WorkerState) (hstep : w.stepFlag = false) :
    stepPhase presolve postsolve w = w := by
  unfold stepPhase
  rw [hstep]
  rfl

theorem workerIteration_count (presolve postsolve : Option Callback)
    (w : WorkerState) (msgs : List GuiMsg) :
    (workerIteration presolve postsolve w msgs).2.length
        + flagN (workerIteration presolve postsolve w msgs).1.sendFlag
      ≤ flagN w.sendFlag + (msgs.filter GuiMsg.isRequest).length := by
  have hd := drain_send msgs w
  have hsf : (stepPhase presolve postsolve (drainPhase w msgs)).sendFlag
      = (drainPhase w msgs).sendFlag := by
    unfold stepPhase
    split <;> rfl
  unfold workerIteration sendPhase
  by_cases hsend : (stepPhase presolve postsolve (drainPhase w msgs)).sendFlag
  · rw [if_pos hsend]
    rw [hsf] at hsend
    rw [hsend] at hd
    cases hw : w.sendFlag
    · rw [hw] at hd
      simp [flagN] at hd ⊢
      omega
    · rw [hw] at hd
      simp [flagN] at hd ⊢
  · rw [if_neg hsend]
    rw [hsf] at hsend ⊢
    simp only [List.length_nil, Nat.zero_add]
    exact hd

theorem workerIteration_props (presolve postsolve : Option Callback)
    (hpre : ∀ f, presolve = some f → TimePreserving f)
    (hpost : ∀ f, postsolve = some f → TimePreserving f)
    (w : WorkerState) (msgs : List GuiMsg)
    (hmsgs : ∀ m ∈ msgs, MsgOK m) (hcbs : CbOK w.callbacks) :
    (workerIteration presolve postsolve w msgs).1.sim.time_step
        = w.sim.time_step
      ∧ CbOK (workerIteration presolve postsolve w msgs).1.callbacks
      ∧ ((workerIteration presolve postsolve w msgs).2 = []
          → (workerIteration presolve postsolve w msgs).1.stepFlag = false
            ∧ (w.stepFlag = true →
                (workerIteration presolve postsolve w msgs).1.sim.time
                  = w.sim.time + w.sim.time_step)
            ∧ (w.stepFlag = false →
                (workerIteration presolve postsolve w msgs).1.sim.time
                  = w.sim.time))
      ∧ (∀ t, (workerIteration presolve postsolve w msgs).2 = [t]
          → t = (workerIteration presolve postsolve w msgs).1.sim.time
            ∧ (workerIteration presolve postsolve w msgs).1.stepFlag = true
            ∧ (w.stepFlag = true → t = w.sim.time + w.sim.time_step)
            ∧ (w.stepFlag = false → t = w.sim.time))
      ∧ ((workerIteration presolve postsolve w msgs).2 = []
          ∨ ∃ t, (workerIteration presolve postsolve w msgs).2 = [t]) := by
  have hdp := drain_pres msgs w
  have hdc := drain_cbok msgs w hmsgs hcbs
  by_cases hstep : (drainPhase w msgs).stepFlag
  · have hon := stepPhase_on presolve postsolve hpre hpost
      (drainPhase w msgs) hdc hstep
    have hstepw : w.stepFlag = true := by
      rw [← hdp.2]
      exact hstep
    have htime2 : (stepPhase presolve postsolve (drainPhase w msgs)).sim.time
        = w.sim.time + w.sim.time_step := by
      rw [hon.1, hdp.1]
    have hts2 : (stepPhase presolve postsolve (drainPhase w msgs)).sim.time_step
        = w.sim.time_step := by
      rw [hon.2.1, hdp.1]
    unfold workerIteration sendPhase
    by_cases hsend : (stepPhase presolve postsolve (drainPhase w msgs)).sendFlag
    · rw [if_pos hsend]
      refine ⟨hts2, hon.2.2.2.2, ?_, ?_, ?_⟩
      · intro hcon
        exact absurd hcon (by simp)
      · intro t ht
        have hteq : t
            = (stepPhase presolve postsolve (drainPhase w msgs)).sim.time :=
          ((List.cons.inj ht).1).symm
        refine ⟨hteq, rfl, fun _ => by rw [hteq, htime2], ?_⟩
        intro hcon
        rw [hstepw] at hcon
        exact absurd hcon (by simp)
      · right
        exact ⟨_, rfl⟩
    · rw [if_neg hsend]
      refine ⟨hts2, hon.2.2.2.2, ?_, ?_, ?_⟩
      · intro _
        refine ⟨hon.2.2.1, fun _ => htime2, ?_⟩
        intro hcon
        rw [hstepw] at hcon
        exact absurd hcon (by simp)
      · intro t ht
        exact absurd ht (by simp)
      · left
        rfl
  · have hoff := stepPhase_off presolve postsolve (drainPhase w msgs)
      (by simpa using hstep)
    have hstepw : w.stepFlag = false := by
      rw [← hdp.2]
      simpa using hstep
    unfold workerIteration sendPhase
    rw [hoff]
    by_cases hsend : (drainPhase w msgs).sendFlag
    · rw [if_pos hsend]
      refine ⟨by rw [hdp.1], hdc, ?_, ?_, ?_⟩
      · intro hcon
        exact absurd hcon (by simp)
      · intro t ht
        have hteq : t = (drainPhase w msgs).sim.time :=
          ((List.cons.inj ht).1).symm
        refine ⟨hteq, rfl, ?_, ?_⟩
        · intro hcon
          rw [hstepw] at hcon
          exact absurd hcon (by simp)
        · intro _
          rw [hteq, hdp.1]
      · right
        exact ⟨_, rfl⟩
    · rw [if_neg hsend]
      refine ⟨by rw [hdp.1], hdc, ?_, ?_, ?_⟩
      · intro _
        refine ⟨by simpa using hstep, ?_, ?_⟩
        · intro hcon
          rw [hstepw] at hcon
          exact absurd hcon (by simp)
        · intro _
          rw [hdp.1]
      · intro t ht
        exact absurd ht (by simp)
      · left
        rfl

theorem requestCount_cons (msgs : List GuiMsg) (trace : List (List GuiMsg)) :
    requestCount (msgs :: trace)
      = (msgs.filter GuiMsg.isRequest).length + requestCount trace := by
  simp [requestCount, List.filter_append]

theorem runWorker_count (presolve postsolve : Option Callback) :
    ∀ (trace : List (List GuiMsg)) (w : WorkerState),
      (runWorker presolve postsolve w trace).2.length
          + flagN (runWorker presolve postsolve w trace).1.sendFlag
        ≤ flagN w.sendFlag + requestCount trace := by
  intro trace
  induction trace with
  | nil =>
    intro w
    simp [runWorker, requestCount]
  | cons msgs rest ih =>
    intro w
    have h1 := workerIteration_count presolve postsolve w msgs
    have h2 := ih (workerIteration presolve postsolve w msgs).1
    have hsplit : runWorker presolve postsolve w (msgs :: rest)
        = ((runWorker presolve postsolve
              (workerIteration presolve postsolve w msgs).1 rest).1,
           (workerIteration presolve postsolve w msgs).2
             ++ (runWorker presolve postsolve
                  (workerIteration presolve postsolve w msgs).1 rest).2) := rfl
    rw [hsplit, requestCount_cons]
    simp only [List.length_append]
    omega

theorem runWorker_times (presolve postsolve : Option Callback)
    (hpre : ∀ f, presolve = some f → TimePreserving f)
    (hpost : ∀ f, postsolve = some f → TimePreserving f) :
    ∀ (trace : List (List GuiMsg)) (w : WorkerState),
      (∀ msgs ∈ trace, ∀ m ∈ msgs, MsgOK m) → CbOK w.callbacks →
      0 < w.sim.time_step →
      List.Chain' (· < ·) (runWorker presolve postsolve w trace).2
        ∧ (∀ t ∈ (runWorker presolve postsolve w trace).2,
            (w.stepFlag = true → w.sim.time < t)
              ∧ (w.stepFlag = false → w.sim.time ≤ t)) := by
  intro trace
  induction trace with
  | nil =>
    intro w _ _ _
    refine ⟨by simp [runWorker], by simp [runWorker]⟩
  | cons msgs rest ih =>
    intro w htrace hcb hdt
    have hp := workerIteration_props presolve postsolve hpre hpost w msgs
      (htrace msgs (List.mem_cons_self _ _)) hcb
    have hrec := ih (workerIteration presolve postsolve w msgs).1
      (fun ms hm => htrace ms (List.mem_cons_of_mem _ hm))
      hp.2.1 (by rw [hp.1]; exact hdt)
    have hsplit : runWorker presolve postsolve w (msgs :: rest)
        = ((runWorker presolve postsolve
              (workerIteration presolve postsolve w msgs).1 rest).1,
           (workerIteration presolve postsolve w msgs).2
             ++ (runWorker presolve postsolve
                  (workerIteration presolve postsolve w msgs).1 rest).2) := rfl
    rw [hsplit]
    rcases hp.2.2.2.2 with hnil | ⟨t₀, ht₀⟩
    · rw [hnil]
      simp only [List.nil_append]
      obtain ⟨hsf, htt, htf⟩ := hp.2.2.1 hnil
      refine ⟨hrec.1, ?_⟩
      intro t ht
      have hb := (hrec.2 t ht).2 hsf
      constructor
      · intro hw
        have := htt hw
        rw [this] at hb
        calc w.sim.time < w.sim.time + w.sim.time_step := by linarith
          _ ≤ t := hb
      · intro hw
        have := htf hw
        rw [this] at hb
        exact hb
    · rw [ht₀]
      obtain ⟨hteq, hsf, htt, htf⟩ := hp.2.2.2.1 t₀ ht₀
      have hall : ∀ b ∈ (runWorker presolve postsolve
          (workerIteration presolve postsolve w msgs).1 rest).2, t₀ < b := by
        intro b hb
        have := (hrec.2 b hb).1 hsf
        rw [← hteq] at this
        exact this
      simp only [List.singleton_append]
      have ht0bound : (w.stepFlag = true → w.sim.time < t₀)
          ∧ (w.stepFlag = false → w.sim.time ≤ t₀) := by
        constructor
        · intro hw
          rw [htt hw]
          linarith
        · intro hw
          rw [htf hw]
      constructor
      · rw [List.chain'_cons']
        refine ⟨?_, hrec.1⟩
        intro b hb
        exact hall b (List.mem_of_mem_head? hb)
      · intro t ht
        rcases List.mem_cons.mp ht with h | h
        · rw [h]
          exact ht0bound
        · have hlt := hall t h
          constructor
          · intro hw
            exact lt_trans (ht0bound.1 hw) hlt
          · intro hw
            exact le_of_lt (lt_of_le_of_lt (ht0bound.2 hw) hlt)

/-- C9 — In every execution of the simulation worker loop (started, as in
`_particle_simulation_process`, with `step=True`, `send=False` and no pending
callbacks), at most one `Update` message is emitted per `RequestUpdate`
received, and the times carried by successive `Update` messages are strictly
increasing.  The time step is positive (the configuration contract) and the
injected callbacks mutate particles, not the clock. -/
theorem C9_update_flow (presolve postsolve : Option Callback)
    (hpre : ∀ f, presolve = some f → TimePreserving f)
    (hpost : ∀ f, postsolve = some f → TimePreserving f)
    (s₀ : ParticleSimulation) (hdt : 0 < s₀.time_step)
    (trace : List (List GuiMsg))
    (htrace : ∀ msgs ∈ trace, ∀ m ∈ msgs, MsgOK m) :
    (runWorker presolve postsolve
        (WorkerState.mk s₀ true false none) trace).2.length
        ≤ requestCount trace
      ∧ List.Chain' (· < ·)
          (runWorker presolve postsolve
            (WorkerState.mk s₀ true false none) trace).2 := by
  have h1 := runWorker_count presolve postsolve trace
    (WorkerState.mk s₀ true false none)
  have h2 := runWorker_times presolve postsolve hpre hpost trace
    (WorkerState.mk s₀ true false none) htrace trivial hdt
  refine ⟨?_, h2.1⟩
  have : flagN (WorkerState.mk s₀ true false none).sendFlag = 0 := rfl
  rw [this] at h1
  omega

theorem C9_update_flow_witness :
    ((0 : ℚ) < 1)
      ∧ (runWorker none none
          (WorkerState.mk (ParticleSimulation.mk 1 0 (-1)
            (DynamicArray.init Particle 0) (OrderedBuffer.init Particle 4)
            none) true false none)
          [[GuiMsg.requestUpdate], [], [GuiMsg.requestUpdate]]).2.length
        ≤ requestCount [[GuiMsg.requestUpdate], [], [GuiMsg.requestUpdate]]
      ∧ List.Chain' (· < ·)
          (runWorker none none
            (WorkerState.mk (ParticleSimulation.mk 1 0 (-1)
              (DynamicArray.init Particle 0) (OrderedBuffer.init Particle 4)
              none) true false none)
            [[GuiMsg.requestUpdate], [], [GuiMsg.requestUpdate]]).2 := by
  refine ⟨by norm_num, ?_⟩
  exact C9_update_flow none none (fun f hf => Option.noConfusion hf)
    (fun f hf => Option.noConfusion hf)
    (ParticleSimulation.mk 1 0 (-1) (DynamicArray.init Particle 0)
      (OrderedBuffer.init Particle 4) none)
    (by norm_num)
    [[GuiMsg.requestUpdate], [], [GuiMsg.requestUpdate]]
    (by
      intro msgs hm m hmm
      fin_cases hm <;> fin_cases hmm <;> trivial)

theorem posLE_refl (a : ℕ × ℕ) : posLE a a :=
  Or.inr ⟨rfl, le_refl _⟩

theorem posLE_trans {a b c : ℕ × ℕ} (h : posLE a b) (g : posLE b c) :
    posLE a c := by
  rcases h with h | ⟨h1, h2⟩ <;> rcases g with g | ⟨g1, g2⟩ <;>
    simp only [posLE] <;> omega

theorem BufWf_init (α : Type) (cap : ℕ) (hcap : 1 ≤ cap) :
    BufWf (OrderedBuffer.init α cap) := by
  refine ⟨hcap, hcap, ?_, ?_, ?_, ?_, ?_, ?_⟩ <;>
    simp [OrderedBuffer.init, List.Chain.nil]

theorem BufWf_clear {b : OrderedBuffer α} (h : BufWf b) : BufWf b.clear :=
  ⟨h.cap_pos, h.cap_pos, Nat.zero_le _, h.len_le, Nat.zero_le _,
    List.Chain.nil, by simp [OrderedBuffer.clear], by simp [OrderedBuffer.clear]⟩

theorem emitRange_step (bks : List (List α)) (i j m n : ℕ) (h : i < m) :
    OrderedBuffer.emitRange bks i j m n
      = (bks.getD i []).drop j :: OrderedBuffer.emitRange bks (i + 1) 0 m n := by
  rw [OrderedBuffer.emitRange, if_pos h]

theorem emitRange_last (bks : List (List α)) (i j n : ℕ) :
    OrderedBuffer.emitRange bks i j i n
      = if j < n then [((bks.getD i []).drop j).take (n - j)] else [] := by
  rw [OrderedBuffer.emitRange, if_neg (lt_irrefl i)]

theorem modifyAt_length (l : List α) (n : ℕ) (f : α → α) :
    (modifyAt l n f).length = l.length := by
  induction l generalizing n with
  | nil => rfl
  | cons x xs ih =>
    cases n with
    | zero => rfl
    | succ k => simp [modifyAt, ih]

theorem emitRange_eq_of_agree (bks bks' : List (List α)) (m n : ℕ)
    (hb : ∀ k, k < m → bks'.getD k [] = bks.getD k [])
    (hm : (bks'.getD m []).take n = (bks.getD m []).take n) :
    ∀ d i j, m - i ≤ d → i ≤ m →
      OrderedBuffer.emitRange bks' i j m n
        = OrderedBuffer.emitRange bks i j m n := by
  intro d
  induction d with
  | zero =>
    intro i j hd him
    have hi : i = m := by omega
    subst hi
    rw [emitRange_last, emitRange_last]
    by_cases hjn : j < n
    · rw [if_pos hjn, if_pos hjn]
      have e1 : ((bks'.getD i []).drop j).take (n - j)
          = ((bks'.getD i []).take n).drop j := (List.drop_take n j _).symm
      have e2 : ((bks.getD i []).drop j).take (n - j)
          = ((bks.getD i []).take n).drop j := (List.drop_take n j _).symm
      rw [e1, e2, hm]
    · rw [if_neg hjn, if_neg hjn]
  | succ d ih =>
    intro i j hd him
    by_cases hi : i < m
    · rw [emitRange_step bks' i j m n hi, emitRange_step bks i j m n hi,
        hb i hi, ih (i + 1) 0 (by omega) (by omega)]
    · have hieq : i = m := by omega
      subst hieq
      exact ih i j (by omega) him

theorem chunksLoop_eq_of_agree (bks bks' : List (List α)) (I J : ℕ)
    (hb : ∀ k, k < I → bks'.getD k [] = bks.getD k [])
    (hI : (bks'.getD I []).take J = (bks.getD I []).take J) :
    ∀ (bs : List ((ℕ × ℕ) × List α)) (i j : ℕ),
      List.Chain posLE (i, j) (bs.map Prod.fst) →
      (∀ p ∈ bs.map Prod.fst, posLE p (I, J)) →
      OrderedBuffer.chunksLoop bks' bs i j
        = OrderedBuffer.chunksLoop bks bs i j := by
  intro bs
  induction bs with
  | nil =>
    intro i j _ _
    rfl
  | cons hd rest ih =>
    obtain ⟨⟨m, n⟩, d⟩ := hd
    intro i j hchain hle
    have h1 : posLE (i, j) (m, n) := (List.chain_cons.mp hchain).1
    have h2 : posLE (m, n) (I, J) := hle (m, n) (by simp)
    have him : i ≤ m := by
      rcases h1 with h | ⟨h, _⟩ <;> omega
    have hEq : OrderedBuffer.emitRange bks' i j m n
        = OrderedBuffer.emitRange bks i j m n := by
      refine emitRange_eq_of_agree bks bks' m n ?_ ?_ (m - i) i j
        (le_refl _) him
      · intro k hk
        refine hb k ?_
        rcases h2 with h | ⟨h, _⟩ <;> omega
      · rcases h2 with h | ⟨heq, hn⟩
        · rw [hb m h]
        · subst heq
          have := congrArg (List.take n) hI
          rwa [List.take_take, List.take_take, min_eq_left hn] at this
    simp only [OrderedBuffer.chunksLoop]
    rw [hEq, ih m n (List.chain_cons.mp hchain).2
      (fun p hp => hle p (List.mem_cons_of_mem _ hp))]

theorem getD_set_ne (l : List α) (n k : ℕ) (a : α) (d : α) (h : n ≠ k) :
    (l.set n a).getD k d = l.getD k d := by
  by_cases hk : k < l.length
  · rw [List.getD_eq_getElem _ _ (by simpa using hk),
      List.getD_eq_getElem _ _ hk]
    exact List.getElem_set_ne h (by simpa using hk)
  · rw [List.getD_eq_default _ _ (by simpa using not_lt.mp hk),
      List.getD_eq_default _ _ (not_lt.mp hk)]

theorem getD_set_self (l : List α) (n : ℕ) (a : α) (d : α)
    (h : n < l.length) : (l.set n a).getD n d = a := by
  rw [List.getD_eq_getElem _ _ (by simpa using h)]
  exact List.getElem_set_self (by simpa using h)

/-- Dropping `j ≤ J` cells of a written bucket splits into the untouched
prefix, the written data and the preserved tail. -/
theorem writeSlice_drop (old : List α) (J j : ℕ) (data : List α)
    (hJ : J ≤ old.length) (hj : j ≤ J) :
    (writeSlice old J data).drop j
      = ((old.take J).drop j ++ data) ++ old.drop (J + data.length) := by
  unfold writeSlice
  rw [List.drop_append_of_le_length (by
    rw [List.length_append, List.length_take_of_le hJ]
    omega)]
  rw [List.drop_append_of_le_length (by
    rw [List.length_take_of_le hJ]
    exact hj)]

theorem take_writeSlice (old : List α) (J : ℕ) (data : List α)
    (hJ : J ≤ old.length) :
    (writeSlice old J data).take J = old.take J := by
  unfold writeSlice
  rw [List.take_append_of_le_length (by
    rw [List.length_append, List.length_take_of_le hJ]
    omega)]
  rw [List.take_append_of_le_length (by rw [List.length_take_of_le hJ])]
  rw [List.take_take, min_self]

/-- The emitted cells between positions `(i, j)` and the cursor `(I, J)`,
flattened, after writing `data` at the cursor within the same bucket: the
write extends them by exactly `data`. -/
theorem flatten_emitRange_write_a (bks0 bks' : List (List α)) (I J : ℕ)
    (data : List α)
    (hF1 : ∀ k, k ≠ I → bks'.getD k [] = bks0.getD k [])
    (hF2 : bks'.getD I [] = writeSlice (bks0.getD I []) J data)
    (hJlen : J ≤ (bks0.getD I []).length) (hne : data ≠ []) :
    ∀ d i j, I - i ≤ d → posLE (i, j) (I, J) →
      (OrderedBuffer.emitRange bks' i j I (J + data.length)).flatten
        = (OrderedBuffer.emitRange bks0 i j I J).flatten ++ data := by
  have hsize : 1 ≤ data.length := by
    cases data with
    | nil => exact absurd rfl hne
    | cons x xs => simp
  intro d
  induction d with
  | zero =>
    intro i j hd hij
    have hi : i = I := by
      rcases hij with h | ⟨h, _⟩ <;> omega
    subst hi
    have hj : j ≤ J := by
      rcases hij with h | ⟨_, h⟩ <;> omega
    rw [emitRange_last, emitRange_last, if_pos (by omega), hF2,
      writeSlice_drop _ _ _ _ hJlen hj]
    have harith : J + data.length - j
        = (((bks0.getD i []).take J).drop j ++ data).length := by
      rw [List.length_append, List.length_drop, List.length_take_of_le hJlen]
      omega
    have hstep : ((((bks0.getD i []).take J).drop j ++ data)
          ++ (bks0.getD i []).drop (J + data.length)).take
            (J + data.length - j)
        = ((bks0.getD i []).take J).drop j ++ data := by
      rw [harith, List.take_left]
    rw [hstep]
    by_cases hjJ : j < J
    · rw [if_pos hjJ]
      have e2 : ((bks0.getD i []).drop j).take (J - j)
          = ((bks0.getD i []).take J).drop j := (List.drop_take J j _).symm
      simp only [List.flatten_cons, List.flatten_nil, List.append_nil]
      rw [e2]
    · have hjeq : j = J := by omega
      subst hjeq
      rw [if_neg (lt_irrefl j)]
      have hnil : ((bks0.getD i []).take j).drop j = [] :=
        List.drop_eq_nil_of_le (by rw [List.length_take_of_le hJlen])
      simp only [List.flatten_cons, List.flatten_nil, List.append_nil,
        List.nil_append, hnil]
  | succ d ih =>
    intro i j hd hij
    by_cases hi : i < I
    · rw [emitRange_step bks' i j I (J + data.length) hi,
        emitRange_step bks0 i j I J hi, hF1 i (by omega)]
      simp only [List.flatten_cons]
      rw [ih (i + 1) 0 (by omega) (by simp only [posLE]; omega),
        List.append_assoc]
    · have hieq : i = I := by
        rcases hij with h | ⟨h, _⟩ <;> omega
      subst hieq
      exact ih i j (by omega) hij

/-- Same as `flatten_emitRange_write_a` for a write that exactly fills the
bucket, advancing the cursor to the next bucket. -/
theorem flatten_emitRange_write_b (bks0 bks' : List (List α)) (I J : ℕ)
    (data : List α)
    (hF1 : ∀ k, k ≠ I → bks'.getD k [] = bks0.getD k [])
    (hF2 : bks'.getD I [] = writeSlice (bks0.getD I []) J data)
    (hJlen : J ≤ (bks0.getD I []).length) (_hne : data ≠ [])
    (hflush : (bks0.getD I []).length ≤ J + data.length) :
    ∀ d i j, I + 1 - i ≤ d → posLE (i, j) (I, J) →
      (OrderedBuffer.emitRange bks' i j (I + 1) 0).flatten
        = (OrderedBuffer.emitRange bks0 i j I J).flatten ++ data := by
  intro d
  induction d with
  | zero =>
    intro i j hd hij
    exfalso
    rcases hij with h | ⟨h, _⟩ <;> omega
  | succ d ih =>
    intro i j hd hij
    by_cases hi : i < I
    · rw [emitRange_step bks' i j (I + 1) 0 (by omega),
        emitRange_step bks0 i j I J hi, hF1 i (by omega)]
      simp only [List.flatten_cons]
      rw [ih (i + 1) 0 (by omega) (by simp only [posLE]; omega),
        List.append_assoc]
    · have hieq : i = I := by
        rcases hij with h | ⟨h, _⟩ <;> omega
      subst hieq
      have hj : j ≤ J := by
        rcases hij with h | ⟨_, h⟩ <;> omega
      rw [emitRange_step bks' i j (i + 1) 0 (by omega), emitRange_last,
        emitRange_last, if_neg (lt_irrefl 0), hF2,
        writeSlice_drop _ _ _ _ hJlen hj,
        List.drop_eq_nil_of_le hflush]
      by_cases hjJ : j < J
      · rw [if_pos hjJ]
        have e2 : ((bks0.getD i []).drop j).take (J - j)
            = ((bks0.getD i []).take J).drop j := (List.drop_take J j _).symm
        simp only [List.flatten_cons, List.flatten_nil, List.append_nil]
        rw [e2]
      · have hjeq : j = J := by omega
        subst hjeq
        rw [if_neg (lt_irrefl j)]
        have hnil : ((bks0.getD i []).take j).drop j = [] :=
          List.drop_eq_nil_of_le (by rw [List.length_take_of_le hJlen])
        simp only [List.flatten_cons, List.flatten_nil, List.append_nil,
          List.nil_append, hnil]

theorem chain_posLE_snoc (x : ℕ × ℕ) :
    ∀ (a : ℕ × ℕ) (l : List (ℕ × ℕ)), List.Chain posLE a l →
      (∀ p ∈ l, posLE p x) → posLE a x → List.Chain posLE a (l ++ [x]) := by
  intro a l
  induction l generalizing a with
  | nil =>
    intro _ _ hax
    exact List.Chain.cons hax List.Chain.nil
  | cons b tl ih =>
    intro hchain hle hax
    rcases List.chain_cons.mp hchain with ⟨hab, htl⟩
    exact List.Chain.cons hab
      (ih b htl (fun p hp => hle p (List.mem_cons_of_mem _ hp))
        (hle b (List.mem_cons_self _ _)))

theorem chunksLoop_snoc_bunch (bks : List (List α)) (m n : ℕ) (dd : List α) :
    ∀ (bs : List ((ℕ × ℕ) × List α)) (i j : ℕ),
      (OrderedBuffer.chunksLoop bks (bs ++ [((m, n), dd), ((m, n), [])]) i j).flatten
        = (OrderedBuffer.chunksLoop bks (bs ++ [((m, n), [])]) i j).flatten
            ++ dd := by
  intro bs
  induction bs with
  | nil =>
    intro i j
    simp only [List.nil_append, OrderedBuffer.chunksLoop, emitRange_last,
      lt_irrefl, if_false, List.flatten_append, List.flatten_cons,
      List.flatten_nil, List.append_nil, List.length_nil]
    by_cases hd : dd.length = 0
    · have : dd = [] := List.length_eq_zero.mp hd
      simp [this]
    · simp only [if_neg hd]
      simp
  | cons hd rest ih =>
    obtain ⟨⟨m', n'⟩, d'⟩ := hd
    intro i j
    simp only [List.cons_append, OrderedBuffer.chunksLoop,
      List.flatten_append, List.append_eq]
    rw [ih m' n']
    simp [List.flatten_append]

theorem flatten_chunksLoop_write (bks0 bks' : List (List α)) (I J : ℕ)
    (data : List α) (P1 P2 : ℕ)
    (hb : ∀ k, k < I → bks'.getD k [] = bks0.getD k [])
    (hI : (bks'.getD I []).take J = (bks0.getD I []).take J)
    (hbase : ∀ i j, posLE (i, j) (I, J) →
        (OrderedBuffer.emitRange bks' i j P1 P2).flatten
          = (OrderedBuffer.emitRange bks0 i j I J).flatten ++ data) :
    ∀ (bs : List ((ℕ × ℕ) × List α)) (i j : ℕ),
      List.Chain posLE (i, j) (bs.map Prod.fst) →
      (∀ p ∈ bs.map Prod.fst, posLE p (I, J)) → posLE (i, j) (I, J) →
      (OrderedBuffer.chunksLoop bks' (bs ++ [((P1, P2), [])]) i j).flatten
        = (OrderedBuffer.chunksLoop bks0 (bs ++ [((I, J), [])]) i j).flatten
            ++ data := by
  intro bs
  induction bs with
  | nil =>
    intro i j _ _ hij
    simp only [List.nil_append, OrderedBuffer.chunksLoop,
      List.flatten_append, List.flatten_cons, List.flatten_nil,
      List.append_nil, List.length_nil, lt_irrefl, if_true, if_false]
    have := hbase i j hij
    simpa using this
  | cons hd rest ih =>
    obtain ⟨⟨m, n⟩, d⟩ := hd
    intro i j hchain hle hij
    have h2 : posLE (m, n) (I, J) := hle (m, n) (by simp)
    have h1 : posLE (i, j) (m, n) := (List.chain_cons.mp hchain).1
    have him : i ≤ m := by
      rcases h1 with h | ⟨h, _⟩ <;> omega
    have hEq : OrderedBuffer.emitRange bks' i j m n
        = OrderedBuffer.emitRange bks0 i j m n := by
      refine emitRange_eq_of_agree bks0 bks' m n ?_ ?_ (m - i) i j
        (le_refl _) him
      · intro k hk
        refine hb k ?_
        rcases h2 with h | ⟨h, _⟩ <;> omega
      · rcases h2 with h | ⟨heq, hn⟩
        · rw [hb m h]
        · subst heq
          have := congrArg (List.take n) hI
          rwa [List.take_take, List.take_take, min_eq_left hn] at this
    simp only [List.cons_append, OrderedBuffer.chunksLoop,
      List.flatten_append, List.append_eq]
    rw [hEq, ih m n (List.chain_cons.mp hchain).2
      (fun p hp => hle p (List.mem_cons_of_mem _ hp)) h2]
    simp [List.flatten_append]

/-- Pushing records into the buffer appends exactly those records to the
chunk contents: the chunks yield the buffered elements in insertion
order. -/
theorem joinChunks_push (b : OrderedBuffer α) (data : List α)
    (hwf : BufWf b) (hne : data ≠ []) :
    (b.push data).joinChunks = b.joinChunks ++ data := by
  have hsize : 1 ≤ data.length := by
    cases data with
    | nil => exact absurd rfl hne
    | cons x xs => simp
  have hzero : posLE (0, 0) b.pos := by
    simp only [posLE]
    omega
  by_cases hfit : data.length ≤ b.bucket_capacity - b.pos.2
  · -- the record fits in the current bucket
    have hpush : b.push data = { b with
        buckets := (if b.pos.1 = b.buckets.length then b.buckets ++ [[]]
            else b.buckets).set b.pos.1
          (writeSlice ((if b.pos.1 = b.buckets.length then b.buckets ++ [[]]
            else b.buckets).getD b.pos.1 []) b.pos.2 data),
        pos := if (b.pos.2 + data.length) % b.bucket_capacity = 0
          then (b.pos.1 + 1, 0) else (b.pos.1, (b.pos.2 + data.length) % b.bucket_capacity) } := by
      unfold OrderedBuffer.push
      rw [if_pos hfit]
    set bks0 := if b.pos.1 = b.buckets.length then b.buckets ++ [[]]
        else b.buckets with hbks0
    set bks' := bks0.set b.pos.1
        (writeSlice (bks0.getD b.pos.1 []) b.pos.2 data) with hbks'
    have hsum : b.pos.2 + data.length ≤ b.bucket_capacity := by
      have h1 := hwf.j_lt
      have h2 := hfit
      omega
    have hIlen0 : b.pos.1 < bks0.length := by
      rw [hbks0]
      by_cases hI : b.pos.1 = b.buckets.length
      · rw [if_pos hI, List.length_append]
        simp only [List.length_singleton]
        omega
      · rw [if_neg hI]
        exact lt_of_le_of_ne hwf.i_le hI
    have hold_eq : ∀ k, k ≤ b.pos.1 →
        bks0.getD k [] = b.buckets.getD k [] := by
      intro k hk
      rw [hbks0]
      by_cases hI : b.pos.1 = b.buckets.length
      · rw [if_pos hI]
        by_cases hkl : k < b.buckets.length
        · exact List.getD_append _ _ _ _ hkl
        · have hkeq : k = b.buckets.length := by omega
          rw [List.getD_append_right _ _ _ _ (by omega), hkeq,
            List.getD_eq_default _ _ (le_refl _)]
          simp
      · rw [if_neg hI]
    have hJlen : b.pos.2 ≤ (bks0.getD b.pos.1 []).length := by
      rw [hold_eq _ (le_refl _)]
      exact hwf.cur_len
    have hlenle : (bks0.getD b.pos.1 []).length ≤ b.bucket_capacity := by
      rw [hold_eq _ (le_refl _)]
      by_cases hkl : b.pos.1 < b.buckets.length
      · rw [List.getD_eq_getElem _ _ hkl]
        exact hwf.len_le _ (List.getElem_mem hkl)
      · rw [List.getD_eq_default _ _ (not_lt.mp hkl)]
        simp
    have hF1 : ∀ k, k ≠ b.pos.1 → bks'.getD k [] = bks0.getD k [] := by
      intro k hk
      rw [hbks']
      exact getD_set_ne _ _ _ _ _ (Ne.symm hk)
    have hF2 : bks'.getD b.pos.1 []
        = writeSlice (bks0.getD b.pos.1 []) b.pos.2 data := by
      rw [hbks']
      exact getD_set_self _ _ _ _ hIlen0
    have hItake : (bks'.getD b.pos.1 []).take b.pos.2
        = (bks0.getD b.pos.1 []).take b.pos.2 := by
      rw [hF2]
      exact take_writeSlice _ _ _ hJlen
    have hblow : ∀ k, k < b.pos.1 →
        bks'.getD k [] = b.buckets.getD k [] := by
      intro k hk
      rw [hF1 k (by omega), hold_eq k (by omega)]
    -- switch the reference side from the original buckets to `bks0`
    have hswap : OrderedBuffer.chunksLoop b.buckets
        (b.bunchs ++ [(b.pos, [])]) 0 0
        = OrderedBuffer.chunksLoop bks0 (b.bunchs ++ [(b.pos, [])]) 0 0 := by
      refine (chunksLoop_eq_of_agree b.buckets bks0 b.pos.1 b.pos.2 ?_ ?_
        _ 0 0 ?_ ?_).symm
      · intro k hk
        exact hold_eq k (by omega)
      · rw [hold_eq _ (le_refl _)]
      · rw [List.map_append]
        refine chain_posLE_snoc b.pos (0, 0) _ hwf.bunch_chain ?_ hzero
        exact hwf.bunch_le
      · intro p hp
        rw [List.map_append] at hp
        rcases List.mem_append.mp hp with h | h
        · exact hwf.bunch_le p h
        · simp only [List.map_cons, List.map_nil, List.mem_singleton] at h
          rw [h]
          exact posLE_refl _
    have hkey : ∀ P1 P2,
        (∀ i j, posLE (i, j) (b.pos.1, b.pos.2) →
          (OrderedBuffer.emitRange bks' i j P1 P2).flatten
            = (OrderedBuffer.emitRange bks0 i j b.pos.1 b.pos.2).flatten
                ++ data) →
        (OrderedBuffer.chunksLoop bks' (b.bunchs ++ [((P1, P2), [])]) 0 0).flatten
          = (OrderedBuffer.chunksLoop bks0
              (b.bunchs ++ [((b.pos.1, b.pos.2), [])]) 0 0).flatten ++ data := by
      intro P1 P2 hbase
      refine flatten_chunksLoop_write bks0 bks' b.pos.1 b.pos.2 data P1 P2
        ?_ hItake hbase b.bunchs 0 0 hwf.bunch_chain ?_ hzero
      · intro k hk
        exact hF1 k (by omega)
      · intro p hp
        exact hwf.bunch_le p hp
    rw [hpush]
    unfold OrderedBuffer.joinChunks OrderedBuffer.chunks
    simp only
    rw [hswap]
    by_cases hmod : (b.pos.2 + data.length) % b.bucket_capacity = 0
    · have hcap : b.pos.2 + data.length = b.bucket_capacity := by
        rcases Nat.lt_or_ge (b.pos.2 + data.length) b.bucket_capacity with h | h
        · rw [Nat.mod_eq_of_lt h] at hmod
          omega
        · omega
      rw [if_pos hmod]
      have hbase := flatten_emitRange_write_b bks0 bks' b.pos.1 b.pos.2 data
        hF1 hF2 hJlen hne (by omega)
      have := hkey (b.pos.1 + 1) 0
        (fun i j hij => hbase (b.pos.1 + 1 - i) i j (le_refl _) hij)
      simpa using this
    · rw [if_neg hmod]
      have hlt : b.pos.2 + data.length < b.bucket_capacity := by
        rcases Nat.lt_or_ge (b.pos.2 + data.length) b.bucket_capacity with h | h
        · exact h
        · have : b.pos.2 + data.length = b.bucket_capacity := by omega
          rw [this] at hmod
          exact absurd (Nat.mod_self _) hmod
      rw [Nat.mod_eq_of_lt hlt]
      have hbase := flatten_emitRange_write_a bks0 bks' b.pos.1 b.pos.2 data
        hF1 hF2 hJlen hne
      have := hkey b.pos.1 (b.pos.2 + data.length)
        (fun i j hij => hbase (b.pos.1 - i) i j (le_refl _) hij)
      simpa using this
  · -- the record does not fit: it becomes a standalone bunch
    have hpush : b.push data
        = { b with bunchs := b.bunchs ++ [(b.pos, data)] } := by
      unfold OrderedBuffer.push
      rw [if_neg hfit]
    rw [hpush]
    unfold OrderedBuffer.joinChunks OrderedBuffer.chunks
    simp only
    have : b.bunchs ++ [(b.pos, data)] ++ [(b.pos, [])]
        = b.bunchs ++ [((b.pos.1, b.pos.2), data), ((b.pos.1, b.pos.2), [])] := by
      simp
    rw [this, chunksLoop_snoc_bunch]

theorem writeSlice_length (old : List α) (J : ℕ) (data : List α)
    (hJ : J ≤ old.length) :
    (writeSlice old J data).length = max old.length (J + data.length) := by
  unfold writeSlice
  simp only [List.length_append, List.length_take, List.length_drop]
  omega

theorem BufWf_push {b : OrderedBuffer α} (data : List α) (hwf : BufWf b)
    (hne : data ≠ []) : BufWf (b.push data) := by
  have hsize : 1 ≤ data.length := by
    cases data with
    | nil => exact absurd rfl hne
    | cons x xs => simp
  by_cases hfit : data.length ≤ b.bucket_capacity - b.pos.2
  · have hpush : b.push data = { b with
        buckets := (if b.pos.1 = b.buckets.length then b.buckets ++ [[]]
            else b.buckets).set b.pos.1
          (writeSlice ((if b.pos.1 = b.buckets.length then b.buckets ++ [[]]
            else b.buckets).getD b.pos.1 []) b.pos.2 data),
        pos := if (b.pos.2 + data.length) % b.bucket_capacity = 0
          then (b.pos.1 + 1, 0)
          else (b.pos.1, (b.pos.2 + data.length) % b.bucket_capacity) } := by
      unfold OrderedBuffer.push
      rw [if_pos hfit]
    set bks0 := if b.pos.1 = b.buckets.length then b.buckets ++ [[]]
        else b.buckets with hbks0
    set bks' := bks0.set b.pos.1
        (writeSlice (bks0.getD b.pos.1 []) b.pos.2 data) with hbks'
    have hsum : b.pos.2 + data.length ≤ b.bucket_capacity := by
      have h1 := hwf.j_lt
      have h2 := hfit
      omega
    have hIlen0 : b.pos.1 < bks0.length := by
      rw [hbks0]
      by_cases hI : b.pos.1 = b.buckets.length
      · rw [if_pos hI, List.length_append]
        simp only [List.length_singleton]
        omega
      · rw [if_neg hI]
        exact lt_of_le_of_ne hwf.i_le hI
    have hold_eq : ∀ k, k ≤ b.pos.1 →
        bks0.getD k [] = b.buckets.getD k [] := by
      intro k hk
      rw [hbks0]
      by_cases hI : b.pos.1 = b.buckets.length
      · rw [if_pos hI]
        by_cases hkl : k < b.buckets.length
        · exact List.getD_append _ _ _ _ hkl
        · have hkeq : k = b.buckets.length := by omega
          rw [List.getD_append_right _ _ _ _ (by omega), hkeq,
            List.getD_eq_default _ _ (le_refl _)]
          simp
      · rw [if_neg hI]
    have hJlen : b.pos.2 ≤ (bks0.getD b.pos.1 []).length := by
      rw [hold_eq _ (le_refl _)]
      exact hwf.cur_len
    have hlenle : (bks0.getD b.pos.1 []).length ≤ b.bucket_capacity := by
      rw [hold_eq _ (le_refl _)]
      by_cases hkl : b.pos.1 < b.buckets.length
      · rw [List.getD_eq_getElem _ _ hkl]
        exact hwf.len_le _ (List.getElem_mem hkl)
      · rw [List.getD_eq_default _ _ (not_lt.mp hkl)]
        simp
    have hF2 : bks'.getD b.pos.1 []
        = writeSlice (bks0.getD b.pos.1 []) b.pos.2 data := by
      rw [hbks']
      exact getD_set_self _ _ _ _ hIlen0
    have hlen_set : bks'.length = bks0.length := by
      rw [hbks']
      exact List.length_set _ _ _
    have hlenle' : ∀ bk ∈ bks', bk.length ≤ b.bucket_capacity := by
      intro bk hbk
      rcases List.mem_or_eq_of_mem_set hbk with h | h
      · rw [hbks0] at h
        by_cases hI : b.pos.1 = b.buckets.length
        · rw [if_pos hI] at h
          rcases List.mem_append.mp h with h | h
          · exact hwf.len_le _ h
          · simp only [List.mem_singleton] at h
            rw [h]
            simp
        · rw [if_neg hI] at h
          exact hwf.len_le _ h
      · rw [h, writeSlice_length _ _ _ hJlen]
        omega
    have hwlen : (bks'.getD b.pos.1 []).length
        = max (bks0.getD b.pos.1 []).length (b.pos.2 + data.length) := by
      rw [hF2, writeSlice_length _ _ _ hJlen]
    rw [hpush]
    by_cases hmod : (b.pos.2 + data.length) % b.bucket_capacity = 0
    · rw [if_pos hmod]
      refine ⟨hwf.cap_pos, ?_, ?_, hlenle', ?_, hwf.bunch_chain, ?_,
        hwf.bunch_ne⟩
      · show (0 : ℕ) < b.bucket_capacity
        exact hwf.cap_pos
      · show b.pos.1 + 1 ≤ bks'.length
        rw [hlen_set]
        omega
      · show (0 : ℕ) ≤ (bks'.getD (b.pos.1 + 1) []).length
        exact Nat.zero_le _
      · intro p hp
        have h : p.1 < b.pos.1 ∨ (p.1 = b.pos.1 ∧ p.2 ≤ b.pos.2) :=
          hwf.bunch_le p hp
        show p.1 < b.pos.1 + 1 ∨ (p.1 = b.pos.1 + 1 ∧ p.2 ≤ 0)
        omega
    · rw [if_neg hmod]
      have hlt : b.pos.2 + data.length < b.bucket_capacity := by
        rcases Nat.lt_or_ge (b.pos.2 + data.length) b.bucket_capacity with h | h
        · exact h
        · have : b.pos.2 + data.length = b.bucket_capacity := by omega
          rw [this] at hmod
          exact absurd (Nat.mod_self _) hmod
      refine ⟨hwf.cap_pos, ?_, ?_, hlenle', ?_, hwf.bunch_chain, ?_,
        hwf.bunch_ne⟩
      · show (b.pos.2 + data.length) % b.bucket_capacity < b.bucket_capacity
        exact Nat.mod_lt _ hwf.cap_pos
      · show b.pos.1 ≤ bks'.length
        rw [hlen_set]
        omega
      · show (b.pos.2 + data.length) % b.bucket_capacity
          ≤ (bks'.getD b.pos.1 []).length
        rw [Nat.mod_eq_of_lt hlt, hwlen]
        omega
      · intro p hp
        have h : p.1 < b.pos.1 ∨ (p.1 = b.pos.1 ∧ p.2 ≤ b.pos.2) :=
          hwf.bunch_le p hp
        show p.1 < b.pos.1 ∨ (p.1 = b.pos.1
          ∧ p.2 ≤ (b.pos.2 + data.length) % b.bucket_capacity)
        rw [Nat.mod_eq_of_lt hlt]
        omega
  · have hpush : b.push data
        = { b with bunchs := b.bunchs ++ [(b.pos, data)] } := by
      unfold OrderedBuffer.push
      rw [if_neg hfit]
    have hzero : posLE (0, 0) b.pos := by
      simp only [posLE]
      omega
    rw [hpush]
    refine ⟨hwf.cap_pos, hwf.j_lt, hwf.i_le, hwf.len_le, hwf.cur_len, ?_, ?_,
      ?_⟩
    · show List.Chain posLE (0, 0) ((b.bunchs ++ [(b.pos, data)]).map Prod.fst)
      simp only [List.map_append, List.map_cons, List.map_nil]
      exact chain_posLE_snoc b.pos (0, 0) _ hwf.bunch_chain hwf.bunch_le hzero
    · intro p hp
      simp only [List.map_append, List.map_cons, List.map_nil,
        List.mem_append, List.mem_singleton] at hp
      rcases hp with h | h
      · exact hwf.bunch_le p h
      · rw [h]
        exact posLE_refl _
    · intro x hx
      rcases List.mem_append.mp hx with h | h
      · exact hwf.bunch_ne x h
      · simp only [List.mem_singleton] at h
        rw [h]
        exact hne

theorem length_zero_shape {b : OrderedBuffer α} (hwf : BufWf b)
    (h : b.length = 0) : b.pos = (0, 0) ∧ b.bunchs = [] := by
  unfold OrderedBuffer.length at h
  have hcap := hwf.cap_pos
  have h0 : b.bucket_capacity * b.pos.1 = 0 ∧ b.pos.2 = 0
      ∧ (b.bunchs.map (fun x => x.2.length)).sum = 0 := by omega
  have hi : b.pos.1 = 0 := by
    rcases Nat.mul_eq_zero.mp h0.1 with hc | hi
    · omega
    · exact hi
  constructor
  · exact Prod.ext hi h0.2.1
  · cases hb : b.bunchs with
    | nil => rfl
    | cons x tl =>
      have hx := hwf.bunch_ne x (by rw [hb]; exact List.mem_cons_self _ _)
      have hsum := h0.2.2
      rw [hb] at hsum
      simp only [List.map_cons, List.sum_cons] at hsum
      have hxlen : x.2.length = 0 := by omega
      exact absurd (List.length_eq_zero.mp hxlen) hx

theorem map_modifyAt (l : List α) (n : ℕ) (F : α → α) (g : α → β)
    (hF : ∀ x, g (F x) = g x) : (modifyAt l n F).map g = l.map g := by
  induction l generalizing n with
  | nil => rfl
  | cons x xs ih =>
    cases n with
    | zero => simp [modifyAt, hF]
    | succ k => simp [modifyAt, ih]

theorem map_getD_modifyAt (L : List (List α)) (n : ℕ) (F : List α → List α)
    (g : α → β) (hF : ∀ bk, (F bk).map g = bk.map g) :
    ∀ k, ((modifyAt L n F).getD k []).map g = (L.getD k []).map g := by
  induction L generalizing n with
  | nil =>
    intro k
    rfl
  | cons x xs ih =>
    intro k
    cases n with
    | zero =>
      cases k with
      | zero => exact hF x
      | succ k' => rfl
    | succ n' =>
      cases k with
      | zero => rfl
      | succ k' => exact ih n' k'

theorem map_flatten_emitRange (g : α → β) (bks bks' : List (List α))
    (hb : ∀ k, (bks'.getD k []).map g = (bks.getD k []).map g) :
    ∀ d i j m n, m - i ≤ d →
      ((OrderedBuffer.emitRange bks' i j m n).flatten).map g
        = ((OrderedBuffer.emitRange bks i j m n).flatten).map g := by
  intro d
  induction d with
  | zero =>
    intro i j m n hd
    have him : ¬ i < m := by omega
    rw [OrderedBuffer.emitRange, if_neg him, OrderedBuffer.emitRange,
      if_neg him]
    by_cases hjn : j < n
    · rw [if_pos hjn, if_pos hjn]
      simp only [List.flatten_cons, List.flatten_nil, List.append_nil,
        List.map_take, List.map_drop, hb i]
    · rw [if_neg hjn, if_neg hjn]
  | succ d ih =>
    intro i j m n hd
    by_cases hi : i < m
    · rw [emitRange_step bks' i j m n hi, emitRange_step bks i j m n hi]
      simp only [List.flatten_cons, List.map_append, List.map_drop, hb i]
      rw [ih (i + 1) 0 m n (by omega)]
    · exact ih i j m n (by omega)

theorem map_flatten_chunksLoop (g : α → β) (bks bks' : List (List α))
    (hb : ∀ k, (bks'.getD k []).map g = (bks.getD k []).map g) :
    ∀ (bs' bs : List ((ℕ × ℕ) × List α)),
      List.Forall₂ (fun x y => x.1 = y.1 ∧ x.2.map g = y.2.map g) bs' bs →
      ∀ i j,
      ((OrderedBuffer.chunksLoop bks' bs' i j).flatten).map g
        = ((OrderedBuffer.chunksLoop bks bs i j).flatten).map g := by
  intro bs' bs hf
  induction hf with
  | nil =>
    intro i j
    rfl
  | cons hxy htl ih =>
    rename_i x y tl' tl
    obtain ⟨hpos, hdata⟩ := hxy
    obtain ⟨⟨m, n⟩, d⟩ := x
    obtain ⟨⟨m2, n2⟩, d2⟩ := y
    simp only [Prod.mk.injEq] at hpos
    obtain ⟨hm, hn⟩ := hpos
    subst hm
    subst hn
    intro i j
    simp only at hdata
    have hlen : d.length = d2.length := by
      have := congrArg List.length hdata
      simpa using this
    simp only [OrderedBuffer.chunksLoop, List.flatten_append, List.map_append]
    rw [map_flatten_emitRange g bks bks' hb (m - i) i j m n (le_refl _),
      ih m n, hlen]
    by_cases hz : d2.length = 0
    · rw [if_pos hz, if_pos hz]
    · rw [if_neg hz, if_neg hz]
      simp only [List.flatten_cons, List.flatten_nil, List.append_nil, hdata]

theorem mem_modifyAt {l : List α} {n : ℕ} {F : α → α} {x : α}
    (h : x ∈ modifyAt l n F) : x ∈ l ∨ ∃ y ∈ l, x = F y := by
  induction l generalizing n with
  | nil =>
    simp only [modifyAt, List.not_mem_nil] at h
  | cons a as ih =>
    cases n with
    | zero =>
      simp only [modifyAt, List.mem_cons] at h
      rcases h with h | h
      · exact Or.inr ⟨a, List.mem_cons_self _ _, h⟩
      · exact Or.inl (List.mem_cons_of_mem _ h)
    | succ k =>
      simp only [modifyAt, List.mem_cons] at h
      rcases h with h | h
      · exact Or.inl (by rw [h]; exact List.mem_cons_self _ _)
      · rcases ih h with h' | ⟨y, hy, hxy⟩
        · exact Or.inl (List.mem_cons_of_mem _ h')
        · exact Or.inr ⟨y, List.mem_cons_of_mem _ hy, hxy⟩

theorem forall₂_append_both {R : α → α → Prop} {l1 l2 u1 u2 : List α}
    (h1 : List.Forall₂ R l1 l2) (h2 : List.Forall₂ R u1 u2) :
    List.Forall₂ R (l1 ++ u1) (l2 ++ u2) := by
  induction h1 with
  | nil => exact h2
  | cons hx _ ih => exact List.Forall₂.cons hx ih

theorem forall₂_refl_of {R : α → α → Prop} (l : List α)
    (h : ∀ x, R x x) : List.Forall₂ R l l := by
  induction l with
  | nil => exact List.Forall₂.nil
  | cons a as ih => exact List.Forall₂.cons (h a) ih

theorem forall₂_modifyAt {R : α → α → Prop} (l : List α) (n : ℕ) (F : α → α)
    (hrefl : ∀ x, R x x) (hF : ∀ x, R (F x) x) :
    List.Forall₂ R (modifyAt l n F) l := by
  induction l generalizing n with
  | nil => exact List.Forall₂.nil
  | cons a as ih =>
    cases n with
    | zero => exact List.Forall₂.cons (hF a) (forall₂_refl_of as hrefl)
    | succ k => exact List.Forall₂.cons (hrefl a) (ih k)

theorem map_joinChunks_modifyBucket (b : OrderedBuffer α) (g : α → β)
    (bi ci : ℕ) (f : α → α) (hf : ∀ x, g (f x) = g x) :
    ({ b with buckets :=
        modifyAt b.buckets bi (fun bk => modifyAt bk ci f) } :
        OrderedBuffer α).joinChunks.map g = b.joinChunks.map g := by
  unfold OrderedBuffer.joinChunks OrderedBuffer.chunks
  exact map_flatten_chunksLoop g b.buckets _
    (map_getD_modifyAt b.buckets bi _ g (fun bk => map_modifyAt bk ci f g hf))
    _ _ (forall₂_refl_of _ (fun x => ⟨rfl, rfl⟩)) 0 0

theorem map_joinChunks_modifyBunch (b : OrderedBuffer α) (g : α → β)
    (bi ci : ℕ) (f : α → α) (hf : ∀ x, g (f x) = g x) :
    ({ b with bunchs :=
        modifyAt b.bunchs bi (fun x => (x.1, modifyAt x.2 ci f)) } :
        OrderedBuffer α).joinChunks.map g = b.joinChunks.map g := by
  unfold OrderedBuffer.joinChunks OrderedBuffer.chunks
  refine map_flatten_chunksLoop g b.buckets b.buckets (fun k => rfl)
    _ _ ?_ 0 0
  refine forall₂_append_both ?_ (forall₂_refl_of _ (fun x => ⟨rfl, rfl⟩))
  exact forall₂_modifyAt b.bunchs bi _ (fun x => ⟨rfl, rfl⟩)
    (fun x => ⟨rfl, map_modifyAt x.2 ci f g hf⟩)

theorem BufWf_modifyBucket {b : OrderedBuffer α} (hwf : BufWf b)
    (bi ci : ℕ) (f : α → α) :
    BufWf ({ b with buckets := modifyAt b.buckets bi (fun bk => modifyAt bk ci f) }) := by
  have hlen : ∀ k, ((modifyAt b.buckets bi
        (fun bk => modifyAt bk ci f)).getD k []).length
      = (b.buckets.getD k []).length := by
    intro k
    have hmg := map_getD_modifyAt b.buckets bi
      (fun bk => modifyAt bk ci f) (fun _ => (0 : ℕ))
      (fun bk => map_modifyAt bk ci f _ (fun x => rfl)) k
    have := congrArg List.length hmg
    simpa using this
  refine ⟨hwf.cap_pos, hwf.j_lt, ?_, ?_, ?_, hwf.bunch_chain, hwf.bunch_le,
    hwf.bunch_ne⟩
  · show b.pos.1 ≤ (modifyAt b.buckets bi (fun bk => modifyAt bk ci f)).length
    rw [modifyAt_length]
    exact hwf.i_le
  · intro bk hbk
    rcases mem_modifyAt hbk with h | ⟨y, hy, hby⟩
    · exact hwf.len_le bk h
    · rw [hby]
      show (modifyAt y ci f).length ≤ b.bucket_capacity
      rw [modifyAt_length]
      exact hwf.len_le y hy
  · show b.pos.2 ≤ ((modifyAt b.buckets bi
        (fun bk => modifyAt bk ci f)).getD b.pos.1 []).length
    rw [hlen]
    exact hwf.cur_len

theorem BufWf_modifyBunch {b : OrderedBuffer α} (hwf : BufWf b)
    (bi ci : ℕ) (f : α → α) :
    BufWf ({ b with bunchs := modifyAt b.bunchs bi (fun x => (x.1, modifyAt x.2 ci f)) }) := by
  have hfst : (modifyAt b.bunchs bi
        (fun x => (x.1, modifyAt x.2 ci f))).map Prod.fst
      = b.bunchs.map Prod.fst :=
    map_modifyAt _ _ _ _ (fun x => rfl)
  refine ⟨hwf.cap_pos, hwf.j_lt, hwf.i_le, hwf.len_le, hwf.cur_len, ?_, ?_,
    ?_⟩
  · show List.Chain posLE (0, 0) ((modifyAt b.bunchs bi
      (fun x => (x.1, modifyAt x.2 ci f))).map Prod.fst)
    rw [hfst]
    exact hwf.bunch_chain
  · intro p hp
    show posLE p b.pos
    rw [hfst] at hp
    exact hwf.bunch_le p hp
  · intro x hx
    rcases mem_modifyAt hx with h | ⟨y, hy, hxy⟩
    · exact hwf.bunch_ne x h
    · have hyne := hwf.bunch_ne y hy
      rw [hxy]
      show modifyAt y.2 ci f ≠ []
      intro hc
      have hl := congrArg List.length hc
      rw [modifyAt_length] at hl
      simp only [List.length_nil] at hl
      exact hyne (List.length_eq_zero.mp hl)

theorem SimWf.noopSafe {s : ParticleSimulation} (h : SimWf s) : NoopSafe s := by
  intro hlen
  obtain ⟨hpos, hbun⟩ := length_zero_shape h.buf hlen
  exact ⟨h.coh, chunks_eq_nil _ hpos hbun⟩

theorem ids_le_of_map_eq {l l' : List Particle} (L : ℤ)
    (hmap : l'.map Particle.id = l.map Particle.id)
    (h : ∀ p ∈ l, p.id ≤ L) : ∀ p ∈ l', p.id ≤ L := by
  intro p hp
  have hmem : p.id ∈ l.map Particle.id := by
    rw [← hmap]
    exact List.mem_map_of_mem _ hp
  rcases List.mem_map.mp hmem with ⟨q, hq, hqid⟩
  rw [← hqid]
  exact h q hq

theorem length_flatten_chunkKeep (cs : List (List Particle)) :
    ((cs.map (fun c =>
        if c.countP (·.alive) = c.length then c
        else c.filter (·.alive))).flatten).length
      = (cs.map (fun c => c.countP (·.alive))).sum := by
  induction cs with
  | nil => rfl
  | cons c cs ih =>
    rw [List.map_cons, List.map_cons, List.flatten_cons, List.length_append,
      List.sum_cons, ih, chunkKeep_eq_filter, List.countP_eq_length_filter]

theorem SimWf_consolidate {s : ParticleSimulation} (h : SimWf s) :
    SimWf s.consolidate := by
  by_cases hc : s.buffer.length = 0
      ∧ ((((s.array.data :: s.buffer.chunks).map
          (fun c => c.countP (·.alive))).sum : ℕ) : ℤ) = s.array.size
  · rw [consolidate_eq_of_noop s hc.1 hc.2]
    exact h
  · have hdf := consolidate_data_filter s h.noopSafe
    have hbuf : s.consolidate.buffer = s.buffer.clear := by
      rw [consolidate_eq_of_active s hc]
    have hdata : s.consolidate.array.data
        = ((s.array.data :: s.buffer.chunks).map (fun c =>
            if c.countP (·.alive) = c.length then c
            else c.filter (·.alive))).flatten := by
      rw [consolidate_eq_of_active s hc]
    have hsize : s.consolidate.array.size
        = ((((s.array.data :: s.buffer.chunks).map
            (fun c => c.countP (·.alive))).sum : ℕ) : ℤ) := by
      rw [consolidate_eq_of_active s hc]
      rfl
    have hlast : s.consolidate.last_id = s.last_id := by
      rw [consolidate_eq_of_active s hc]
    refine ⟨?_, ?_, ?_, ?_⟩
    · rw [hbuf]
      exact BufWf_clear h.buf
    · rw [hsize, hdata, length_flatten_chunkKeep]
    · rw [hbuf, joinChunks_clear, List.append_nil, hdf]
      exact h.ids.sublist ((List.filter_sublist _).map _)
    · intro p hp
      rw [hbuf, joinChunks_clear, List.append_nil, hdf] at hp
      rw [hlast]
      exact h.last p (List.mem_of_mem_filter hp)

theorem SimWf_addParticle {s : ParticleSimulation} (h : SimWf s)
    (p : Particle) : SimWf (s.add_particle p) := by
  have hjoin : (s.buffer.push [{ p with id := s.last_id + 1 }]).joinChunks
      = s.buffer.joinChunks ++ [{ p with id := s.last_id + 1 }] :=
    joinChunks_push s.buffer _ h.buf (by simp)
  refine ⟨BufWf_push _ h.buf (by simp), h.coh, ?_, ?_⟩
  · show ((s.array.data
        ++ (s.buffer.push [{ p with id := s.last_id + 1 }]).joinChunks).map
          Particle.id).Pairwise (· < ·)
    rw [hjoin, ← List.append_assoc, List.map_append, List.pairwise_append]
    refine ⟨h.ids, by simp, ?_⟩
    intro a ha bb hb
    simp only [List.map_cons, List.map_nil, List.mem_singleton] at hb
    rcases List.mem_map.mp ha with ⟨q, hq, hqa⟩
    have hql := h.last q hq
    rw [hb, ← hqa]
    show q.id < s.last_id + 1
    omega
  · intro q hq
    show q.id ≤ s.last_id + 1
    have hq' : q ∈ s.array.data
        ++ (s.buffer.push [{ p with id := s.last_id + 1 }]).joinChunks := hq
    rw [hjoin, ← List.append_assoc] at hq'
    rcases List.mem_append.mp hq' with hq' | hq'
    · have := h.last q hq'
      omega
    · simp only [List.mem_singleton] at hq'
      rw [hq']

theorem SimWf_addParticles {s : ParticleSimulation} (h : SimWf s)
    (n : ℕ) : SimWf (s.add_particles n) := by
  set ps := (List.range n).map
    (fun k => { Particle.default with id := s.last_id + 1 + (k : ℤ) })
    with hps
  have hlen : ps.length = n := by
    rw [hps, List.length_map, List.length_range]
  by_cases hn : n = 0
  · have hbuf : (s.add_particles n).buffer = s.buffer := by
      show s.buffer.extend ps = s.buffer
      rw [OrderedBuffer.extend, if_pos (by omega)]
    refine ⟨?_, h.coh, ?_, ?_⟩
    · rw [hbuf]
      exact h.buf
    · show ((s.array.data
          ++ (s.add_particles n).buffer.joinChunks).map Particle.id).Pairwise
        (· < ·)
      rw [hbuf]
      exact h.ids
    · intro q hq
      show q.id ≤ s.last_id + (n : ℤ)
      rw [hbuf] at hq
      have := h.last q hq
      omega
  · have hne : ps ≠ [] := by
      intro hc
      rw [hc] at hlen
      simp only [List.length_nil] at hlen
      omega
    have hbuf : (s.add_particles n).buffer = s.buffer.push ps := by
      show s.buffer.extend ps = s.buffer.push ps
      rw [OrderedBuffer.extend, if_neg (by omega)]
    have hjoin := joinChunks_push s.buffer ps h.buf hne
    have hmem : ∀ q ∈ ps, ∃ k, k < n ∧ q.id = s.last_id + 1 + (k : ℤ) := by
      intro q hq
      rw [hps] at hq
      rcases List.mem_map.mp hq with ⟨k, hk, hkq⟩
      exact ⟨k, List.mem_range.mp hk, by rw [← hkq]⟩
    refine ⟨?_, h.coh, ?_, ?_⟩
    · rw [hbuf]
      exact BufWf_push _ h.buf hne
    · show ((s.array.data
          ++ (s.add_particles n).buffer.joinChunks).map Particle.id).Pairwise
        (· < ·)
      rw [hbuf, hjoin, ← List.append_assoc, List.map_append,
        List.pairwise_append]
      refine ⟨h.ids, ?_, ?_⟩
      · rw [hps, List.map_map]
        have hmono : ∀ a b : ℕ, a < b →
            (s.last_id + 1 + (a : ℤ)) < (s.last_id + 1 + (b : ℤ)) := by
          intro a b hab
          omega
        have := List.Pairwise.map (fun k : ℕ => s.last_id + 1 + (k : ℤ))
          hmono (List.pairwise_lt_range n)
        simpa [Function.comp] using this
      · intro a ha bb hb
        rcases List.mem_map.mp ha with ⟨q, hq, hqa⟩
        rcases List.mem_map.mp hb with ⟨q', hq', hqb⟩
        rcases hmem q' hq' with ⟨k, _, hkid⟩
        have hql := h.last q hq
        rw [← hqa, ← hqb, hkid]
        omega
    · intro q hq
      show q.id ≤ s.last_id + (n : ℤ)
      rw [hbuf, hjoin, ← List.append_assoc] at hq
      rcases List.mem_append.mp hq with hq | hq
      · have := h.last q hq
        omega
      · rcases hmem q hq with ⟨k, hk, hkid⟩
        omega

theorem SimWf_setAliveStore {s : ParticleSimulation} (h : SimWf s)
    (idx : ℕ) (v : Bool) :
    SimWf { s with array := { s.array with
      data := modifyAt s.array.data idx (Particle.setAlive v) } } := by
  have hmap : (modifyAt s.array.data idx (Particle.setAlive v)).map Particle.id
      = s.array.data.map Particle.id :=
    map_modifyAt _ _ _ _ (fun x => rfl)
  refine ⟨h.buf, ?_, ?_, ?_⟩
  · show s.array.size
      = ((modifyAt s.array.data idx (Particle.setAlive v)).length : ℤ)
    rw [modifyAt_length]
    exact h.coh
  · show (((modifyAt s.array.data idx (Particle.setAlive v))
        ++ s.buffer.joinChunks).map Particle.id).Pairwise (· < ·)
    rw [List.map_append, hmap, ← List.map_append]
    exact h.ids
  · intro p hp
    show p.id ≤ s.last_id
    rcases List.mem_append.mp hp with hp | hp
    · exact ids_le_of_map_eq s.last_id hmap
        (fun q hq => h.last q (List.mem_append_left _ hq)) p hp
    · exact h.last p (List.mem_append_right _ hp)

theorem SimWf_setAliveBucket {s : ParticleSimulation} (h : SimWf s)
    (bi ci : ℕ) (v : Bool) :
    SimWf { s with buffer := { s.buffer with
      buckets := modifyAt s.buffer.buckets bi
        (fun bk => modifyAt bk ci (Particle.setAlive v)) } } := by
  have hjoin := map_joinChunks_modifyBucket s.buffer Particle.id bi ci
    (Particle.setAlive v) (fun x => rfl)
  refine ⟨BufWf_modifyBucket h.buf bi ci _, h.coh, ?_, ?_⟩
  · show ((s.array.data
        ++ ({ s.buffer with buckets := modifyAt s.buffer.buckets bi (fun bk => modifyAt bk ci (Particle.setAlive v)) } :
          OrderedBuffer Particle).joinChunks).map Particle.id).Pairwise (· < ·)
    rw [List.map_append, hjoin, ← List.map_append]
    exact h.ids
  · intro p hp
    show p.id ≤ s.last_id
    rcases List.mem_append.mp hp with hp | hp
    · exact h.last p (List.mem_append_left _ hp)
    · exact ids_le_of_map_eq s.last_id hjoin
        (fun q hq => h.last q (List.mem_append_right _ hq)) p hp

theorem SimWf_setAliveBunch {s : ParticleSimulation} (h : SimWf s)
    (bi ci : ℕ) (v : Bool) :
    SimWf { s with buffer := { s.buffer with
      bunchs := modifyAt s.buffer.bunchs bi
        (fun x => (x.1, modifyAt x.2 ci (Particle.setAlive v))) } } := by
  have hjoin := map_joinChunks_modifyBunch s.buffer Particle.id bi ci
    (Particle.setAlive v) (fun x => rfl)
  refine ⟨BufWf_modifyBunch h.buf bi ci _, h.coh, ?_, ?_⟩
  · show ((s.array.data
        ++ ({ s.buffer with bunchs := modifyAt s.buffer.bunchs bi (fun x => (x.1, modifyAt x.2 ci (Particle.setAlive v))) } :
          OrderedBuffer Particle).joinChunks).map Particle.id).Pairwise (· < ·)
    rw [List.map_append, hjoin, ← List.map_append]
    exact h.ids
  · intro p hp
    show p.id ≤ s.last_id
    rcases List.mem_append.mp hp with hp | hp
    · exact h.last p (List.mem_append_left _ hp)
    · exact ids_le_of_map_eq s.last_id hjoin
        (fun q hq => h.last q (List.mem_append_right _ hq)) p hp

theorem SimWf_query {s : ParticleSimulation} (h : SimWf s) (pt : Pt)
    (c : Option ℤ) (r : Option ℚ) (srt : Bool) :
    SimWf (SimOp.apply s (.query pt c r srt)) := by
  unfold SimOp.apply ParticleSimulation.get_neighbour_particles
  cases s.kd_tree with
  | some t => exact h
  | none =>
    cases KDTree.init (s.array.data.map (·.position)) 128 with
    | error e => exact h
    | ok t => exact ⟨h.buf, h.coh, h.ids, h.last⟩

theorem SimWf_apply {s : ParticleSimulation} (h : SimWf s) (op : SimOp) :
    SimWf (SimOp.apply s op) := by
  cases op with
  | addParticle p => exact SimWf_addParticle h p
  | addParticles n => exact SimWf_addParticles h n
  | setAliveStore idx v => exact SimWf_setAliveStore h idx v
  | setAliveBucket bi ci v => exact SimWf_setAliveBucket h bi ci v
  | setAliveBunch bi ci v => exact SimWf_setAliveBunch h bi ci v
  | query pt c r srt => exact SimWf_query h pt c r srt
  | consolidate => exact SimWf_consolidate h

theorem SimWf_runOps {s : ParticleSimulation} (h : SimWf s)
    (ops : List SimOp) : SimWf (runOps s ops) := by
  induction ops generalizing s with
  | nil => exact h
  | cons op ops ih => exact ih (SimWf_apply h op)

theorem SimWf_init {ts : ℚ} {cap : ℕ} {bcap : ℤ} {s0 : ParticleSimulation}
    (h : ParticleSimulation.init ts cap bcap = .ok s0) : SimWf s0 := by
  unfold ParticleSimulation.init at h
  by_cases hb : bcap < 1
  · rw [if_pos hb] at h
    exact absurd h (by simp)
  · rw [if_neg hb] at h
    simp only [Except.ok.injEq] at h
    subst h
    have hjc : (OrderedBuffer.init Particle bcap.toNat).joinChunks = [] := by
      unfold OrderedBuffer.joinChunks
      rw [chunks_eq_nil _ rfl rfl]
      rfl
    refine ⟨BufWf_init Particle bcap.toNat (by omega),
      by simp [DynamicArray.init], ?_, ?_⟩
    · show ((([] : List Particle)
          ++ (OrderedBuffer.init Particle bcap.toNat).joinChunks).map
            Particle.id).Pairwise (· < ·)
      rw [hjc]
      simp
    · intro p hp
      show p.id ≤ -1
      rw [hjc] at hp
      simp [DynamicArray.init] at hp

/-- C2 (amended) — For every trace of additions, in-place alive-flag
mutations, queries and consolidations from a freshly constructed engine:
after `consolidate()` the store holds exactly the records that were alive,
taken from the previous store followed by the pending records in insertion
order, its ids are strictly increasing, and the pending buffer is empty;
the cached spatial index is invalidated only when the consolidation did
something — a no-op consolidation (empty buffer, no dead records) returns
the state, cached index included, unchanged. -/
theorem C2_amended (ts : ℚ) (cap : ℕ) (bcap : ℤ) (s0 : ParticleSimulation)
    (h0 : ParticleSimulation.init ts cap bcap = Except.ok s0)
    (ops : List SimOp) :
    (runOps s0 ops).consolidate.array.data
        = ((runOps s0 ops).array.data
            ++ (runOps s0 ops).buffer.joinChunks).filter (·.alive)
      ∧ (((runOps s0 ops).consolidate.array.data.map Particle.id).Pairwise
          (· < ·))
      ∧ (runOps s0 ops).consolidate.buffer.length = 0
      ∧ ((runOps s0 ops).consolidate.kd_tree = none
          ∨ (runOps s0 ops).consolidate = runOps s0 ops) := by
  have hw := SimWf_runOps (SimWf_init h0) ops
  set s := runOps s0 ops with hs
  have hdf := consolidate_data_filter s hw.noopSafe
  refine ⟨hdf, ?_, ?_, ?_⟩
  · rw [hdf]
    exact hw.ids.sublist ((List.filter_sublist _).map _)
  · by_cases hc : s.buffer.length = 0
        ∧ ((((s.array.data :: s.buffer.chunks).map
            (fun c => c.countP (·.alive))).sum : ℕ) : ℤ) = s.array.size
    · rw [consolidate_eq_of_noop s hc.1 hc.2]
      exact hc.1
    · have hbuf : s.consolidate.buffer = s.buffer.clear := by
        rw [consolidate_eq_of_active s hc]
      rw [hbuf]
      exact length_clear _
  · by_cases hc : s.buffer.length = 0
        ∧ ((((s.array.data :: s.buffer.chunks).map
            (fun c => c.countP (·.alive))).sum : ℕ) : ℤ) = s.array.size
    · exact Or.inr (consolidate_eq_of_noop s hc.1 hc.2)
    · refine Or.inl ?_
      rw [consolidate_eq_of_active s hc]

/-- C2 counterexample (claim as stated) — a reachable state on which
`consolidate()` does not invalidate the cached spatial index: add a
particle, consolidate, query once (building and caching the index), then
consolidate again; the early return for a clean state keeps the cached
index alive. -/
theorem C2_counterexample :
    (runOps initialSim [SimOp.addParticle Particle.default, SimOp.consolidate,
        SimOp.query (0, 0) none none false,
        SimOp.consolidate]).kd_tree.isSome = true := by
  have h12 : (initialSim.add_particle Particle.default).consolidate = c2sB := by
    have h1 : initialSim.add_particle Particle.default = c2sA := rfl
    rw [h1]
    have hch : c2sA.buffer.chunks = [[c2p]] := by
      unfold OrderedBuffer.chunks
      show OrderedBuffer.chunksLoop [[c2p]] ([] ++ [((0, 1), [])]) 0 0 = [[c2p]]
      rw [List.nil_append]
      show OrderedBuffer.emitRange [[c2p]] 0 0 0 1
          ++ (if ([] : List Particle).length = 0 then [] else [[]])
          ++ OrderedBuffer.chunksLoop [[c2p]] [] 0 1 = [[c2p]]
      rw [emitRange_last]
      simp [OrderedBuffer.chunksLoop]
    have hact := consolidate_eq_of_active c2sA
      (fun hcon => absurd hcon.1 (by decide))
    rw [hact, hch]
    rfl
  show (SimOp.apply (SimOp.apply
      ((initialSim.add_particle Particle.default).consolidate)
      (SimOp.query (0, 0) none none false)) SimOp.consolidate).kd_tree.isSome
    = true
  rw [h12]
  have harr : (SimOp.apply c2sB (SimOp.query (0, 0) none none false)).array
      = c2sB.array := rfl
  have hbuf2 : (SimOp.apply c2sB (SimOp.query (0, 0) none none false)).buffer
      = c2sB.buffer := rfl
  have hsome : (SimOp.apply c2sB
      (SimOp.query (0, 0) none none false)).kd_tree.isSome = true := rfl
  have hlen : (SimOp.apply c2sB
      (SimOp.query (0, 0) none none false)).buffer.length = 0 := by
    rw [hbuf2]
    decide
  have hcnt : (((((SimOp.apply c2sB
          (SimOp.query (0, 0) none none false)).array.data
        :: (SimOp.apply c2sB
          (SimOp.query (0, 0) none none false)).buffer.chunks).map
        (fun c => c.countP (·.alive))).sum : ℕ) : ℤ)
      = (SimOp.apply c2sB (SimOp.query (0, 0) none none false)).array.size := by
    rw [hbuf2, harr, chunks_eq_nil c2sB.buffer rfl rfl]
    decide
  have h4 := consolidate_eq_of_noop _ hlen hcnt
  show (SimOp.apply c2sB
      (SimOp.query (0, 0) none none false)).consolidate.kd_tree.isSome = true
  rw [h4]
  exact hsome

theorem C2_amended_witness :
    ParticleSimulation.init 1 4 2 = Except.ok initialSim
      ∧ (c2run.consolidate.array.data
            = (c2run.array.data ++ c2run.buffer.joinChunks).filter (·.alive)
          ∧ ((c2run.consolidate.array.data.map Particle.id).Pairwise (· < ·))
          ∧ c2run.consolidate.buffer.length = 0
          ∧ (c2run.consolidate.kd_tree = none
              ∨ c2run.consolidate = c2run)) :=
  ⟨rfl, C2_amended 1 4 2 initialSim rfl
    [SimOp.addParticle Particle.default, SimOp.consolidate,
      SimOp.setAliveStore 0 false]⟩

theorem except_bind_error {A B E : Type} (ma : Except E A)
    (k : A → Except E B) (e : E) (h : (ma >>= k) = .error e) :
    ma = .error e ∨ ∃ a, ma = .ok a ∧ k a = .error e := by
  cases ma with
  | error e' =>
    refine Or.inl ?_
    have hred : (Except.error e' >>= k : Except E B) = Except.error e' := rfl
    rw [hred] at h
    simp only [Except.error.injEq] at h
    rw [h]
  | ok a =>
    refine Or.inr ⟨a, rfl, ?_⟩
    have hred : (Except.ok a >>= k : Except E B) = k a := rfl
    rw [hred] at h
    exact h

/-- The tree build fails only with `emptyReduction` (the `numpy.amin` of an
empty working set) or an exhausted recursion budget — never with the
configuration error. -/
theorem buildAux_error_shape :
    ∀ (fuel : ℕ) (data : List Pt) (bs : ℕ) (idxs : List ℕ) (e : KDError),
      buildAux data bs fuel idxs = .error e →
      e = .emptyReduction ∨ e = .fuelExhausted := by
  intro fuel
  induction fuel with
  | zero =>
    intro data bs idxs e h
    simp only [buildAux, Except.error.injEq] at h
    exact Or.inr h.symm
  | succ f ih =>
    intro data bs idxs e h
    simp only [buildAux] at h
    split at h
    · simp only [Except.error.injEq] at h
      exact Or.inl h.symm
    · split at h
      · simp at h
      · rcases except_bind_error _ _ _ h with hl | ⟨l, _, h2⟩
        · exact ih _ _ _ _ hl
        · rcases except_bind_error _ _ _ h2 with hr | ⟨r, _, h3⟩
          · exact ih _ _ _ _ hr
          · simp at h3

/-- C8 counterexample (claim as stated) — constructing a `ParticleSimulation`
with the non-positive time step `-1` raises no error at all: the engine is
returned with the negative step stored. -/
theorem C8_counterexample :
    ParticleSimulation.init (-1) 4 2 = Except.ok c8sim := rfl

/-- C8 (amended) — Construction validation: `KDTree` rejects exactly
`bucket_size < 1` with the configuration error (a valid bucket size never
produces it, though building may still fail on degenerate point sets);
`OrderedBuffer` errors exactly when `bucket_capacity < 1` and succeeds
otherwise; `ParticleSimulation` construction validates only the bucket
capacity — it succeeds for every `time_step`, positive or not. -/
theorem C8_amended (data : List Pt) (b : ℤ) (α : Type) (cap : ℤ) (ts : ℚ)
    (pcap : ℕ) (bcap : ℤ) :
    (KDTree.init data b = .error .badBucketSize ↔ b < 1)
    ∧ (OrderedBuffer.initChecked α cap
        = .error "A minimum bucket capacity of 1 is expected." ↔ cap < 1)
    ∧ ((∃ buf, OrderedBuffer.initChecked α cap = .ok buf) ↔ 1 ≤ cap)
    ∧ (ParticleSimulation.init ts pcap bcap
        = .error "A minimum bucket capacity of 1 is expected." ↔ bcap < 1)
    ∧ ((∃ s, ParticleSimulation.init ts pcap bcap = .ok s) ↔ 1 ≤ bcap) := by
  refine ⟨?_, ?_, ?_, ?_, ?_⟩
  · constructor
    · intro h
      by_contra hb
      rw [KDTree.init, if_neg hb] at h
      rcases except_bind_error _ _ _ h with hl | ⟨t, _, h3⟩
      · rcases buildAux_error_shape _ _ _ _ _ hl with he | he <;> simp at he
      · simp at h3
    · intro h
      rw [KDTree.init, if_pos h]
  · constructor
    · intro h
      by_contra hb
      rw [OrderedBuffer.initChecked, if_neg hb] at h
      simp at h
    · intro h
      rw [OrderedBuffer.initChecked, if_pos h]
  · constructor
    · rintro ⟨buf, h⟩
      by_contra hb
      rw [OrderedBuffer.initChecked, if_pos (by omega)] at h
      simp at h
    · intro h
      exact ⟨_, by rw [OrderedBuffer.initChecked, if_neg (by omega)]⟩
  · constructor
    · intro h
      by_contra hb
      rw [ParticleSimulation.init, if_neg hb] at h
      simp at h
    · intro h
      rw [ParticleSimulation.init, if_pos h]
  · constructor
    · rintro ⟨s, h⟩
      by_contra hb
      rw [ParticleSimulation.init, if_pos (by omega)] at h
      simp at h
    · intro h
      exact ⟨_, by rw [ParticleSimulation.init, if_neg (by omega)]⟩

theorem C8_amended_witness :
    (KDTree.init [(0, 0)] 0 = .error .badBucketSize ↔ (0 : ℤ) < 1)
    ∧ (OrderedBuffer.initChecked ℕ 0
        = .error "A minimum bucket capacity of 1 is expected." ↔ (0 : ℤ) < 1)
    ∧ ((∃ buf, OrderedBuffer.initChecked ℕ 0 = .ok buf) ↔ (1 : ℤ) ≤ 0)
    ∧ (ParticleSimulation.init (-1) 4 2
        = .error "A minimum bucket capacity of 1 is expected." ↔ (2 : ℤ) < 1)
    ∧ ((∃ s, ParticleSimulation.init (-1) 4 2 = .ok s) ↔ (1 : ℤ) ≤ 2) :=
  C8_amended [(0, 0)] 0 ℕ 0 (-1) 4 2

/-- C6 — Consolidation is idempotent: on a state whose pending buffer is
empty (cursor at the origin, no bunches) and whose store holds only alive
particles, `consolidate()` returns the state bit-for-bit unchanged; and for
every state whatsoever, a second consolidation right after a first one
changes nothing. -/
theorem C6_consolidate_idempotent (s : ParticleSimulation)
    (hpos : s.buffer.pos = (0, 0)) (hbunch : s.buffer.bunchs = [])
    (halive : ∀ p ∈ s.array.data, p.alive = true)
    (hcoh : s.array.size = (s.array.data.length : ℤ)) :
    s.consolidate = s
      ∧ ∀ t : ParticleSimulation, t.consolidate.consolidate = t.consolidate := by
  have hchunks : s.buffer.chunks = [] := chunks_eq_nil _ hpos hbunch
  have hlen : s.buffer.length = 0 := by
    simp [OrderedBuffer.length, hpos, hbunch]
  refine ⟨?_, consolidate_idem⟩
  apply consolidate_eq_of_noop s hlen
  rw [hchunks]
  have : s.array.data.countP (·.alive) = s.array.data.length :=
    List.countP_eq_length.mpr halive
  simp [this, hcoh]

theorem C6_consolidate_idempotent_witness :
    (ParticleSimulation.mk 1 0 0
        (DynamicArray.mk 4 1 [{ Particle.default with id := 0 }])
        (OrderedBuffer.init Particle 4) none).consolidate
      = ParticleSimulation.mk 1 0 0
          (DynamicArray.mk 4 1 [{ Particle.default with id := 0 }])
          (OrderedBuffer.init Particle 4) none :=
  (C6_consolidate_idempotent _ rfl rfl (by decide) rfl).1

theorem C7_amended_witness :
    ((-1 : ℤ) < 0)
      ∧ (DynamicArray.mk 4 2 [(5 : ℤ), 6]).grow (-1) true
          = DynamicArray.mk 4 2 [(5 : ℤ), 6]
      ∧ (DynamicArray.mk 4 2 [(5 : ℤ), 6]).resize (-1) true
          = DynamicArray.mk 4 (-1) [(5 : ℤ), 6] := by
  have := C7_amended (DynamicArray.mk 4 2 [(5 : ℤ), 6]) (-1) true (by norm_num)
  exact ⟨by norm_num, this.1, this.2.1⟩

theorem foldl_min_spec : ∀ (ps : List Pt) (a : Pt),
    (ps.foldl (fun q r => (min q.1 r.1, min q.2 r.2)) a).1 ≤ a.1
    ∧ (ps.foldl (fun q r => (min q.1 r.1, min q.2 r.2)) a).2 ≤ a.2
    ∧ ∀ x ∈ ps, (ps.foldl (fun q r => (min q.1 r.1, min q.2 r.2)) a).1 ≤ x.1
        ∧ (ps.foldl (fun q r => (min q.1 r.1, min q.2 r.2)) a).2 ≤ x.2 := by
  intro ps
  induction ps with
  | nil =>
    intro a
    exact ⟨le_refl _, le_refl _, by simp⟩
  | cons r tl ih =>
    intro a
    have h := ih (min a.1 r.1, min a.2 r.2)
    refine ⟨?_, ?_, ?_⟩
    · exact le_trans h.1 (by simp [min_le_left])
    · exact le_trans h.2.1 (by simp [min_le_left])
    · intro x hx
      rcases List.mem_cons.mp hx with hx | hx
      · subst hx
        exact ⟨le_trans h.1 (by simp [min_le_right]),
          le_trans h.2.1 (by simp [min_le_right])⟩
      · exact h.2.2 x hx

theorem foldl_max_spec : ∀ (ps : List Pt) (a : Pt),
    a.1 ≤ (ps.foldl (fun q r => (max q.1 r.1, max q.2 r.2)) a).1
    ∧ a.2 ≤ (ps.foldl (fun q r => (max q.1 r.1, max q.2 r.2)) a).2
    ∧ ∀ x ∈ ps, x.1 ≤ (ps.foldl (fun q r => (max q.1 r.1, max q.2 r.2)) a).1
        ∧ x.2 ≤ (ps.foldl (fun q r => (max q.1 r.1, max q.2 r.2)) a).2 := by
  intro ps
  induction ps with
  | nil =>
    intro a
    exact ⟨le_refl _, le_refl _, by simp⟩
  | cons r tl ih =>
    intro a
    have h := ih (max a.1 r.1, max a.2 r.2)
    refine ⟨?_, ?_, ?_⟩
    · exact le_trans (by simp [le_max_left]) h.1
    · exact le_trans (by simp [le_max_left]) h.2.1
    · intro x hx
      rcases List.mem_cons.mp hx with hx | hx
      · subst hx
        exact ⟨le_trans (by simp [le_max_right]) h.1,
          le_trans (by simp [le_max_right]) h.2.1⟩
      · exact h.2.2 x hx

theorem boundsOf_mem {ps : List Pt} {bx : Box} (h : boundsOf ps = some bx) :
    ∀ p ∈ ps, inBox p bx := by
  cases ps with
  | nil => simp [boundsOf] at h
  | cons p0 tl =>
    simp only [boundsOf, Option.some.injEq] at h
    intro p hp
    have hmin := foldl_min_spec tl p0
    have hmax := foldl_max_spec tl p0
    rcases List.mem_cons.mp hp with hp | hp
    · subst hp
      exact ⟨by rw [← h]; exact hmin.1, by rw [← h]; exact hmax.1,
        by rw [← h]; exact hmin.2.1, by rw [← h]; exact hmax.2.1⟩
    · exact ⟨by rw [← h]; exact (hmin.2.2 p hp).1,
        by rw [← h]; exact (hmax.2.2 p hp).1,
        by rw [← h]; exact (hmin.2.2 p hp).2,
        by rw [← h]; exact (hmax.2.2 p hp).2⟩

theorem axis_near (l u qq pp : ℚ) (h1 : l ≤ pp) (h2 : pp ≤ u) :
    max 0 (max (qq - u) (l - qq)) ^ 2 ≤ (qq - pp) ^ 2 := by
  have h0 : (0 : ℚ) ≤ max 0 (max (qq - u) (l - qq)) := le_max_left _ _
  have hle : max 0 (max (qq - u) (l - qq)) ≤ |qq - pp| := by
    rw [max_le_iff, max_le_iff]
    refine ⟨abs_nonneg _, ?_, ?_⟩
    · calc qq - u ≤ qq - pp := by linarith
        _ ≤ |qq - pp| := le_abs_self _
    · calc l - qq ≤ pp - qq := by linarith
        _ ≤ |pp - qq| := le_abs_self _
        _ = |qq - pp| := abs_sub_comm _ _
  calc max 0 (max (qq - u) (l - qq)) ^ 2 ≤ |qq - pp| ^ 2 :=
        pow_le_pow_left₀ h0 hle 2
    _ = (qq - pp) ^ 2 := sq_abs _

theorem axis_far (l u qq pp : ℚ) (h1 : l ≤ pp) (h2 : pp ≤ u) :
    (qq - pp) ^ 2 ≤ max 0 (max (u - qq) (qq - l)) ^ 2 := by
  have hle : |qq - pp| ≤ max 0 (max (u - qq) (qq - l)) := by
    rw [abs_le]
    constructor
    · have : pp - qq ≤ u - qq := by linarith
      have h3 : u - qq ≤ max 0 (max (u - qq) (qq - l)) :=
        le_trans (le_max_left _ _) (le_max_right _ _)
      linarith
    · have : qq - pp ≤ qq - l := by linarith
      have h3 : qq - l ≤ max 0 (max (u - qq) (qq - l)) :=
        le_trans (le_max_right _ _) (le_max_right _ _)
      linarith
  calc (qq - pp) ^ 2 = |qq - pp| ^ 2 := (sq_abs _).symm
    _ ≤ max 0 (max (u - qq) (qq - l)) ^ 2 :=
        pow_le_pow_left₀ (abs_nonneg _) hle 2

theorem nearDist_le_sqDist (q p : Pt) (bx : Box) (h : inBox p bx) :
    nearDist q bx ≤ sqDist q p := by
  unfold nearDist sqDist
  exact add_le_add (axis_near _ _ _ _ h.1 h.2.1)
    (axis_near _ _ _ _ h.2.2.1 h.2.2.2)

theorem sqDist_le_farDist (q p : Pt) (bx : Box) (h : inBox p bx) :
    sqDist q p ≤ farDist q bx := by
  unfold farDist sqDist
  exact add_le_add (axis_far _ _ _ _ h.1 h.2.1)
    (axis_far _ _ _ _ h.2.2.1 h.2.2.2)

theorem WfT_collect_inBox {data : List Pt} {t : KDT} (h : WfT data t) :
    ∀ j ∈ t.collectIndices, inBox (data.getD j ptZero) t.box := by
  cases t with
  | leaf bx idxs => exact h
  | node bx l r => exact h.2.2

theorem except_bind_ok {A B E : Type} (ma : Except E A)
    (k : A → Except E B) (b : B) (h : (ma >>= k) = .ok b) :
    ∃ a, ma = .ok a ∧ k a = .ok b := by
  cases ma with
  | error e' =>
    have hred : (Except.error e' >>= k : Except E B) = Except.error e' := rfl
    rw [hred] at h
    simp at h
  | ok a =>
    refine ⟨a, rfl, ?_⟩
    have hred : (Except.ok a >>= k : Except E B) = k a := rfl
    rw [hred] at h
    exact h

theorem buildAux_wf (data : List Pt) (bs : ℕ) :
    ∀ (fuel : ℕ) (idxs : List ℕ) (t : KDT),
      buildAux data bs fuel idxs = .ok t →
      List.Perm t.collectIndices idxs ∧ WfT data t := by
  intro fuel
  induction fuel with
  | zero =>
    intro idxs t h
    simp [buildAux] at h
  | succ f ih =>
    intro idxs t h
    simp only [buildAux] at h
    split at h
    · simp at h
    · rename_i bx hbd
      split at h
      · rename_i hle
        simp only [Except.ok.injEq] at h
        subst h
        refine ⟨List.Perm.refl _, ?_⟩
        intro j hj
        exact boundsOf_mem hbd _ (List.mem_map_of_mem _ hj)
      · rename_i hgt
        set ax := decide (bx.upper.1 - bx.lower.1 < bx.upper.2 - bx.lower.2)
          with hax
        set split := (coordAx ax bx.lower + coordAx ax bx.upper) / 2
          with hsplit
        rcases except_bind_ok _ _ _ h with ⟨l, hl, h2⟩
        rcases except_bind_ok _ _ _ h2 with ⟨r, hr, h3⟩
        simp only [Except.ok.injEq] at h3
        subst h3
        obtain ⟨hpl, hwl⟩ := ih _ _ hl
        obtain ⟨hpr, hwr⟩ := ih _ _ hr
        have hperm : List.Perm (l.collectIndices ++ r.collectIndices) idxs := by
          refine List.Perm.trans (List.Perm.append hpl hpr) ?_
          have hfe : (fun k : ℕ =>
                decide ¬(coordAx ax (data.getD k ptZero) ≤ split))
              = (fun k : ℕ =>
                !decide (coordAx ax (data.getD k ptZero) ≤ split)) := by
            funext k
            simp only [decide_not]
          rw [hfe]
          exact List.filter_append_perm _ idxs
        refine ⟨hperm, hwl, hwr, ?_⟩
        intro j hj
        exact boundsOf_mem hbd _
          (List.mem_map_of_mem _ (hperm.subset hj))

theorem KDTree_init_wf {points : List Pt} {b : ℤ} {t : KDTree}
    (h : KDTree.init points b = .ok t) :
    t.data = points
      ∧ List.Perm t.tree.collectIndices (List.range points.length)
      ∧ WfT points t.tree := by
  rw [KDTree.init] at h
  split at h
  · simp at h
  · rcases except_bind_ok _ _ _ h with ⟨tr, htr, h2⟩
    simp only [Except.ok.injEq] at h2
    subst h2
    obtain ⟨hp, hw⟩ := buildAux_wf points b.toNat _ _ tr htr
    exact ⟨rfl, hp, hw⟩

theorem sortNeighbours_perm (l : List (ℚ × ℕ)) :
    List.Perm (sortNeighbours l) l :=
  List.perm_insertionSort neighbourLE l

theorem sortNeighbours_sorted (l : List (ℚ × ℕ)) :
    List.Sorted neighbourLE (sortNeighbours l) :=
  List.sorted_insertionSort neighbourLE l

theorem sortNeighbours_congr {l l' : List (ℚ × ℕ)} (h : List.Perm l l') :
    sortNeighbours l = sortNeighbours l' :=
  List.eq_of_perm_of_sorted
    (((sortNeighbours_perm l).trans h).trans (sortNeighbours_perm l').symm)
    (sortNeighbours_sorted l) (sortNeighbours_sorted l')

theorem sortNeighbours_eq_of_sorted {l : List (ℚ × ℕ)}
    (h : List.Sorted neighbourLE l) : sortNeighbours l = l :=
  List.eq_of_perm_of_sorted (sortNeighbours_perm l) (sortNeighbours_sorted l) h

theorem withinPairs_append (data : List Pt) (q : Pt) (rsq : WithTop ℚ)
    (a b : List ℕ) : withinPairs data q rsq (a ++ b)
      = withinPairs data q rsq a ++ withinPairs data q rsq b := by
  unfold withinPairs
  exact List.filterMap_append _ _ _

theorem withinPairs_eq_nil (data : List Pt) (q : Pt) (rsq : WithTop ℚ)
    (js : List ℕ)
    (h : ∀ j ∈ js, ¬((sqDist q (data.getD j ptZero) : WithTop ℚ) ≤ rsq)) :
    withinPairs data q rsq js = [] := by
  unfold withinPairs
  rw [List.filterMap_eq_nil_iff]
  intro j hj
  simp only [if_neg (h j hj)]

theorem withinPairs_eq_map (data : List Pt) (q : Pt) (rsq : WithTop ℚ)
    (js : List ℕ)
    (h : ∀ j ∈ js, ((sqDist q (data.getD j ptZero) : WithTop ℚ) ≤ rsq)) :
    withinPairs data q rsq js
      = js.map (fun j => (sqDist q (data.getD j ptZero), j)) := by
  induction js with
  | nil => rfl
  | cons j js ih =>
    have hj := h j (List.mem_cons_self _ _)
    unfold withinPairs at ih ⊢
    simp only [List.filterMap_cons, if_pos hj, List.map_cons]
    rw [ih (fun x hx => h x (List.mem_cons_of_mem _ hx))]

theorem searchAllLoop_perm (data : List Pt) (q : Pt) (rsq : WithTop ℚ) :
    ∀ (fuel : ℕ) (st : List (KDT × ℚ)) (acc : List (ℚ × ℕ)),
      (st.map (fun e => e.1.weight)).sum ≤ fuel →
      (∀ e ∈ st, WfT data e.1 ∧ e.2 = nearDist q e.1.box) →
      List.Perm (searchAllLoop data q rsq fuel st acc)
        (acc ++ (st.map
          (fun e => withinPairs data q rsq e.1.collectIndices)).flatten) := by
  intro fuel
  induction fuel with
  | zero =>
    intro st acc hsum hwf
    cases st with
    | nil => simp [searchAllLoop]
    | cons e rest =>
      exfalso
      have := e.1.weight_pos
      simp only [List.map_cons, List.sum_cons] at hsum
      omega
  | succ N ih =>
    intro st acc hsum hwf
    cases st with
    | nil => simp [searchAllLoop]
    | cons e rest =>
      obtain ⟨t, nd⟩ := e
      obtain ⟨hwt, hnd⟩ := hwf (t, nd) (List.mem_cons_self _ _)
      simp only at hwt hnd
      have hwrest : ∀ e ∈ rest, WfT data e.1 ∧ e.2 = nearDist q e.1.box :=
        fun e he => hwf e (List.mem_cons_of_mem _ he)
      have hsumrest : (rest.map (fun e => e.1.weight)).sum ≤ N := by
        have := t.weight_pos
        simp only [List.map_cons, List.sum_cons] at hsum
        omega
      rw [searchAllLoop.eq_def]
      simp only []
      by_cases hskip : rsq < ((nd : ℚ) : WithTop ℚ)
      · rw [if_pos hskip]
        have hnil : withinPairs data q rsq t.collectIndices = [] := by
          refine withinPairs_eq_nil data q rsq _ ?_
          intro j hj hle
          have hin := WfT_collect_inBox hwt j hj
          have h1 : nd ≤ sqDist q (data.getD j ptZero) := by
            rw [hnd]
            exact nearDist_le_sqDist q _ t.box hin
          have h2 : ((nd : ℚ) : WithTop ℚ)
              ≤ ((sqDist q (data.getD j ptZero) : ℚ) : WithTop ℚ) :=
            WithTop.coe_le_coe.mpr h1
          exact absurd (lt_of_lt_of_le (lt_of_lt_of_le hskip h2) hle)
            (lt_irrefl _)
        have := ih rest acc hsumrest hwrest
        simp only [List.map_cons, List.flatten_cons, hnil, List.nil_append]
        exact this
      · rw [if_neg hskip]
        by_cases hfar : ((farDist q t.box : ℚ) : WithTop ℚ) ≤ rsq
        · rw [if_pos hfar]
          have hmap : withinPairs data q rsq t.collectIndices
              = t.collectIndices.map
                  (fun j => (sqDist q (data.getD j ptZero), j)) := by
            refine withinPairs_eq_map data q rsq _ ?_
            intro j hj
            have hin := WfT_collect_inBox hwt j hj
            have h1 : sqDist q (data.getD j ptZero) ≤ farDist q t.box :=
              sqDist_le_farDist q _ t.box hin
            exact le_trans (WithTop.coe_le_coe.mpr h1) hfar
          have := ih rest
            (acc ++ t.collectIndices.map
              (fun j => (sqDist q (data.getD j ptZero), j)))
            hsumrest hwrest
          simp only [List.map_cons, List.flatten_cons, hmap]
          rw [← List.append_assoc]
          exact this
        · rw [if_neg hfar]
          cases t with
          | leaf bx idxs =>
            simp only []
            have := ih rest
              (acc ++ idxs.filterMap (fun j =>
                let d := sqDist q (data.getD j ptZero)
                if (d : WithTop ℚ) ≤ rsq then some (d, j) else none))
              hsumrest hwrest
            simp only [List.map_cons, List.flatten_cons]
            rw [← List.append_assoc]
            exact this
          | node bx l r =>
            simp only []
            have hsumsplit :
                (((l, nearDist q l.box) :: (r, nearDist q r.box)
                    :: rest).map (fun e => e.1.weight)).sum ≤ N := by
              simp only [List.map_cons, List.sum_cons, KDT.weight] at hsum ⊢
              omega
            have hsumsplit2 :
                (((r, nearDist q r.box) :: (l, nearDist q l.box)
                    :: rest).map (fun e => e.1.weight)).sum ≤ N := by
              simp only [List.map_cons, List.sum_cons, KDT.weight] at hsum ⊢
              omega
            have hwfl : ∀ e ∈ (l, nearDist q l.box) :: (r, nearDist q r.box)
                :: rest, WfT data e.1 ∧ e.2 = nearDist q e.1.box := by
              intro e he
              rcases List.mem_cons.mp he with he | he
              · rw [he]
                exact ⟨hwt.1, rfl⟩
              · rcases List.mem_cons.mp he with he | he
                · rw [he]
                  exact ⟨hwt.2.1, rfl⟩
                · exact hwrest e he
            have hwfr : ∀ e ∈ (r, nearDist q r.box) :: (l, nearDist q l.box)
                :: rest, WfT data e.1 ∧ e.2 = nearDist q e.1.box := by
              intro e he
              rcases List.mem_cons.mp he with he | he
              · rw [he]
                exact ⟨hwt.2.1, rfl⟩
              · rcases List.mem_cons.mp he with he | he
                · rw [he]
                  exact ⟨hwt.1, rfl⟩
                · exact hwrest e he
            have hcoll : withinPairs data q rsq
                (KDT.node bx l r).collectIndices
                = withinPairs data q rsq l.collectIndices
                  ++ withinPairs data q rsq r.collectIndices := by
              show withinPairs data q rsq
                (l.collectIndices ++ r.collectIndices) = _
              exact withinPairs_append data q rsq _ _
            by_cases hord : nearDist q l.box ≤ nearDist q r.box
            · rw [if_pos hord]
              have := ih ((l, nearDist q l.box) :: (r, nearDist q r.box)
                :: rest) acc hsumsplit hwfl
              simp only [List.map_cons, List.flatten_cons] at this ⊢
              rw [hcoll]
              simp only [List.append_assoc] at this ⊢
              exact this
            · rw [if_neg hord]
              have := ih ((r, nearDist q r.box) :: (l, nearDist q l.box)
                :: rest) acc hsumsplit2 hwfr
              simp only [List.map_cons, List.flatten_cons] at this ⊢
              rw [hcoll]
              simp only [List.append_assoc] at this ⊢
              refine this.trans ?_
              refine List.Perm.append_left acc ?_
              rw [← List.append_assoc, ← List.append_assoc]
              exact List.Perm.append_right _ List.perm_append_comm

theorem kW_append (data : List Pt) (q : Pt) (L0 : WithTop ℚ)
    (a b : List ℕ) : kW data q L0 (a ++ b) = kW data q L0 a ++ kW data q L0 b :=
  List.filterMap_append _ _ _

theorem DD_perm {v w : List (ℚ × ℕ)} (h : List.Perm v w) (hd : DD v) : DD w :=
  hd.perm h (fun hab => Ne.symm hab)

theorem DD_mem_inj {v : List (ℚ × ℕ)} (hd : DD v) {y z : ℚ × ℕ}
    (hy : y ∈ v) (hz : z ∈ v) (h1 : y.1 = z.1) : y = z := by
  by_contra hne
  exact (List.Pairwise.forall (fun _ _ hab => Ne.symm hab) hd hy hz hne) h1

theorem worseLE_refl (a : ℚ × ℕ) : worseLE a a := Or.inr ⟨rfl, le_refl _⟩

theorem worseLE_trans {a b c : ℚ × ℕ} (h : worseLE a b) (g : worseLE b c) :
    worseLE a c := by
  rcases h with h | ⟨h1, h2⟩ <;> rcases g with g | ⟨g1, g2⟩
  · exact Or.inl (lt_trans h g)
  · exact Or.inl (g1 ▸ h)
  · exact Or.inl (h1 ▸ g)
  · exact Or.inr ⟨h1.trans g1, g2.trans h2⟩

theorem pushpop_eq (h : List (ℚ × ℕ)) (x : ℚ × ℕ) :
    pushpop h x = (worstOf h x, (x :: h).erase (worstOf h x)) := rfl

theorem worstOf_spec (h : List (ℚ × ℕ)) (x : ℚ × ℕ) :
    worstOf h x ∈ x :: h ∧ ∀ y ∈ x :: h, worseLE y (worstOf h x) := by
  induction h generalizing x with
  | nil =>
    refine ⟨List.mem_cons_self _ _, ?_⟩
    intro y hy
    rcases List.mem_cons.mp hy with hy | hy
    · rw [hy]
      exact worseLE_refl _
    · simp at hy
  | cons b h ih =>
    have hstep : worstOf (b :: h) x
        = worstOf h (if x.1 < b.1 ∨ (x.1 = b.1 ∧ b.2 < x.2) then b else x) :=
      rfl
    set z := if x.1 < b.1 ∨ (x.1 = b.1 ∧ b.2 < x.2) then b else x with hz
    obtain ⟨hmem, hworst⟩ := ih z
    have hxz : worseLE x z := by
      rw [hz]
      by_cases hc : x.1 < b.1 ∨ (x.1 = b.1 ∧ b.2 < x.2)
      · rw [if_pos hc]
        rcases hc with hc | ⟨h1, h2⟩
        · exact Or.inl hc
        · exact Or.inr ⟨h1, le_of_lt h2⟩
      · rw [if_neg hc]
        exact worseLE_refl _
    have hbz : worseLE b z := by
      rw [hz]
      by_cases hc : x.1 < b.1 ∨ (x.1 = b.1 ∧ b.2 < x.2)
      · rw [if_pos hc]
        exact worseLE_refl _
      · rw [if_neg hc]
        push_neg at hc
        rcases lt_trichotomy b.1 x.1 with hlt | heq | hgt
        · exact Or.inl hlt
        · exact Or.inr ⟨heq, hc.2 heq.symm⟩
        · exact absurd hgt (not_lt.mpr hc.1)
    have hzmem : z ∈ x :: b :: h := by
      rw [hz]
      by_cases hc : x.1 < b.1 ∨ (x.1 = b.1 ∧ b.2 < x.2)
      · rw [if_pos hc]
        exact List.mem_cons_of_mem _ (List.mem_cons_self _ _)
      · rw [if_neg hc]
        exact List.mem_cons_self _ _
    refine ⟨?_, ?_⟩
    · rw [hstep]
      rcases List.mem_cons.mp hmem with hm | hm
      · rw [hm]
        exact hzmem
      · exact List.mem_cons_of_mem _ (List.mem_cons_of_mem _ hm)
    · intro y hy
      rw [hstep]
      have hzw : worseLE z (worstOf h z) :=
        hworst z (List.mem_cons_self _ _)
      rcases List.mem_cons.mp hy with hy | hy
      · rw [hy]
        exact worseLE_trans hxz hzw
      · rcases List.mem_cons.mp hy with hy | hy
        · rw [hy]
          exact worseLE_trans hbz hzw
        · exact hworst y (List.mem_cons_of_mem _ hy)

theorem orderedInsert_take_eq (x : ℚ × ℕ) :
    ∀ (u : List (ℚ × ℕ)) (c : ℕ), c + 1 ≤ u.length →
      (∀ y ∈ u.take (c + 1), y.1 < x.1) →
      (List.orderedInsert neighbourLE x u).take (c + 1) = u.take (c + 1) := by
  intro u
  induction u with
  | nil =>
    intro c hc _
    simp at hc
  | cons y u ih =>
    intro c hc hlt
    have hy : y.1 < x.1 := hlt y (by simp)
    have hnle : ¬ neighbourLE x y := by
      intro hcon
      rcases hcon with h | ⟨h1, _⟩
      · exact absurd (lt_trans h hy) (lt_irrefl _)
      · rw [h1] at hy
        exact absurd hy (lt_irrefl _)
    rw [List.orderedInsert, if_neg hnle]
    cases c with
    | zero => simp
    | succ c' =>
      rw [List.take_succ_cons, List.take_succ_cons]
      congr 1
      refine ih c' (by simpa using hc) ?_
      intro z hz
      exact hlt z (by rw [List.take_succ_cons]; exact List.mem_cons_of_mem _ hz)

theorem orderedInsert_take_perm (x : ℚ × ℕ) :
    ∀ (u : List (ℚ × ℕ)) (c : ℕ),
      (∀ y ∈ u.drop c, x.1 < y.1) →
      List.Perm ((List.orderedInsert neighbourLE x u).take (c + 1))
        (x :: u.take c) := by
  intro u
  induction u with
  | nil =>
    intro c _
    simp [List.orderedInsert]
  | cons y u ih =>
    intro c hlow
    by_cases hc : neighbourLE x y
    · rw [List.orderedInsert, if_pos hc, List.take_succ_cons]
    · rw [List.orderedInsert, if_neg hc]
      cases c with
      | zero =>
        exact absurd (Or.inl (hlow y (by simp))) hc
      | succ c' =>
        rw [List.take_succ_cons, List.take_succ_cons]
        refine List.Perm.trans (List.Perm.cons y (ih c' ?_)) ?_
        · intro z hz
          exact hlow z hz
        · exact List.Perm.swap x y _

theorem sortNeighbours_snoc (W : List (ℚ × ℕ)) (x : ℚ × ℕ) :
    sortNeighbours (W ++ [x])
      = List.orderedInsert neighbourLE x (sortNeighbours W) := by
  have h1 : sortNeighbours (W ++ [x]) = sortNeighbours (x :: W) :=
    sortNeighbours_congr (by simp [List.perm_middle])
  rw [h1]
  rfl

theorem DD_snoc {W : List (ℚ × ℕ)} {x : ℚ × ℕ} (hdd : DD W)
    (hx : ∀ y ∈ W, x.1 ≠ y.1) : DD (W ++ [x]) := by
  rw [DD, List.pairwise_append]
  refine ⟨hdd, by simp, ?_⟩
  intro a ha b hb
  simp only [List.mem_singleton] at hb
  rw [hb]
  exact (hx a ha).symm

theorem sorted_drop_lt {u : List (ℚ × ℕ)} (hs : List.Sorted neighbourLE u)
    (c : ℕ) (hc : c < u.length) (x : ℚ × ℕ) (hxc : x.1 < u[c].1) :
    ∀ y ∈ u.drop c, x.1 < y.1 := by
  intro y hy
  rw [List.drop_eq_getElem_cons hc] at hy
  rcases List.mem_cons.mp hy with hy | hy
  · rw [hy]
    exact hxc
  · have hsor : List.Sorted neighbourLE (u[c] :: u.drop (c + 1)) := by
      rw [← List.drop_eq_getElem_cons hc]
      exact hs.sublist (List.drop_sublist _ _)
    have hrel := (List.pairwise_cons.mp hsor).1 y hy
    rcases hrel with h | ⟨h1, _⟩
    · exact lt_trans hxc h
    · rw [← h1]
      exact hxc

theorem sorted_take_le {u : List (ℚ × ℕ)} (hs : List.Sorted neighbourLE u)
    {c : ℕ} (hc : c < u.length) :
    ∀ y ∈ u.take (c + 1), neighbourLE y u[c] := by
  intro y hy
  rcases List.mem_iff_getElem.mp hy with ⟨i, hi, hyi⟩
  have hil : i < u.length := by
    rw [List.length_take] at hi
    omega
  have hgi : (u.take (c + 1))[i] = u[i] := List.getElem_take u
  rw [hgi] at hyi
  have hic : i ≤ c := by
    rw [List.length_take] at hi
    omega
  rcases Nat.lt_or_ge i c with hlt | hge
  · rw [← hyi]
    exact List.pairwise_iff_getElem.mp hs i c hil hc hlt
  · have hieq : i = c := by omega
    subst hieq
    rw [← hyi]
    exact Or.inr ⟨rfl, le_refl _⟩

theorem goodState_push {c : ℕ} {L0 : WithTop ℚ} {W h : List (ℚ × ℕ)}
    {L : WithTop ℚ} {x : ℚ × ℕ}
    (hg : goodState c L0 W h L) (hfull : ¬ c ≤ h.length) :
    goodState c L0 (W ++ [x]) (x :: h) L := by
  obtain ⟨hperm, hlim⟩ := hg
  have hul : (sortNeighbours W).length = W.length :=
    (sortNeighbours_perm W).length_eq
  have hlen : h.length = min c (sortNeighbours W).length := by
    rw [hperm.length_eq, List.length_take]
  have hWlen : W.length < c := by omega
  have hW' : (sortNeighbours (W ++ [x])).length = W.length + 1 := by
    rw [(sortNeighbours_perm _).length_eq]
    simp
  constructor
  · rw [List.take_of_length_le (by omega)]
    have h1 : List.Perm (x :: h) (x :: W) := by
      refine List.Perm.cons x ?_
      refine hperm.trans ?_
      rw [List.take_of_length_le (by omega)]
      exact sortNeighbours_perm W
    refine h1.trans ?_
    refine List.Perm.trans ?_ (sortNeighbours_perm (W ++ [x])).symm
    have h2 := @List.perm_middle _ x W []
    simpa using h2.symm
  · rw [hlim]
    unfold limitOf
    have h1 : (sortNeighbours W)[c]? = none :=
      List.getElem?_eq_none_iff.mpr (by omega)
    have h2 : (sortNeighbours (W ++ [x]))[c]? = none :=
      List.getElem?_eq_none_iff.mpr (by omega)
    rw [h1, h2]

theorem goodState_skip {c : ℕ} {L0 : WithTop ℚ} {W h : List (ℚ × ℕ)}
    {L : WithTop ℚ} {x : ℚ × ℕ}
    (hg : goodState c L0 W h L) (hx : ∀ y ∈ W, x.1 ≠ y.1)
    (hxlt : (x.1 : WithTop ℚ) < L0) (hgate : ¬ (x.1 : WithTop ℚ) < L) :
    goodState c L0 (W ++ [x]) h L := by
  obtain ⟨hperm, hlim⟩ := hg
  rcases hu : (sortNeighbours W)[c]? with _ | g
  · exfalso
    rw [hlim] at hgate
    unfold limitOf at hgate
    rw [hu] at hgate
    exact hgate hxlt
  · have hc : c < (sortNeighbours W).length := by
      by_contra hcon
      rw [List.getElem?_eq_none_iff.mpr (by omega)] at hu
      simp at hu
    have hgc : (sortNeighbours W)[c] = g := by
      have h1 := (List.getElem?_eq_some_getElem_iff (sortNeighbours W) c hc).mpr
        trivial
      rw [h1] at hu
      exact (Option.some.injEq _ _).mp hu
    have hgx : g.1 < x.1 := by
      rw [hlim] at hgate
      unfold limitOf at hgate
      rw [hu] at hgate
      have hle : (g.1 : ℚ) ≤ x.1 := WithTop.coe_le_coe.mp (not_lt.mp hgate)
      have hgmem : g ∈ W := by
        have : g ∈ sortNeighbours W := by
          rw [← hgc]
          exact List.getElem_mem hc
        exact (sortNeighbours_perm W).subset this
      exact lt_of_le_of_ne hle (Ne.symm (hx g hgmem))
    have hlt : ∀ y ∈ (sortNeighbours W).take (c + 1), y.1 < x.1 := by
      intro y hy
      have := sorted_take_le (sortNeighbours_sorted W) hc y hy
      rcases this with h | ⟨h1, _⟩
      · rw [hgc] at h
        exact lt_trans h hgx
      · rw [hgc] at h1
        rw [h1]
        exact hgx
    have htk := orderedInsert_take_eq x (sortNeighbours W) c (by omega) hlt
    have hmin : min c (c + 1) = c := by omega
    constructor
    · rw [sortNeighbours_snoc]
      have h2 : (List.orderedInsert neighbourLE x (sortNeighbours W)).take c
          = (sortNeighbours W).take c := by
        have h3 := congrArg (List.take c) htk
        rw [List.take_take, List.take_take, hmin] at h3
        exact h3
      rw [h2]
      exact hperm
    · rw [hlim]
      unfold limitOf
      rw [sortNeighbours_snoc]
      have h3 : (List.orderedInsert neighbourLE x (sortNeighbours W))[c]?
          = (sortNeighbours W)[c]? := by
        rw [← List.getElem?_take_of_lt (Nat.lt_succ_self c), htk,
          List.getElem?_take_of_lt (Nat.lt_succ_self c)]
      rw [h3]

theorem beqBridge1 (b a : ℚ × ℕ) :
    (@BEq.beq _ instBEqProd b a) = decide (b = a) := by
  by_cases hba : b = a
  · rw [hba, beq_self_eq_true a]
    simp
  · rw [beq_eq_false_iff_ne.mpr hba]
    simp [hba]

theorem beqBridge2 (b a : ℚ × ℕ) :
    (@BEq.beq _ instBEqOfDecidableEq b a) = decide (b = a) := rfl

theorem eraseBridge (v : List (ℚ × ℕ)) (a : ℚ × ℕ) :
    @List.erase _ instBEqProd v a = @List.erase _ instBEqOfDecidableEq v a := by
  induction v with
  | nil => rfl
  | cons b v ih =>
    simp only [List.erase_cons, beqBridge1, beqBridge2, ih]

theorem perm_erase_prod {l₁ l₂ : List (ℚ × ℕ)} (a : ℚ × ℕ)
    (p : List.Perm l₁ l₂) :
    List.Perm (@List.erase _ instBEqProd l₁ a)
      (@List.erase _ instBEqProd l₂ a) := by
  rw [eraseBridge, eraseBridge]
  exact p.erase a

theorem goodState_pushpop {c : ℕ} {L0 : WithTop ℚ} {W h : List (ℚ × ℕ)}
    {L : WithTop ℚ} {x : ℚ × ℕ}
    (hg : goodState c L0 W h L) (hdd : DD W) (hx : ∀ y ∈ W, x.1 ≠ y.1)
    (hgate : (x.1 : WithTop ℚ) < L) (hfull : c ≤ h.length) :
    goodState c L0 (W ++ [x]) (pushpop h x).2
      (((pushpop h x).1.1 : ℚ) : WithTop ℚ) := by
  obtain ⟨hperm, hlim⟩ := hg
  have hul : (sortNeighbours W).length = W.length :=
    (sortNeighbours_perm W).length_eq
  have hhl : h.length = min c (sortNeighbours W).length := by
    rw [hperm.length_eq, List.length_take]
  have hcW : c ≤ W.length := by omega
  have hlow : ∀ y ∈ (sortNeighbours W).drop c, x.1 < y.1 := by
    intro y hy
    have hc : c < (sortNeighbours W).length := by
      by_contra hcon
      rw [List.drop_eq_nil_of_le (by omega)] at hy
      simp at hy
    have hLc : L = (((sortNeighbours W)[c].1 : ℚ) : WithTop ℚ) := by
      rw [hlim]
      unfold limitOf
      rw [(List.getElem?_eq_some_getElem_iff _ c hc).mpr trivial]
    have hxc : x.1 < (sortNeighbours W)[c].1 := by
      rw [hLc] at hgate
      exact WithTop.coe_lt_coe.mp hgate
    exact sorted_drop_lt (sortNeighbours_sorted W) c hc x hxc y hy
  have hins := orderedInsert_take_perm x (sortNeighbours W) c hlow
  have hxh : List.Perm (x :: h) ((sortNeighbours (W ++ [x])).take (c + 1)) := by
    rw [sortNeighbours_snoc]
    exact (List.Perm.cons x hperm).trans hins.symm
  have hW'len : (sortNeighbours (W ++ [x])).length = W.length + 1 := by
    rw [(sortNeighbours_perm _).length_eq]
    simp
  have hcu' : c < (sortNeighbours (W ++ [x])).length := by omega
  have hgmem : (sortNeighbours (W ++ [x]))[c]
      ∈ (sortNeighbours (W ++ [x])).take (c + 1) := by
    have hlen2 : c < ((sortNeighbours (W ++ [x])).take (c + 1)).length := by
      rw [List.length_take]
      omega
    have hge : ((sortNeighbours (W ++ [x])).take (c + 1))[c]
        = (sortNeighbours (W ++ [x]))[c] := List.getElem_take _
    rw [← hge]
    exact List.getElem_mem hlen2
  have hdd' : DD (sortNeighbours (W ++ [x])) :=
    DD_perm (sortNeighbours_perm _).symm (DD_snoc hdd hx)
  obtain ⟨hmmem, hmworst⟩ := worstOf_spec h x
  have hmmem' : worstOf h x ∈ (sortNeighbours (W ++ [x])).take (c + 1) :=
    hxh.subset hmmem
  have hgworst := sorted_take_le (sortNeighbours_sorted (W ++ [x])) hcu'
  have hddtake : DD ((sortNeighbours (W ++ [x])).take (c + 1)) :=
    hdd'.sublist (List.take_sublist _ _)
  have hmeq : worstOf h x = (sortNeighbours (W ++ [x]))[c] := by
    by_contra hne
    have h1 : worseLE (sortNeighbours (W ++ [x]))[c] (worstOf h x) :=
      hmworst _ (hxh.symm.subset hgmem)
    have h2 : neighbourLE (worstOf h x) (sortNeighbours (W ++ [x]))[c] :=
      hgworst _ hmmem'
    have hne1 : (worstOf h x).1 ≠ (sortNeighbours (W ++ [x]))[c].1 := by
      intro heq
      exact hne (DD_mem_inj hddtake hmmem' hgmem heq)
    rcases h1 with h1 | ⟨h1, _⟩
    · rcases h2 with h2 | ⟨h2, _⟩
      · exact absurd h2 (lt_asymm h1)
      · exact hne1 h2
    · exact hne1 h1.symm
  have htake1 : (sortNeighbours (W ++ [x])).take (c + 1)
      = (sortNeighbours (W ++ [x])).take c ++ [(sortNeighbours (W ++ [x]))[c]] := by
    rw [List.take_succ, (List.getElem?_eq_some_getElem_iff _ c hcu').mpr trivial]
    rfl
  have hgnot : (sortNeighbours (W ++ [x]))[c]
      ∉ (sortNeighbours (W ++ [x])).take c := by
    intro hmem
    rw [htake1, DD, List.pairwise_append] at hddtake
    exact hddtake.2.2 _ hmem _ (List.mem_singleton.mpr rfl) rfl
  constructor
  · rw [pushpop_eq]
    show List.Perm (@List.erase _ instBEqProd (x :: h) (worstOf h x)) _
    rw [hmeq]
    refine (perm_erase_prod _ hxh).trans ?_
    rw [htake1, List.erase_append_right _ hgnot, List.erase_cons_head]
    rw [List.append_nil]
  · rw [pushpop_eq]
    show (((worstOf h x).1 : ℚ) : WithTop ℚ) = _
    rw [hmeq]
    unfold limitOf
    rw [(List.getElem?_eq_some_getElem_iff _ c hcu').mpr trivial]

theorem kW_lt (data : List Pt) (q : Pt) (L0 : WithTop ℚ) (js : List ℕ) :
    WltL0 L0 (kW data q L0 js) := by
  intro y hy
  unfold kW at hy
  rcases List.mem_filterMap.mp hy with ⟨j, _, hj⟩
  simp only at hj
  split at hj
  · rename_i hlt
    have hy2 := (Option.some.injEq _ _).mp hj
    rw [← hy2]
    exact hlt
  · simp at hj

theorem kW_cons_pos (data : List Pt) (q : Pt) (L0 : WithTop ℚ) (j : ℕ)
    (js : List ℕ)
    (h : ((sqDist q (data.getD j ptZero) : ℚ) : WithTop ℚ) < L0) :
    kW data q L0 (j :: js)
      = (sqDist q (data.getD j ptZero), j) :: kW data q L0 js := by
  unfold kW
  rw [List.filterMap_cons]
  simp only [if_pos h]

theorem kW_cons_neg (data : List Pt) (q : Pt) (L0 : WithTop ℚ) (j : ℕ)
    (js : List ℕ)
    (h : ¬ ((sqDist q (data.getD j ptZero) : ℚ) : WithTop ℚ) < L0) :
    kW data q L0 (j :: js) = kW data q L0 js := by
  unfold kW
  rw [List.filterMap_cons]
  simp only [if_neg h]

theorem limitOf_le_L0 {c : ℕ} {L0 : WithTop ℚ} {W : List (ℚ × ℕ)}
    (hW : WltL0 L0 W) : limitOf c L0 W ≤ L0 := by
  unfold limitOf
  rcases hu : (sortNeighbours W)[c]? with _ | g
  · exact le_refl _
  · have hgmem : g ∈ sortNeighbours W := by
      rcases List.getElem?_eq_some_iff.mp hu with ⟨hc, hg⟩
      rw [← hg]
      exact List.getElem_mem hc
    exact le_of_lt (hW g ((sortNeighbours_perm W).subset hgmem))

theorem WltL0_snoc {L0 : WithTop ℚ} {W : List (ℚ × ℕ)} {x : ℚ × ℕ}
    (hW : WltL0 L0 W) (hx : (x.1 : WithTop ℚ) < L0) : WltL0 L0 (W ++ [x]) := by
  intro y hy
  rcases List.mem_append.mp hy with hy | hy
  · exact hW y hy
  · simp only [List.mem_singleton] at hy
    rw [hy]
    exact hx

theorem DD_shift {W : List (ℚ × ℕ)} {x : ℚ × ℕ} {v : List (ℚ × ℕ)}
    (h : DD (W ++ x :: v)) : DD ((W ++ [x]) ++ v) := by
  rw [List.append_assoc, List.singleton_append]
  exact h

theorem DD_head_fresh {W : List (ℚ × ℕ)} {x : ℚ × ℕ} {v : List (ℚ × ℕ)}
    (h : DD (W ++ x :: v)) : ∀ y ∈ W, x.1 ≠ y.1 := by
  intro y hy
  rw [DD, List.pairwise_append] at h
  exact (h.2.2 y hy x (List.mem_cons_self _ _)).symm

theorem DD_drop_mid {W : List (ℚ × ℕ)} {x : ℚ × ℕ} {v : List (ℚ × ℕ)}
    (h : DD (W ++ x :: v)) : DD (W ++ v) := by
  refine h.sublist ?_
  refine List.Sublist.append_left ?_ W
  exact List.sublist_cons_self x v

theorem scanBucket_good (data : List Pt) (q : Pt) (c : ℕ) (L0 : WithTop ℚ) :
    ∀ (js : List ℕ) (W h : List (ℚ × ℕ)) (L : WithTop ℚ),
      goodState c L0 W h L → WltL0 L0 W →
      DD (W ++ kW data q L0 js) →
      goodState c L0 (W ++ kW data q L0 js)
        (scanBucket data q c js h L).1 (scanBucket data q c js h L).2
      ∧ WltL0 L0 (W ++ kW data q L0 js) := by
  intro js
  induction js with
  | nil =>
    intro W h L hg hW _
    refine ⟨?_, ?_⟩
    · show goodState c L0 (W ++ []) (h, L).1 (h, L).2
      rw [List.append_nil]
      exact hg
    · show WltL0 L0 (W ++ [])
      rw [List.append_nil]
      exact hW
  | cons j js ih =>
    intro W h L hg hW hdd
    rw [scanBucket]
    simp only []
    by_cases hd0 : ((sqDist q (data.getD j ptZero) : ℚ) : WithTop ℚ) < L0
    · rw [kW_cons_pos data q L0 j js hd0] at hdd ⊢
      have hx : ∀ y ∈ W, (sqDist q (data.getD j ptZero), j).1 ≠ y.1 :=
        DD_head_fresh hdd
      have hWx : WltL0 L0 (W ++ [(sqDist q (data.getD j ptZero), j)]) :=
        WltL0_snoc hW hd0
      have hddx := DD_shift hdd
      have hshift : (W ++ [(sqDist q (data.getD j ptZero), j)])
            ++ kW data q L0 js
          = W ++ (sqDist q (data.getD j ptZero), j) :: kW data q L0 js := by
        rw [List.append_assoc, List.singleton_append]
      by_cases hgate : ((sqDist q (data.getD j ptZero) : ℚ) : WithTop ℚ) < L
      · rw [if_pos hgate]
        by_cases hfull : c ≤ h.length
        · rw [if_pos hfull]
          have hstep := goodState_pushpop hg
            (by rw [DD, List.pairwise_append] at hdd; exact hdd.1) hx hgate hfull
          have := ih (W ++ [(sqDist q (data.getD j ptZero), j)]) _ _
            hstep hWx hddx
          rw [hshift] at this
          exact this
        · rw [if_neg hfull]
          have hstep := goodState_push (x := (sqDist q (data.getD j ptZero), j))
            hg hfull
          have := ih (W ++ [(sqDist q (data.getD j ptZero), j)]) _ _
            hstep hWx hddx
          rw [hshift] at this
          exact this
      · rw [if_neg hgate]
        have hstep := goodState_skip hg hx hd0 hgate
        have := ih (W ++ [(sqDist q (data.getD j ptZero), j)]) _ _
          hstep hWx hddx
        rw [hshift] at this
        exact this
    · rw [kW_cons_neg data q L0 j js hd0] at hdd ⊢
      have hgate : ¬ ((sqDist q (data.getD j ptZero) : ℚ) : WithTop ℚ) < L := by
        intro hcon
        refine hd0 ?_
        have hle : L ≤ L0 := by
          rw [hg.2]
          exact limitOf_le_L0 hW
        exact lt_of_lt_of_le hcon hle
      rw [if_neg hgate]
      exact ih W h L hg hW hdd

theorem goodState_skip_batch (data : List Pt) (q : Pt) (c : ℕ)
    (L0 : WithTop ℚ) :
    ∀ (js : List ℕ) (W h : List (ℚ × ℕ)) (L : WithTop ℚ),
      goodState c L0 W h L → WltL0 L0 W →
      DD (W ++ kW data q L0 js) →
      (∀ j ∈ js, ¬ ((sqDist q (data.getD j ptZero) : ℚ) : WithTop ℚ) < L) →
      goodState c L0 (W ++ kW data q L0 js) h L
      ∧ WltL0 L0 (W ++ kW data q L0 js) := by
  intro js
  induction js with
  | nil =>
    intro W h L hg hW _ _
    rw [show kW data q L0 [] = ([] : List (ℚ × ℕ)) from rfl, List.append_nil]
    exact ⟨hg, hW⟩
  | cons j js ih =>
    intro W h L hg hW hdd hhi
    by_cases hd0 : ((sqDist q (data.getD j ptZero) : ℚ) : WithTop ℚ) < L0
    · rw [kW_cons_pos data q L0 j js hd0] at hdd ⊢
      have hx : ∀ y ∈ W, (sqDist q (data.getD j ptZero), j).1 ≠ y.1 :=
        DD_head_fresh hdd
      have hstep := goodState_skip hg hx hd0
        (hhi j (List.mem_cons_self _ _))
      have hWx : WltL0 L0 (W ++ [(sqDist q (data.getD j ptZero), j)]) :=
        WltL0_snoc hW hd0
      have hL : L = L := rfl
      have := ih (W ++ [(sqDist q (data.getD j ptZero), j)]) h L
        hstep hWx (DD_shift hdd)
        (fun j' hj' => hhi j' (List.mem_cons_of_mem _ hj'))
      rw [List.append_assoc, List.singleton_append] at this
      exact this
    · rw [kW_cons_neg data q L0 j js hd0] at hdd ⊢
      exact ih W h L hg hW hdd
        (fun j' hj' => hhi j' (List.mem_cons_of_mem _ hj'))

theorem searchKLoop_good (data : List Pt) (q : Pt) (c : ℕ) (L0 : WithTop ℚ) :
    ∀ (fuel : ℕ) (st : List (KDT × ℚ)) (h : List (ℚ × ℕ)) (L : WithTop ℚ)
      (W : List (ℚ × ℕ)),
      (st.map (fun e => e.1.weight)).sum ≤ fuel →
      (∀ e ∈ st, WfT data e.1 ∧ e.2 = nearDist q e.1.box) →
      goodState c L0 W h L → WltL0 L0 W →
      DD (W ++ kW data q L0 (st.map (fun e => e.1.collectIndices)).flatten) →
      List.Perm (searchKLoop data q c fuel st h L)
        ((sortNeighbours (W ++ kW data q L0
          (st.map (fun e => e.1.collectIndices)).flatten)).take c) := by
  intro fuel
  induction fuel with
  | zero =>
    intro st h L W hsum hwf hg hW hdd
    cases st with
    | nil =>
      simp only [searchKLoop, List.map_nil, List.flatten_nil]
      rw [show kW data q L0 [] = ([] : List (ℚ × ℕ)) from rfl, List.append_nil]
      exact hg.1
    | cons e rest =>
      exfalso
      have := e.1.weight_pos
      simp only [List.map_cons, List.sum_cons] at hsum
      omega
  | succ N ih =>
    intro st h L W hsum hwf hg hW hdd
    cases st with
    | nil =>
      simp only [searchKLoop, List.map_nil, List.flatten_nil]
      rw [show kW data q L0 [] = ([] : List (ℚ × ℕ)) from rfl, List.append_nil]
      exact hg.1
    | cons e rest =>
      obtain ⟨t, nd⟩ := e
      obtain ⟨hwt, hnd⟩ := hwf (t, nd) (List.mem_cons_self _ _)
      simp only at hwt hnd
      have hwrest : ∀ e ∈ rest, WfT data e.1 ∧ e.2 = nearDist q e.1.box :=
        fun e he => hwf e (List.mem_cons_of_mem _ he)
      have hsumrest : (rest.map (fun e => e.1.weight)).sum ≤ N := by
        have := t.weight_pos
        simp only [List.map_cons, List.sum_cons] at hsum
        omega
      simp only [List.map_cons, List.flatten_cons, kW_append] at hdd ⊢
      have hddpre : DD (W ++ kW data q L0 t.collectIndices) := by
        refine hdd.sublist ?_
        rw [← List.append_assoc]
        exact List.sublist_append_left _ _
      have hddnext : DD ((W ++ kW data q L0 t.collectIndices)
          ++ kW data q L0 (rest.map (fun e => e.1.collectIndices)).flatten) := by
        rw [List.append_assoc]
        exact hdd
      have hdlow : ∀ j ∈ t.collectIndices,
          ((nd : ℚ) : WithTop ℚ) ≤ ((sqDist q (data.getD j ptZero) : ℚ)
            : WithTop ℚ) := by
        intro j hj
        refine WithTop.coe_le_coe.mpr ?_
        rw [hnd]
        exact nearDist_le_sqDist q _ t.box (WfT_collect_inBox hwt j hj)
      rw [searchKLoop.eq_def]
      simp only []
      by_cases hskip : L < ((nd : ℚ) : WithTop ℚ)
      · rw [if_pos hskip]
        obtain ⟨hg2, hW2⟩ := goodState_skip_batch data q c L0
          t.collectIndices W h L hg hW hddpre
          (fun j hj hcon =>
            absurd (lt_of_lt_of_le hskip (hdlow j hj)) (not_lt.mpr
              (le_of_lt hcon)))
        have := ih rest h L (W ++ kW data q L0 t.collectIndices)
          hsumrest hwrest hg2 hW2 hddnext
        rw [List.append_assoc] at this
        exact this
      · rw [if_neg hskip]
        cases t with
        | leaf bx idxs =>
          simp only []
          obtain ⟨hg2, hW2⟩ := scanBucket_good data q c L0 idxs W h L hg hW
            hddpre
          have := ih rest _ _ (W ++ kW data q L0 idxs)
            hsumrest hwrest hg2 hW2 hddnext
          rw [List.append_assoc] at this
          exact this
        | node bx l r =>
          simp only []
          have hsumsplit :
              ((((l, nearDist q l.box) :: (r, nearDist q r.box)
                  :: rest)).map (fun e => e.1.weight)).sum ≤ N := by
            simp only [List.map_cons, List.sum_cons, KDT.weight] at hsum ⊢
            omega
          have hsumsplit2 :
              ((((r, nearDist q r.box) :: (l, nearDist q l.box)
                  :: rest)).map (fun e => e.1.weight)).sum ≤ N := by
            simp only [List.map_cons, List.sum_cons, KDT.weight] at hsum ⊢
            omega
          have hwfl : ∀ e ∈ (l, nearDist q l.box) :: (r, nearDist q r.box)
              :: rest, WfT data e.1 ∧ e.2 = nearDist q e.1.box := by
            intro e he
            rcases List.mem_cons.mp he with he | he
            · rw [he]
              exact ⟨hwt.1, rfl⟩
            · rcases List.mem_cons.mp he with he | he
              · rw [he]
                exact ⟨hwt.2.1, rfl⟩
              · exact hwrest e he
          have hwfr : ∀ e ∈ (r, nearDist q r.box) :: (l, nearDist q l.box)
              :: rest, WfT data e.1 ∧ e.2 = nearDist q e.1.box := by
            intro e he
            rcases List.mem_cons.mp he with he | he
            · rw [he]
              exact ⟨hwt.2.1, rfl⟩
            · rcases List.mem_cons.mp he with he | he
              · rw [he]
                exact ⟨hwt.1, rfl⟩
              · exact hwrest e he
          have hcoll : kW data q L0 (KDT.node bx l r).collectIndices
              = kW data q L0 l.collectIndices
                ++ kW data q L0 r.collectIndices := by
            show kW data q L0 (l.collectIndices ++ r.collectIndices) = _
            exact kW_append data q L0 _ _
          rw [hcoll] at hdd ⊢
          by_cases hord : nearDist q l.box ≤ nearDist q r.box
          · rw [if_pos hord]
            have := ih ((l, nearDist q l.box) :: (r, nearDist q r.box)
              :: rest) h L W hsumsplit hwfl hg hW (by
                simp only [List.map_cons, List.flatten_cons, kW_append,
                  List.append_assoc]
                simp only [List.append_assoc] at hdd
                exact hdd)
            simp only [List.map_cons, List.flatten_cons, kW_append,
              List.append_assoc] at this ⊢
            exact this
          · rw [if_neg hord]
            have hpm : List.Perm
                (W ++ (kW data q L0 r.collectIndices
                  ++ (kW data q L0 l.collectIndices
                    ++ kW data q L0
                      (rest.map (fun e => e.1.collectIndices)).flatten)))
                (W ++ (kW data q L0 l.collectIndices
                  ++ (kW data q L0 r.collectIndices
                    ++ kW data q L0
                      (rest.map (fun e => e.1.collectIndices)).flatten))) := by
              refine List.Perm.append_left W ?_
              rw [← List.append_assoc, ← List.append_assoc]
              exact List.Perm.append_right _ List.perm_append_comm
            have := ih ((r, nearDist q r.box) :: (l, nearDist q l.box)
              :: rest) h L W hsumsplit2 hwfr hg hW (by
                simp only [List.map_cons, List.flatten_cons, kW_append,
                  List.append_assoc]
                refine DD_perm hpm.symm ?_
                simp only [List.append_assoc] at hdd
                exact hdd)
            simp only [List.map_cons, List.flatten_cons, kW_append,
              List.append_assoc] at this ⊢
            rw [sortNeighbours_congr hpm] at this
            exact this

theorem DD_kW (data : List Pt) (q : Pt) (L0 : WithTop ℚ) (js : List ℕ)
    (hnd : js.Nodup) (hmem : ∀ j ∈ js, j < data.length)
    (hinj : ∀ i j, i < data.length → j < data.length → i ≠ j →
      sqDist q (data.getD i ptZero) ≠ sqDist q (data.getD j ptZero)) :
    DD (kW data q L0 js) := by
  unfold DD kW
  have hp : List.Pairwise (fun i j => i ∈ js ∧ j ∈ js ∧ i ≠ j) js :=
    List.Pairwise.and_mem.mp hnd
  refine List.Pairwise.filterMap _ ?_ hp
  intro a b hab x hx y hy
  simp only at hx hy
  split at hx
  · split at hy
    · have hx2 := (Option.some.injEq _ _).mp hx
      have hy2 := (Option.some.injEq _ _).mp hy
      rw [← hx2, ← hy2]
      exact hinj a b (hmem a hab.1) (hmem b hab.2.1) hab.2.2
    · simp at hy
  · simp at hx

theorem searchKNearests_perm (t : KDTree) (q : Pt) (c : ℕ) (L0 : WithTop ℚ)
    (hwf : WfT t.data t.tree)
    (hperm : List.Perm t.tree.collectIndices (List.range t.data.length))
    (hinj : ∀ i j, i < t.data.length → j < t.data.length → i ≠ j →
      sqDist q (t.data.getD i ptZero) ≠ sqDist q (t.data.getD j ptZero)) :
    searchKNearests t q c L0 true
      = (sortNeighbours (kW t.data q L0 (List.range t.data.length))).take c := by
  have hnd : t.tree.collectIndices.Nodup :=
    hperm.nodup_iff.mpr (List.nodup_range _)
  have hmem : ∀ j ∈ t.tree.collectIndices, j < t.data.length := by
    intro j hj
    exact List.mem_range.mp (hperm.subset hj)
  have hddc : DD (kW t.data q L0 t.tree.collectIndices) :=
    DD_kW t.data q L0 _ hnd hmem hinj
  have hloop := searchKLoop_good t.data q c L0 t.tree.weight
    [(t.tree, nearDist q t.tree.box)] [] L0 []
    (by simp)
    (by
      intro e he
      simp only [List.mem_singleton] at he
      rw [he]
      exact ⟨hwf, rfl⟩)
    ⟨by simp [sortNeighbours], rfl⟩
    (by intro y hy; simp at hy)
    (by
      simp only [List.map_cons, List.map_nil, List.flatten_cons,
        List.flatten_nil, List.append_nil, List.nil_append]
      exact hddc)
  simp only [List.map_cons, List.map_nil, List.flatten_cons,
    List.flatten_nil, List.append_nil, List.nil_append] at hloop
  show sortNeighbours (searchKLoop t.data q c t.tree.weight
    [(t.tree, nearDist q t.tree.box)] [] L0) = _
  have hTsorted : List.Sorted neighbourLE
      ((sortNeighbours (kW t.data q L0 t.tree.collectIndices)).take c) :=
    (sortNeighbours_sorted _).take
  rw [sortNeighbours_congr hloop, sortNeighbours_eq_of_sorted hTsorted]
  have hkwp : List.Perm (kW t.data q L0 t.tree.collectIndices)
      (kW t.data q L0 (List.range t.data.length)) :=
    List.Perm.filterMap _ hperm
  rw [sortNeighbours_congr hkwp]

theorem searchAllWithinRadius_eq (t : KDTree) (q : Pt) (rsq : WithTop ℚ)
    (hwf : WfT t.data t.tree)
    (hperm : List.Perm t.tree.collectIndices (List.range t.data.length)) :
    searchAllWithinRadius t q rsq true
      = sortNeighbours (withinPairs t.data q rsq (List.range t.data.length)) := by
  have hloop := searchAllLoop_perm t.data q rsq t.tree.weight
    [(t.tree, nearDist q t.tree.box)] []
    (by simp)
    (by
      intro e he
      simp only [List.mem_singleton] at he
      rw [he]
      exact ⟨hwf, rfl⟩)
  simp only [List.map_cons, List.map_nil, List.flatten_cons,
    List.flatten_nil, List.append_nil, List.nil_append] at hloop
  show sortNeighbours (searchAllLoop t.data q rsq t.tree.weight
    [(t.tree, nearDist q t.tree.box)] []) = _
  have hwp : List.Perm (withinPairs t.data q rsq t.tree.collectIndices)
      (withinPairs t.data q rsq (List.range t.data.length)) :=
    List.Perm.filterMap _ hperm
  rw [sortNeighbours_congr hloop, sortNeighbours_congr hwp]

theorem c1tree_built : KDTree.init [(0, 0), (3, 0), (5, 0)] 3
    = Except.ok c1tree := by rfl

/-- C1 (amended): `KDTree.search` on a built index, against the claim's own
brute force. A non-positive count or a negative radius yields the empty list;
with no count (or a count covering every point) the result is exactly the
pairs within the inclusive squared radius, sorted ascending; with a count
below the number of points the k-nearest path keeps only candidates STRICTLY
inside the radius — points exactly on the radius are dropped, unlike the
claim's inclusive reading — and returns the first `count` of them in sorted
order (stated under pairwise-distinct distances, which make the top `count`
well defined). -/
theorem C1_amended (points : List Pt) (b : ℤ) (t : KDTree) (q : Pt)
    (hbuild : KDTree.init points b = Except.ok t) :
    (∀ (cc : ℤ) (radius : Option ℚ) (srt : Bool), cc < 1 →
        t.search q (some cc) radius srt = [])
    ∧ (∀ (r : ℚ) (count : Option ℤ), r < 0 →
        t.search q count (some r) true = [])
    ∧ (∀ r : ℚ, 0 ≤ r →
        t.search q none (some r) true
          = sortNeighbours (withinPairs points q ((r ^ 2 : ℚ) : WithTop ℚ)
              (List.range points.length)))
    ∧ (t.search q none none true
        = sortNeighbours (withinPairs points q ⊤ (List.range points.length)))
    ∧ (∀ cc : ℤ, (points.length : ℤ) ≤ cc → 1 ≤ cc →
        (∀ r : ℚ, 0 ≤ r →
          t.search q (some cc) (some r) true
            = sortNeighbours (withinPairs points q ((r ^ 2 : ℚ) : WithTop ℚ)
                (List.range points.length)))
        ∧ t.search q (some cc) none true
            = sortNeighbours (withinPairs points q ⊤
                (List.range points.length)))
    ∧ ((∀ i j, i < points.length → j < points.length → i ≠ j →
          sqDist q (points.getD i ptZero) ≠ sqDist q (points.getD j ptZero)) →
        ∀ cc : ℤ, 1 ≤ cc → cc < (points.length : ℤ) →
          (∀ r : ℚ, 0 ≤ r →
            t.search q (some cc) (some r) true
              = (sortNeighbours (kW points q ((r ^ 2 : ℚ) : WithTop ℚ)
                  (List.range points.length))).take cc.toNat)
          ∧ t.search q (some cc) none true
              = (sortNeighbours (kW points q ⊤
                  (List.range points.length))).take cc.toNat) := by
  obtain ⟨hdata, hperm, hwf⟩ := KDTree_init_wf hbuild
  subst hdata
  refine ⟨?_, ?_, ?_, ?_, ?_, ?_⟩
  · intro cc radius srt hcc
    show (if cc < 1 then [] else searchDispatch t q cc radius srt) = []
    rw [if_pos hcc]
  · intro r count hr
    cases count with
    | none =>
      show searchDispatch t q (t.data.length : ℤ) (some r) true = []
      show (if r < 0 then [] else _) = []
      rw [if_pos hr]
    | some cc =>
      show (if cc < 1 then [] else searchDispatch t q cc (some r) true) = []
      by_cases hcc : cc < 1
      · rw [if_pos hcc]
      · rw [if_neg hcc]
        show (if r < 0 then [] else _) = []
        rw [if_pos hr]
  · intro r hr
    show searchDispatch t q (t.data.length : ℤ) (some r) true = _
    show (if r < 0 then [] else if (t.data.length : ℤ) ≤ (t.data.length : ℤ)
      then searchAllWithinRadius t q ((r ^ 2 : ℚ) : WithTop ℚ) true else _) = _
    rw [if_neg (not_lt.mpr hr), if_pos (le_refl _)]
    exact searchAllWithinRadius_eq t q _ hwf hperm
  · show searchDispatch t q (t.data.length : ℤ) none true = _
    show (if (t.data.length : ℤ) ≤ (t.data.length : ℤ)
      then searchAllWithinRadius t q ⊤ true else _) = _
    rw [if_pos (le_refl _)]
    exact searchAllWithinRadius_eq t q _ hwf hperm
  · intro cc hge hcc1
    constructor
    · intro r hr
      show (if cc < 1 then [] else searchDispatch t q cc (some r) true) = _
      rw [if_neg (by omega)]
      show (if r < 0 then [] else if (t.data.length : ℤ) ≤ cc
        then searchAllWithinRadius t q ((r ^ 2 : ℚ) : WithTop ℚ) true else _)
        = _
      rw [if_neg (not_lt.mpr hr), if_pos hge]
      exact searchAllWithinRadius_eq t q _ hwf hperm
    · show (if cc < 1 then [] else searchDispatch t q cc none true) = _
      rw [if_neg (by omega)]
      show (if (t.data.length : ℤ) ≤ cc
        then searchAllWithinRadius t q ⊤ true else _) = _
      rw [if_pos hge]
      exact searchAllWithinRadius_eq t q _ hwf hperm
  · intro hinj cc h1 h2
    constructor
    · intro r hr
      show (if cc < 1 then [] else searchDispatch t q cc (some r) true) = _
      rw [if_neg (by omega)]
      show (if r < 0 then [] else if (t.data.length : ℤ) ≤ cc
        then _ else searchKNearests t q cc.toNat ((r ^ 2 : ℚ) : WithTop ℚ)
          true) = _
      rw [if_neg (not_lt.mpr hr), if_neg (by omega)]
      exact searchKNearests_perm t q cc.toNat _ hwf hperm hinj
    · show (if cc < 1 then [] else searchDispatch t q cc none true) = _
      rw [if_neg (by omega)]
      show (if (t.data.length : ℤ) ≤ cc then _
        else searchKNearests t q cc.toNat ⊤ true) = _
      rw [if_neg (by omega)]
      exact searchKNearests_perm t q cc.toNat _ hwf hperm hinj

theorem c1search_val : c1tree.search (0, 0) (some 2) (some 3) true
    = [((0 : ℚ), (0 : ℕ))] := by
  norm_num [KDTree.search, searchDispatch, searchKNearests, KDT.weight,
    searchKLoop, scanBucket, sqDist, nearDist, sortNeighbours,
    List.insertionSort, List.orderedInsert, c1tree, KDT.box, ptZero,
    List.getD, WithTop.coe_lt_coe, WithTop.coe_le_coe]

theorem c1ref_val : searchReference [(0, 0), (3, 0), (5, 0)] (0, 0)
    (some 2) (some 3) = [((0 : ℚ), (0 : ℕ)), ((9 : ℚ), (1 : ℕ))] := by
  have hr : List.range 3 = [0, 1, 2] := rfl
  norm_num [searchReference, withinPairs, sqDist, ptZero, List.getD, hr,
    List.filterMap_cons, sortNeighbours,
    List.insertionSort, List.orderedInsert, neighbourLE,
    WithTop.coe_lt_coe, WithTop.coe_le_coe]

/-- C1, counterexample to the claim as written: three collinear points
`0, 3, 5`, query at the origin, `count = 2`, `radius = 3`. The point at
distance exactly 3 lies on the radius, so the claim's inclusive reading
returns both `(0, 0)` and `(9, 1)`; the code's k-nearest path compares
strictly and returns only `(0, 0)`. -/
theorem C1_counterexample :
    KDTree.init [(0, 0), (3, 0), (5, 0)] 3 = Except.ok c1tree
    ∧ c1tree.search (0, 0) (some 2) (some 3) true
        ≠ searchReference [(0, 0), (3, 0), (5, 0)] (0, 0) (some 2) (some 3) := by
  refine ⟨c1tree_built, ?_⟩
  rw [c1search_val, c1ref_val]
  simp

/-- C1 witness: the amended statement instantiated at the three-point
fixture, the build hypothesis discharged by evaluation. -/
theorem C1_amended_witness :
    KDTree.init [(0, 0), (3, 0), (5, 0)] 3 = Except.ok c1tree
    ∧ ((∀ (cc : ℤ) (radius : Option ℚ) (srt : Bool), cc < 1 →
          c1tree.search (0, 0) (some cc) radius srt = [])
      ∧ (∀ (r : ℚ) (count : Option ℤ), r < 0 →
          c1tree.search (0, 0) count (some r) true = [])
      ∧ (∀ r : ℚ, 0 ≤ r →
          c1tree.search (0, 0) none (some r) true
            = sortNeighbours (withinPairs [(0, 0), (3, 0), (5, 0)] (0, 0)
                ((r ^ 2 : ℚ) : WithTop ℚ)
                (List.range (List.length [((0 : ℚ), (0 : ℚ)), (3, 0), (5, 0)]))))
      ∧ (c1tree.search (0, 0) none none true
          = sortNeighbours (withinPairs [(0, 0), (3, 0), (5, 0)] (0, 0) ⊤
              (List.range (List.length [((0 : ℚ), (0 : ℚ)), (3, 0), (5, 0)]))))
      ∧ (∀ cc : ℤ,
          ((List.length [((0 : ℚ), (0 : ℚ)), (3, 0), (5, 0)] : ℤ)) ≤ cc →
          1 ≤ cc →
          (∀ r : ℚ, 0 ≤ r →
            c1tree.search (0, 0) (some cc) (some r) true
              = sortNeighbours (withinPairs [(0, 0), (3, 0), (5, 0)] (0, 0)
                  ((r ^ 2 : ℚ) : WithTop ℚ)
                  (List.range
                    (List.length [((0 : ℚ), (0 : ℚ)), (3, 0), (5, 0)]))))
          ∧ c1tree.search (0, 0) (some cc) none true
              = sortNeighbours (withinPairs [(0, 0), (3, 0), (5, 0)] (0, 0) ⊤
                  (List.range
                    (List.length [((0 : ℚ), (0 : ℚ)), (3, 0), (5, 0)]))))
      ∧ ((∀ i j, i < List.length [((0 : ℚ), (0 : ℚ)), (3, 0), (5, 0)] →
            j < List.length [((0 : ℚ), (0 : ℚ)), (3, 0), (5, 0)] → i ≠ j →
            sqDist (0, 0) (List.getD [(0, 0), (3, 0), (5, 0)] i ptZero)
              ≠ sqDist (0, 0) (List.getD [(0, 0), (3, 0), (5, 0)] j ptZero)) →
          ∀ cc : ℤ, 1 ≤ cc →
            cc < (List.length [((0 : ℚ), (0 : ℚ)), (3, 0), (5, 0)] : ℤ) →
            (∀ r : ℚ, 0 ≤ r →
              c1tree.search (0, 0) (some cc) (some r) true
                = (sortNeighbours (kW [(0, 0), (3, 0), (5, 0)] (0, 0)
                    ((r ^ 2 : ℚ) : WithTop ℚ)
                    (List.range
                      (List.length
                        [((0 : ℚ), (0 : ℚ)), (3, 0), (5, 0)])))).take cc.toNat)
            ∧ c1tree.search (0, 0) (some cc) none true
                = (sortNeighbours (kW [(0, 0), (3, 0), (5, 0)] (0, 0) ⊤
                    (List.range
                      (List.length
                        [((0 : ℚ), (0 : ℚ)), (3, 0), (5, 0)])))).take cc.toNat)) :=
  ⟨by rfl, C1_amended [(0, 0), (3, 0), (5, 0)] 3 c1tree (0, 0) (by rfl)⟩

end Hienoi
